import Mathlib

/-!
# fuzzygen: membership curves, output accumulation, centre-of-area defuzzification

A shallow embedding of `src/cpp/fuzzy.cpp` and `src/cpp/fuzzy.h`, together with the demo
domains of `test/cpp/fuzzy_test.cpp`.

Modelling conventions.  The embedding has two layers.

The exact layer (the definitions up to the centre-of-area reference) computes in unbounded
integers and exact rationals:

* C++ `int` is `ℤ` and C++ `float` is `ℚ`; the constant `0.01f` is `1/100`.
* A division whose divisor is zero is a fault: `fdiv` returns `none`, and the functions
  that divide return `Option`.
* `fmin`, `fmax` and `rintf` of the C library are `min`, `max` and round-half-to-even.
* `hedge` calls `pow` and `sqrt` of the C library, whose values are irrational in general: it
  is generic in the ordered field of values and takes the two functions as a parameter, and
  its properties are stated over `ℝ` with the exact power and square root.
* An index outside `0 .. MAX_CATEGORIES-1` into the accumulator array is a fault (`none`).

The machine layer (namespace `Machine`) embeds the same source functions in the arithmetic
of the machine:

* C++ `int` has 32 bits: the result of `+` and `-` wraps modulo `2^32` (`wrap`).
* C++ `float` is binary32: a conversion from `int`, a product, a sum, a difference and a
  quotient are the exact result rounded to the nearest binary32 number, ties to even
  (`round32`); the constant `0.01f` is `round32 (1/100)`.
* The conversion `(int)` of a value outside the `int` range is a fault.
* The loop of `getCrispValue` need not terminate when `i += d` wraps, so it runs on fuel and
  a run ends with a value, with a fault, or with the fuel spent (`Outcome`).
* Infinities and NaN are not represented; the statements keep to degrees in `[0,1]` and to
  `int` sample points, for which no `float` operation overflows.

Properties that depend neither on the width of `int` nor on rounding are stated on the exact
layer.  Properties of `centre`, of the sampling loop and of `getCrispValue` that do depend on
them are stated on the machine layer; the statements marked "in exact arithmetic" or "in
unbounded integers" record what holds on the exact layer only.
-/

namespace Fuzzy

/-! ## Arithmetic primitives -/

/-- Division of two `float`s; `none` when the divisor is zero. -/
def fdiv (x y : ℚ) : Option ℚ :=
  if y = 0 then none else some (x / y)

/-- C library `fmin`. -/
def fmin (x y : ℚ) : ℚ := min x y

/-- C library `fmax`. -/
def fmax (x y : ℚ) : ℚ := max x y

/-- C library `rintf` in the default rounding mode (to nearest, ties to even), followed by
the conversion to `int`. -/
def rintf (x : ℚ) : ℤ :=
  let f := ⌊x⌋
  let r := x - f
  if r < 1 / 2 then f
  else if 1 / 2 < r then f + 1
  else if f % 2 = 0 then f else f + 1

/-! ## `class FuzzyVariable` -/

/-- The abstract base class: a domain supplies its range and its membership function.
The membership function is `Option`-valued because a concrete domain computes it with the
curve functions, which divide. -/
structure FuzzyVariable where
  minRange : ℤ
  maxRange : ℤ
  membership : ℤ → ℤ → Option ℚ

namespace FuzzyVariable

/-- `static const int MAX_CATEGORIES = 5` (also the default of the template parameter of
`FuzzyOutput`). -/
def MAX_CATEGORIES : ℕ := 5

/-- `FuzzyVariable::centre`, with the division `(float)d / deviation` performed by `dv`. -/
def centreWith (dv : ℚ → ℚ → Option ℚ) (crispValue median deviation : ℤ) : Option ℚ :=
  if crispValue < median then
    let d := median - crispValue
    if d ≥ deviation then some 0
    else (dv (d : ℚ) (deviation : ℚ)).map (fun q => 1 - q)
  else if crispValue > median then
    let d := crispValue - median
    if d ≥ deviation then some 0
    else (dv (d : ℚ) (deviation : ℚ)).map (fun q => 1 - q)
  else some 1

/-- `FuzzyVariable::centre`. -/
def centre (crispValue median deviation : ℤ) : Option ℚ :=
  centreWith fdiv crispValue median deviation

/-- `FuzzyVariable::left`. -/
def left (crispValue median deviation : ℤ) : Option ℚ :=
  if crispValue ≤ median then some 1
  else centre crispValue median deviation

/-- `FuzzyVariable::right`. -/
def right (crispValue median deviation : ℤ) : Option ℚ :=
  if crispValue ≥ median then some 1
  else centre crispValue median deviation

/-- `enum Hedge`. -/
inductive Hedge
  | NONE
  | A_LITTLE
  | SLIGHTLY
  | VERY
  | EXTREMELY
  | VERY_VERY
  | SOMEWHAT
  | INDEED
  deriving DecidableEq, Repr

/-- The functions of the C library `<math.h>` that `hedge` calls, on values of type `F`. -/
structure CMath (F : Type) where
  pow : F → F → F
  sqrt : F → F

/-- `FuzzyVariable::hedge`; `NONE` has no case in the `switch` and leaves `m = membership`. -/
def hedge {F : Type} [LinearOrderedField F] (lib : CMath F) (hedge : Hedge) (membership : F) :
    F :=
  match hedge with
  | .NONE => membership
  | .A_LITTLE => lib.pow membership 1.3
  | .SLIGHTLY => lib.pow membership 1.7
  | .VERY => lib.pow membership 2
  | .EXTREMELY => lib.pow membership 3
  | .VERY_VERY => lib.pow membership 4
  | .SOMEWHAT => lib.sqrt membership
  | .INDEED =>
    if 0 ≤ membership ∧ membership ≤ 0.5 then 2 * lib.pow membership 2
    else 1 - 2 * lib.pow (1 - membership) 2

end FuzzyVariable

/-! ## Curve wiring macros of `fuzzy.h` -/

/-- The shorthand `LEFT_CURVE(c, med, d)`:
`m = fmax(m, category==(c) ? left(crispValue, (med), (d)) : 0)`. -/
def LEFT_CURVE (m : ℚ) (crispValue category c med d : ℤ) : Option ℚ :=
  (if category = c then FuzzyVariable.left crispValue med d else some 0).map (fun v => fmax m v)

/-- The shorthand `RIGHT_CURVE(c, med, d)`:
`m = fmax(m, category==(c) ? right(crispValue, (med), (d)) : 0)`. -/
def RIGHT_CURVE (m : ℚ) (crispValue category c med d : ℤ) : Option ℚ :=
  (if category = c then FuzzyVariable.right crispValue med d else some 0).map (fun v => fmax m v)

/-- The shorthand `CENTRE_CURVE(c, med, d)`:
`m = fmax(m, category==(c) ? centre(crispValue, (med), (d)) : 0)`. -/
def CENTRE_CURVE (m : ℚ) (crispValue category c med d : ℤ) : Option ℚ :=
  (if category = c then FuzzyVariable.centre crispValue med d else some 0).map (fun v => fmax m v)

/-! ## `template<class T> class FuzzyInput` -/

/-- A crisp input bound to its domain. -/
structure FuzzyInput where
  domain : FuzzyVariable
  crispValue : ℤ

namespace FuzzyInput

/-- `FuzzyInput::setCrispValue`. -/
def setCrispValue (self : FuzzyInput) (x : ℤ) : FuzzyInput :=
  { self with crispValue := x }

/-- `FuzzyInput::is(int category)`. -/
def is (self : FuzzyInput) (category : ℤ) : Option ℚ :=
  self.domain.membership self.crispValue category

end FuzzyInput

/-! ## `template<class T, int MAX_CATEGORIES=5> class FuzzyOutput` -/

/-- An output variable: its domain and the accumulated degree `m[category]` of each
category. -/
structure FuzzyOutput where
  domain : FuzzyVariable
  m : Fin FuzzyVariable.MAX_CATEGORIES → ℚ

/-- The loop `for (int i = i0; i <= b; i += d) body`, for a step `d ≥ 1`; the loop state is
threaded through `body`, and a fault of the body ends the loop. -/
def forLoop {σ : Type} (b d : ℤ) (hd : 1 ≤ d) (body : ℤ → σ → Option σ) (i : ℤ) (s : σ) :
    Option σ :=
  if _h : i ≤ b then
    match body i s with
    | none => none
    | some s' => forLoop b d hd body (i + d) s'
  else some s
termination_by (b + 1 - i).toNat
decreasing_by omega

namespace FuzzyOutput

/-- `const int STEPS = 1024`. -/
def STEPS : ℤ := 1024

/-- The index of the accumulator array for `category`; `none` outside the array. -/
def index (category : ℤ) : Option (Fin FuzzyVariable.MAX_CATEGORIES) :=
  if h : 0 ≤ category ∧ category < (FuzzyVariable.MAX_CATEGORIES : ℤ) then
    some ⟨category.toNat, by omega⟩
  else none

/-- The inner loop of `getCrispValue` at sample `i`: over the categories, the running
`fmax` (from `0.0f`) of `fmin(m[category], domain.membership(i, category))`. -/
def thisValuesMembership (self : FuzzyOutput) (i : ℤ) : Option ℚ :=
  (List.finRange FuzzyVariable.MAX_CATEGORIES).foldlM
    (fun (acc : ℚ) (category : Fin FuzzyVariable.MAX_CATEGORIES) =>
      (self.domain.membership i ((category : ℕ) : ℤ)).map
        (fun v => fmax acc (fmin (self.m category) v)))
    0

/-- The value of the inner loop of `getCrispValue` at sample `i` when the membership function
returns `f i category` without fault. -/
def heightOf (m : Fin FuzzyVariable.MAX_CATEGORIES → ℚ) (f : ℤ → ℤ → ℚ) (i : ℤ) : ℚ :=
  (List.finRange FuzzyVariable.MAX_CATEGORIES).foldl
    (fun acc c => fmax acc (fmin (m c) (f i ((c : ℕ) : ℤ)))) 0

/-- The body of the outer loop of `getCrispValue`, on the pair `(totalWeight, sum)`. -/
def accumulate (self : FuzzyOutput) (i : ℤ) (s : ℚ × ℚ) : Option (ℚ × ℚ) :=
  (self.thisValuesMembership i).map (fun t => (s.1 + t, s.2 + (i : ℚ) * t))

/-- The step `d` of the integration: `(b - a) / STEPS` (truncating), raised to `1`. -/
def step (a b : ℤ) : { d : ℤ // 1 ≤ d } :=
  let d := Int.tdiv (b - a) STEPS
  if h : d < 1 then ⟨1, le_refl 1⟩ else ⟨d, not_lt.mp h⟩

/-- The numerical integration of `getCrispValue`: the final `(totalWeight, sum)`. -/
def integrate (self : FuzzyOutput) : Option (ℚ × ℚ) :=
  let a := self.domain.minRange
  let b := self.domain.maxRange
  let d := step a b
  forLoop b d.1 d.2 self.accumulate a (0, 0)

/-- The sample indices the outer loop of `getCrispValue` visits for the range `[a, b]`, in
the order of the visits: the same loop with a body that records `i`. -/
def loopTrace (a b : ℤ) : Option (List ℤ) :=
  let d := step a b
  forLoop b d.1 d.2 (fun i visited => some (visited ++ [i])) a []

/-- `FuzzyOutput::getCrispValue`. -/
def getCrispValue (self : FuzzyOutput) : Option ℤ :=
  match self.integrate with
  | none => none
  | some (totalWeight, sum) =>
    if sum < 1 / 100 then some 0
    else (fdiv sum totalWeight).map rintf

/-- `FuzzyOutput::addMembership`. -/
def addMembership (self : FuzzyOutput) (category : ℤ) (membership : ℚ) : Option FuzzyOutput :=
  (index category).map
    (fun c => { self with m := Function.update self.m c (fmax (self.m c) membership) })

/-- `FuzzyOutput::reset`: `for (int i = 0; i < MAX_CATEGORIES; i++) m[i] = 0`. -/
def reset (self : FuzzyOutput) : FuzzyOutput :=
  { self with
    m := (List.finRange FuzzyVariable.MAX_CATEGORIES).foldl
      (fun m i => Function.update m i 0) self.m }

end FuzzyOutput

/-! ## `class FuzzyLogic` -/

namespace FuzzyLogic

/-- `FuzzyLogic::f_and`. -/
def f_and (a b : ℚ) : ℚ := fmin a b

/-- `FuzzyLogic::f_or`. -/
def f_or (a b : ℚ) : ℚ := fmax a b

/-- `FuzzyLogic::f_not`. -/
def f_not (a : ℚ) : ℚ := 1 - a

end FuzzyLogic

/-! ## The demo domains of `fuzzy_test.cpp` -/

namespace Distance

/-- `Distance::CLOSE`. -/
def CLOSE : ℤ := 0

/-- `Distance::FAR`. -/
def FAR : ℤ := 1

/-- `Distance::membership`. -/
def membership (crispValue category : ℤ) : Option ℚ := do
  let m : ℚ := 0
  let m ← LEFT_CURVE m crispValue category CLOSE 100 50
  let m ← RIGHT_CURVE m crispValue category FAR 100 50
  return m

/-- The domain `Distance`, range `[0, 300]`. -/
def domain : FuzzyVariable := ⟨0, 300, membership⟩

end Distance

namespace Speed

/-- `Speed::STOPPED`. -/
def STOPPED : ℤ := 0

/-- `Speed::SLOW`. -/
def SLOW : ℤ := 1

/-- `Speed::MEDIUM`. -/
def MEDIUM : ℤ := 2

/-- `Speed::FAST`. -/
def FAST : ℤ := 3

/-- `Speed::membership`. -/
def membership (crispValue category : ℤ) : Option ℚ := do
  let m : ℚ := 0
  let m ← CENTRE_CURVE m crispValue category STOPPED 0 0
  let m ← LEFT_CURVE m crispValue category SLOW 64 64
  let m ← CENTRE_CURVE m crispValue category MEDIUM 128 64
  let m ← RIGHT_CURVE m crispValue category FAST 196 64
  return m

/-- The domain `Speed`, range `[0, 255]`. -/
def domain : FuzzyVariable := ⟨0, 255, membership⟩

end Speed

namespace Direction

/-- `Direction::LEFT`. -/
def LEFT : ℤ := 0

/-- `Direction::RIGHT`. -/
def RIGHT : ℤ := 1

/-- `Direction::AHEAD`. -/
def AHEAD : ℤ := 2

/-- `Direction::membership`. -/
def membership (crispValue category : ℤ) : Option ℚ := do
  let m : ℚ := 0
  let m ← LEFT_CURVE m crispValue category LEFT (-10) 10
  let m ← RIGHT_CURVE m crispValue category RIGHT 10 10
  let m ← CENTRE_CURVE m crispValue category AHEAD 0 30
  return m

/-- The domain `Direction`, range `[-90, 90]`. -/
def domain : FuzzyVariable := ⟨-90, 90, membership⟩

end Direction

/-! ## The rule base of `fuzzy_test.cpp` -/

/-- The global variables of the demo: two inputs and two `Speed` outputs. -/
structure Demo where
  obstructionAhead : FuzzyInput
  betterDirection : FuzzyInput
  left : FuzzyOutput
  right : FuzzyOutput

namespace Demo

/-- The globals at program start: static storage is zero-initialised. -/
def initial : Demo :=
  ⟨⟨Distance.domain, 0⟩, ⟨Direction.domain, 0⟩, ⟨Speed.domain, fun _ => 0⟩,
    ⟨Speed.domain, fun _ => 0⟩⟩

/-- The two consequents of one rule of `test()`:
`left.addMembership(cl, m); right.addMembership(cr, m);`. -/
def consequents (g : Demo) (m : ℚ) (cl cr : ℤ) : Option Demo := do
  let left ← g.left.addMembership cl m
  let right ← g.right.addMembership cr m
  return { g with left := left, right := right }

/-- The function `test()`: the new globals and the two numbers it prints, `Left` and
`Right`. -/
def test (g : Demo) : Option (Demo × ℤ × ℤ) := do
  let g := { g with left := g.left.reset, right := g.right.reset }
  let m ← g.obstructionAhead.is Distance.FAR
  let g ← g.consequents m Speed.MEDIUM Speed.MEDIUM
  let m ← g.obstructionAhead.is Distance.CLOSE
  let g ← g.consequents m Speed.SLOW Speed.SLOW
  let m ← g.betterDirection.is Direction.LEFT
  let g ← g.consequents m Speed.SLOW Speed.FAST
  let m ← g.betterDirection.is Direction.RIGHT
  let g ← g.consequents m Speed.FAST Speed.SLOW
  let l ← g.left.getCrispValue
  let r ← g.right.getCrispValue
  return (g, l, r)

end Demo

/-! ## The centre-of-area reference of the specification

These definitions follow the words of the specification, not the code; they are what
`getCrispValue` is compared with. -/

namespace Reference

/-- The step: `d = max(1, (b - a) / 1024)`, integer division. -/
def step (a b : ℤ) : ℤ := max 1 ((b - a) / 1024)

/-- The sample points `i = a, a+d, a+2d, ... ≤ b`. -/
def samples (a b : ℤ) : Finset ℤ :=
  ((Finset.range ((b - a).toNat + 1)).image (fun k : ℕ => a + (k : ℤ) * step a b)).filter
    (fun i => i ≤ b)

/-- The aggregate height at a sample: the maximum over all categories `c` of
`min(accumulated[c], membership(i, c))`. -/
def height (membership : ℤ → ℤ → ℚ) (accumulated : Fin FuzzyVariable.MAX_CATEGORIES → ℚ)
    (i : ℤ) : ℚ :=
  Finset.univ.sup' ⟨⟨0, by decide⟩, Finset.mem_univ _⟩
    (fun c : Fin FuzzyVariable.MAX_CATEGORIES => min (accumulated c) (membership i ((c : ℕ) : ℤ)))

/-- The sum of the heights: `totalWeight`. -/
def totalWeight (a b : ℤ) (membership : ℤ → ℤ → ℚ)
    (accumulated : Fin FuzzyVariable.MAX_CATEGORIES → ℚ) : ℚ :=
  ∑ i in samples a b, height membership accumulated i

/-- The sum of `i * height(i)`: `weightedSum`. -/
def weightedSum (a b : ℤ) (membership : ℤ → ℤ → ℚ)
    (accumulated : Fin FuzzyVariable.MAX_CATEGORIES → ℚ) : ℚ :=
  ∑ i in samples a b, (i : ℚ) * height membership accumulated i

/-- The number of points `a, a+d, a+2d, ... ≤ b`: `⌊(b - a) / d⌋ + 1` when `a ≤ b`, none
otherwise. -/
def sampleCount (a b d : ℤ) : ℕ :=
  if a ≤ b then ((b - a) / d).toNat + 1 else 0

end Reference

/-! ## Machine arithmetic: the 32-bit `int` and the binary32 `float`

The definitions above compute in unbounded integers and exact rationals.  The definitions of
this part embed the same source functions in the arithmetic of the machine: an `int` result
wraps modulo `2^32` (two's complement), and every `float` operation is the exact operation
followed by rounding to the nearest binary32 number, ties to even.  A division by zero and a
conversion to `int` of a value outside the `int` range are faults.  Because the loop of
`getCrispValue` need not terminate in this arithmetic, it runs on fuel.  Infinities are not
represented: the statements keep to degrees in `[0,1]`, for which no operation overflows. -/

namespace Machine

/-- The least 32-bit `int`. -/
def INT_MIN : ℤ := -2147483648

/-- The greatest 32-bit `int`. -/
def INT_MAX : ℤ := 2147483647

/-- The 32-bit two's complement `int` that an operation with the exact result `n` leaves. -/
def wrap (n : ℤ) : ℤ := (n + 2147483648) % 4294967296 - 2147483648

/-- Rounding to the nearest binary32 number, ties to even: 24 significant bits, least normal
exponent `-126`, subnormal numbers included. -/
def round32 (x : ℚ) : ℚ :=
  if x = 0 then 0
  else
    let e := max (Int.log 2 |x|) (-126)
    ((rintf (x / 2 ^ (e - 23)) : ℤ) : ℚ) * 2 ^ (e - 23)

/-- The binary32 numbers: the values that rounding leaves unchanged. -/
def isFloat (x : ℚ) : Prop := round32 x = x

instance isFloat.decidable (x : ℚ) : Decidable (isFloat x) :=
  inferInstanceAs (Decidable (round32 x = x))

/-- How a run on bounded fuel ends: with a value, with a fault (division by zero, conversion
out of range), or still running when the fuel is spent. -/
inductive Outcome (α : Type) where
  | done (value : α)
  | fault
  | timeout
  deriving DecidableEq, Repr

/-- Division of two `float`s: the rounded quotient; `none` when the divisor is zero. -/
def fdiv (x y : ℚ) : Option ℚ :=
  if y = 0 then none else some (round32 (x / y))

/-- `FuzzyVariable::centre` in machine arithmetic: `d` is an `int`, and
`1.0f - (float)d / deviation` converts `d` and `deviation` to `float`, divides and
subtracts, each with rounding. -/
def centre (crispValue median deviation : ℤ) : Option ℚ :=
  if crispValue < median then
    let d := wrap (median - crispValue)
    if d ≥ deviation then some 0
    else (fdiv (round32 d) (round32 deviation)).map (fun q => round32 (1 - q))
  else if crispValue > median then
    let d := wrap (crispValue - median)
    if d ≥ deviation then some 0
    else (fdiv (round32 d) (round32 deviation)).map (fun q => round32 (1 - q))
  else some 1

/-- `FuzzyVariable::left` in machine arithmetic. -/
def left (crispValue median deviation : ℤ) : Option ℚ :=
  if crispValue ≤ median then some 1
  else centre crispValue median deviation

/-- `FuzzyVariable::right` in machine arithmetic. -/
def right (crispValue median deviation : ℤ) : Option ℚ :=
  if crispValue ≥ median then some 1
  else centre crispValue median deviation

/-- The shorthand `LEFT_CURVE(c, med, d)` over the machine `left`. -/
def LEFT_CURVE (m : ℚ) (crispValue category c med d : ℤ) : Option ℚ :=
  (if category = c then left crispValue med d else some 0).map (fun v => fmax m v)

/-- The shorthand `RIGHT_CURVE(c, med, d)` over the machine `right`. -/
def RIGHT_CURVE (m : ℚ) (crispValue category c med d : ℤ) : Option ℚ :=
  (if category = c then right crispValue med d else some 0).map (fun v => fmax m v)

/-- The shorthand `CENTRE_CURVE(c, med, d)` over the machine `centre`. -/
def CENTRE_CURVE (m : ℚ) (crispValue category c med d : ℤ) : Option ℚ :=
  (if category = c then centre crispValue med d else some 0).map (fun v => fmax m v)

/-- `Speed::membership` of `fuzzy_test.cpp` in machine arithmetic. -/
def speedMembership (crispValue category : ℤ) : Option ℚ := do
  let m : ℚ := 0
  let m ← CENTRE_CURVE m crispValue category Speed.STOPPED 0 0
  let m ← LEFT_CURVE m crispValue category Speed.SLOW 64 64
  let m ← CENTRE_CURVE m crispValue category Speed.MEDIUM 128 64
  let m ← RIGHT_CURVE m crispValue category Speed.FAST 196 64
  return m

/-- The domain `Speed`, range `[0, 255]`, in machine arithmetic. -/
def speed : FuzzyVariable := ⟨0, 255, speedMembership⟩

/-- The step of the integration: `int d = (b - a) / STEPS; if (d < 1) d = 1;`. -/
def step (a b : ℤ) : ℤ :=
  let d := Int.tdiv (wrap (b - a)) FuzzyOutput.STEPS
  if d < 1 then 1 else d

/-- The loop `for (int i = i0; i <= b; i += d) body` on fuel: `i += d` wraps, a fault of the
body ends the run, and the run times out when the fuel is spent. -/
def forLoop {σ : Type} (b d : ℤ) (body : ℤ → σ → Option σ) : ℕ → ℤ → σ → Outcome σ
  | 0, _, _ => Outcome.timeout
  | fuel + 1, i, s =>
    if i ≤ b then
      match body i s with
      | none => Outcome.fault
      | some s' => forLoop b d body fuel (wrap (i + d)) s'
    else Outcome.done s

/-- The body of the outer loop of `getCrispValue` on `(totalWeight, sum)`:
`totalWeight += thisValuesMembership; sum += i * thisValuesMembership;` with `i` converted
to `float` and the product and both sums rounded. -/
def accumulate (self : FuzzyOutput) (i : ℤ) (s : ℚ × ℚ) : Option (ℚ × ℚ) :=
  (self.thisValuesMembership i).map
    (fun t => (round32 (s.1 + t), round32 (s.2 + round32 (round32 (i : ℚ) * t))))

/-- The numerical integration of `getCrispValue` on fuel. -/
def integrate (fuel : ℕ) (self : FuzzyOutput) : Outcome (ℚ × ℚ) :=
  let a := self.domain.minRange
  let b := self.domain.maxRange
  forLoop b (step a b) (accumulate self) fuel a (0, 0)

/-- The conversion `(int)` of an integral `float`: a fault outside the `int` range. -/
def toInt (z : ℤ) : Outcome ℤ :=
  if INT_MIN ≤ z ∧ z ≤ INT_MAX then Outcome.done z else Outcome.fault

/-- `FuzzyOutput::getCrispValue` in machine arithmetic, on fuel: the guard compares with the
`float` constant `0.01f`. -/
def getCrispValue (fuel : ℕ) (self : FuzzyOutput) : Outcome ℤ :=
  match integrate fuel self with
  | Outcome.done (totalWeight, sum) =>
    if sum < round32 (1 / 100) then Outcome.done 0
    else
      match fdiv sum totalWeight with
      | none => Outcome.fault
      | some q => toInt (rintf q)
  | Outcome.fault => Outcome.fault
  | Outcome.timeout => Outcome.timeout

/-- The sample indices the loop of `getCrispValue` visits for the range `[a, b]`, on fuel:
the same loop with a body that records `i`. -/
def loopTrace (fuel : ℕ) (a b : ℤ) : Outcome (List ℤ) :=
  forLoop b (step a b) (fun i visited => some (visited ++ [i])) fuel a []

/-- A membership function with one category, wired like those of the demo: the curve
`CENTRE_CURVE(0, median, deviation)`. -/
def singleMembership (median deviation crispValue category : ℤ) : Option ℚ := do
  let m : ℚ := 0
  let m ← CENTRE_CURVE m crispValue category 0 median deviation
  return m

/-- The domain of range `[a, b]` with the single category `centre(x, median, deviation)`. -/
def single (a b median deviation : ℤ) : FuzzyVariable :=
  ⟨a, b, singleMembership median deviation⟩

end Machine

/-! ## The centre-of-area reference in single precision

The reference of the specification with the sums accumulated as the words "accumulate
`totalWeight += height` and `weightedSum += i * height` across all samples" say, in the order
of the sample points, every operation rounded to binary32. -/

namespace Reference

/-- The sample points `a, a+d, a+2d, ... ≤ b` in increasing order. -/
def sampleList (a b : ℤ) : List ℤ :=
  (List.range (sampleCount a b (step a b))).map (fun k : ℕ => a + (k : ℤ) * step a b)

/-- The sum of `term i` over the points of `l`, added one after the other in single
precision. -/
def sum32 (term : ℤ → ℚ) (l : List ℤ) : ℚ :=
  l.foldl (fun s i => Machine.round32 (s + term i)) 0

/-- The sum of the heights in single precision: `totalWeight`. -/
def totalWeight32 (a b : ℤ) (membership : ℤ → ℤ → ℚ)
    (accumulated : Fin FuzzyVariable.MAX_CATEGORIES → ℚ) : ℚ :=
  sum32 (height membership accumulated) (sampleList a b)

/-- The sum of `i * height(i)` in single precision: `weightedSum`. -/
def weightedSum32 (a b : ℤ) (membership : ℤ → ℤ → ℚ)
    (accumulated : Fin FuzzyVariable.MAX_CATEGORIES → ℚ) : ℚ :=
  sum32 (fun i => Machine.round32 (Machine.round32 (i : ℚ) * height membership accumulated i))
    (sampleList a b)

/-- The result: `0` if `weightedSum` is below the binary32 constant `0.01f`, otherwise the
single-precision quotient `weightedSum / totalWeight` rounded to the nearest integer. -/
def crisp32 (a b : ℤ) (membership : ℤ → ℤ → ℚ)
    (accumulated : Fin FuzzyVariable.MAX_CATEGORIES → ℚ) : ℤ :=
  if weightedSum32 a b membership accumulated < Machine.round32 (1 / 100) then 0
  else rintf (Machine.round32
    (weightedSum32 a b membership accumulated / totalWeight32 a b membership accumulated))

end Reference

/-! ## Curve functions: shared lemmas -/

open FuzzyVariable

/-- Closed form of `centreWith`: the division is performed exactly when
`0 < |x - median| < deviation`, on `|x - median|` and `deviation`. -/
theorem centreWith_eq (dv : ℚ → ℚ → Option ℚ) (x median deviation : ℤ) :
    centreWith dv x median deviation =
      if 0 < |x - median| ∧ |x - median| < deviation then
        (dv ((|x - median| : ℤ) : ℚ) (deviation : ℚ)).map (fun q => 1 - q)
      else some (if x = median then 1 else 0) := by
  unfold centreWith
  rcases lt_trichotomy x median with h | h | h
  · have habs : |x - median| = median - x := by
      rw [abs_of_neg (by omega)]; omega
    rw [if_pos h, habs]
    by_cases hd : median - x ≥ deviation
    · have h1 : ¬ (0 < median - x ∧ median - x < deviation) := by omega
      have h2 : x ≠ median := by omega
      simp only [hd, h1, h2, if_true, if_false]
    · have h1 : 0 < median - x ∧ median - x < deviation := by omega
      simp only [hd, h1, if_true, if_false, and_self]
  · subst h
    simp
  · have habs : |x - median| = x - median := abs_of_pos (by omega)
    have hn : ¬ x < median := by omega
    rw [if_neg hn, if_pos (show x > median from h), habs]
    by_cases hd : x - median ≥ deviation
    · have h1 : ¬ (0 < x - median ∧ x - median < deviation) := by omega
      have h2 : x ≠ median := by omega
      simp only [hd, h1, h2, if_true, if_false]
    · have h1 : 0 < x - median ∧ x - median < deviation := by omega
      simp only [hd, h1, if_true, if_false, and_self]

/-- The closed form of `centre` for a positive deviation. -/
theorem centre_pos_dev (x median deviation : ℤ) (hdev : 0 < deviation) :
    centre x median deviation =
      some (max 0 (1 - ((|x - median| : ℤ) : ℚ) / (deviation : ℚ))) := by
  have hq : (0 : ℚ) < (deviation : ℚ) := by exact_mod_cast hdev
  unfold centre
  rw [centreWith_eq]
  by_cases hw : 0 < |x - median| ∧ |x - median| < deviation
  · rw [if_pos hw]
    have hlt : ((|x - median| : ℤ) : ℚ) < (deviation : ℚ) := by exact_mod_cast hw.2
    have h1 : ((|x - median| : ℤ) : ℚ) / (deviation : ℚ) < 1 := (div_lt_one hq).mpr hlt
    simp only [fdiv, hq.ne', if_false, Option.map_some']
    rw [max_eq_right (by linarith)]
  · rw [if_neg hw]
    by_cases hx : x = median
    · subst hx
      simp
    · have hge : deviation ≤ |x - median| := by
        have : 0 < |x - median| := abs_pos.mpr (sub_ne_zero.mpr hx)
        by_contra hcon
        exact hw ⟨this, not_le.mp hcon⟩
      have hge' : (deviation : ℚ) ≤ ((|x - median| : ℤ) : ℚ) := by exact_mod_cast hge
      have h1 : 1 ≤ ((|x - median| : ℤ) : ℚ) / (deviation : ℚ) := (one_le_div hq).mpr hge'
      rw [if_neg hx, max_eq_left (by linarith)]

/-- Reflection about the median leaves `centre` unchanged. -/
theorem centre_reflect (median deviation k : ℤ) :
    centre (median + k) median deviation = centre (median - k) median deviation := by
  unfold centre
  rw [centreWith_eq, centreWith_eq]
  have h1 : median + k - median = k := by ring
  have h2 : median - k - median = -k := by ring
  have h3 : (median + k = median) ↔ (median - k = median) := by constructor <;> intro h <;> omega
  rw [h1, h2, abs_neg]
  simp only [h3]

/-- With the real division, `centre` always returns a value. -/
theorem centre_isSome (x median deviation : ℤ) : (centre x median deviation).isSome = true := by
  unfold centre
  rw [centreWith_eq]
  by_cases hw : 0 < |x - median| ∧ |x - median| < deviation
  · have hne : (deviation : ℚ) ≠ 0 := by
      have : (0 : ℤ) < deviation := lt_trans hw.1 hw.2
      exact_mod_cast this.ne'
    rw [if_pos hw]
    simp [fdiv, hne]
  · rw [if_neg hw]
    rfl

/-! ## Accumulator and loops: shared lemmas -/

/-- Zeroing the listed cells of an array. -/
theorem foldl_update_zero {n : ℕ} (l : List (Fin n)) (m : Fin n → ℚ) (j : Fin n) :
    (l.foldl (fun m i => Function.update m i 0) m) j = if j ∈ l then 0 else m j := by
  induction l generalizing m with
  | nil => simp
  | cons c l ih =>
    rw [List.foldl_cons, ih]
    by_cases hj : j ∈ l
    · simp [hj]
    · by_cases hc : j = c
      · subst hc
        simp [hj]
      · simp [hj, hc, Function.update_noteq hc]

/-- After `reset` every accumulated degree is zero. -/
theorem reset_m (o : FuzzyOutput) (c : Fin MAX_CATEGORIES) : o.reset.m c = 0 := by
  unfold FuzzyOutput.reset
  simp only
  rw [foldl_update_zero]
  simp [List.mem_finRange]

/-- The array index of a category inside the array. -/
theorem index_of_valid (c : ℤ) (h0 : 0 ≤ c) (h1 : c < (MAX_CATEGORIES : ℤ)) :
    ∃ k : Fin MAX_CATEGORIES, FuzzyOutput.index c = some k ∧ ((k : ℕ) : ℤ) = c := by
  refine ⟨⟨c.toNat, by omega⟩, ?_, ?_⟩
  · unfold FuzzyOutput.index
    rw [dif_pos ⟨h0, h1⟩]
  · simp only
    omega

/-- The effect of `addMembership` on an array index. -/
theorem addMembership_of_index (o : FuzzyOutput) (c : ℤ) (k : Fin MAX_CATEGORIES)
    (hk : FuzzyOutput.index c = some k) (v : ℚ) :
    o.addMembership c v =
      some { o with m := Function.update o.m k (max (o.m k) v) } := by
  unfold FuzzyOutput.addMembership
  rw [hk]
  rfl

/-- A running maximum over a list: it dominates the start value and every element, and it is
one of them. -/
theorem foldl_max_spec {n : ℕ} (g : Fin n → ℚ) (l : List (Fin n)) (t : ℚ) :
    t ≤ l.foldl (fun acc c => fmax acc (g c)) t ∧
      (∀ c ∈ l, g c ≤ l.foldl (fun acc c => fmax acc (g c)) t) ∧
      (l.foldl (fun acc c => fmax acc (g c)) t = t ∨
        ∃ c ∈ l, l.foldl (fun acc c => fmax acc (g c)) t = g c) := by
  induction l generalizing t with
  | nil => simp
  | cons a l ih =>
    rw [List.foldl_cons]
    obtain ⟨h1, h2, h3⟩ := ih (fmax t (g a))
    refine ⟨le_trans (le_max_left _ _) h1, ?_, ?_⟩
    · intro c hc
      rcases List.mem_cons.mp hc with rfl | hc
      · exact le_trans (le_max_right _ _) h1
      · exact h2 c hc
    · rcases h3 with h3 | ⟨c, hc, h3⟩
      · rcases max_choice t (g a) with hm | hm
        · left
          rw [h3]
          exact hm
        · right
          exact ⟨a, List.mem_cons_self _ _, by rw [h3]; exact hm⟩
      · right
        exact ⟨c, List.mem_cons_of_mem _ hc, h3⟩

/-- With a membership function that never faults, the inner loop is a plain fold. -/
theorem thisValuesMembership_total (o : FuzzyOutput) (f : ℤ → ℤ → ℚ)
    (hf : ∀ i c, o.domain.membership i c = some (f i c)) (i : ℤ) :
    o.thisValuesMembership i = some (FuzzyOutput.heightOf o.m f i) := by
  unfold FuzzyOutput.thisValuesMembership FuzzyOutput.heightOf
  generalize (0 : ℚ) = t
  induction List.finRange MAX_CATEGORIES generalizing t with
  | nil => rfl
  | cons c l ih =>
    rw [List.foldlM_cons, hf, List.foldl_cons]
    exact ih _

/-- The loop exits when the index has passed the bound. -/
theorem forLoop_done {σ : Type} (b d : ℤ) (hd : 1 ≤ d) (body : ℤ → σ → Option σ) (i : ℤ)
    (s : σ) (h : b < i) : forLoop b d hd body i s = some s := by
  rw [forLoop, dif_neg (not_le.mpr h)]

/-- One iteration of the loop. -/
theorem forLoop_step {σ : Type} (b d : ℤ) (hd : 1 ≤ d) (body : ℤ → σ → Option σ) (i : ℤ)
    (s s' : σ) (h : i ≤ b) (hb : body i s = some s') :
    forLoop b d hd body i s = forLoop b d hd body (i + d) s' := by
  rw [forLoop, dif_pos h, hb]

/-- The loop of `getCrispValue` run from `i` over `n` points, for sample heights `h`. -/
theorem forLoop_accumulate (o : FuzzyOutput) (h : ℤ → ℚ)
    (hh : ∀ i, o.thisValuesMembership i = some (h i)) (b d : ℤ) (hd : 1 ≤ d) :
    ∀ (n : ℕ) (i : ℤ) (tw s : ℚ), (∀ k : ℕ, k < n → i + (k : ℤ) * d ≤ b) →
      b < i + (n : ℤ) * d →
      forLoop b d hd o.accumulate i (tw, s) =
        some (tw + ∑ k in Finset.range n, h (i + (k : ℤ) * d),
          s + ∑ k in Finset.range n, ((i + (k : ℤ) * d : ℤ) : ℚ) * h (i + (k : ℤ) * d)) := by
  intro n
  induction n with
  | zero =>
    intro i tw s _ hlt
    rw [forLoop_done b d hd _ i _ (by simpa using hlt)]
    simp
  | succ n ih =>
    intro i tw s hle hlt
    have h0 : i ≤ b := by simpa using hle 0 (Nat.succ_pos n)
    have hb : o.accumulate i (tw, s) = some (tw + h i, s + (i : ℚ) * h i) := by
      unfold FuzzyOutput.accumulate
      rw [hh]
      rfl
    rw [forLoop_step b d hd _ i _ _ h0 hb, ih (i + d) _ _ ?_ ?_]
    · have e : ∀ k : ℕ, i + d + (k : ℤ) * d = i + ((k + 1 : ℕ) : ℤ) * d := by
        intro k
        push_cast
        ring
      simp only [e]
      rw [Finset.sum_range_succ' (fun k : ℕ => h (i + (k : ℤ) * d)) n,
        Finset.sum_range_succ'
          (fun k : ℕ => ((i + (k : ℤ) * d : ℤ) : ℚ) * h (i + (k : ℤ) * d)) n]
      simp only [Nat.cast_zero, zero_mul, add_zero]
      refine congrArg some (Prod.ext ?_ ?_)
      · simp only
        ring
      · simp only
        ring
    · intro k hk
      have := hle (k + 1) (Nat.succ_lt_succ hk)
      push_cast at this
      linarith
    · push_cast at hlt
      linarith

/-- The step of the code is the step of the reference. -/
theorem step_eq_reference (a b : ℤ) : (FuzzyOutput.step a b).1 = Reference.step a b := by
  unfold FuzzyOutput.step Reference.step FuzzyOutput.STEPS
  by_cases hab : 0 ≤ b - a
  · have e : Int.tdiv (b - a) 1024 = (b - a) / 1024 := Int.tdiv_eq_ediv hab (by decide)
    simp only [e]
    split
    · simp only
      omega
    · simp only
      omega
  · have hneg : Int.tdiv (b - a) 1024 ≤ 0 := by
      have h1 : 0 ≤ Int.tdiv (-(b - a)) 1024 := Int.tdiv_nonneg (by omega) (by decide)
      rw [Int.neg_tdiv] at h1
      omega
    have hlt : Int.tdiv (b - a) 1024 < 1 := by omega
    simp only [hlt, dite_true]
    omega

/-- The points counted by `sampleCount` are within the bound, and the next one is not. -/
theorem sampleCount_spec (a b d : ℤ) (hd : 1 ≤ d) :
    (∀ k : ℕ, k < Reference.sampleCount a b d → a + (k : ℤ) * d ≤ b) ∧
      b < a + (Reference.sampleCount a b d : ℤ) * d := by
  unfold Reference.sampleCount
  have hd0 : (0 : ℤ) < d := by omega
  by_cases hab : a ≤ b
  · have hq : 0 ≤ (b - a) / d := Int.ediv_nonneg (by omega) (by omega)
    have h1 : (b - a) / d * d ≤ b - a := Int.ediv_mul_le _ (by omega)
    have h2 : b - a < ((b - a) / d + 1) * d := Int.lt_ediv_add_one_mul_self _ hd0
    rw [if_pos hab]
    constructor
    · intro k hk
      have hk' : (k : ℤ) ≤ (b - a) / d := by omega
      have : (k : ℤ) * d ≤ (b - a) / d * d := mul_le_mul_of_nonneg_right hk' (by omega)
      linarith
    · push_cast
      rw [Int.toNat_of_nonneg hq]
      linarith
  · rw [if_neg hab]
    constructor
    · intro k hk
      exact absurd hk (Nat.not_lt_zero k)
    · simp only [Nat.cast_zero, zero_mul, add_zero]
      omega

/-- A point `a + k*d` within the bound is one of the counted points. -/
theorem lt_sampleCount (a b d : ℤ) (hd : 1 ≤ d) (k : ℕ) (h : a + (k : ℤ) * d ≤ b) :
    k < Reference.sampleCount a b d := by
  unfold Reference.sampleCount
  have hd0 : (0 : ℤ) < d := by omega
  have hkd : (0 : ℤ) ≤ (k : ℤ) * d := mul_nonneg (Int.ofNat_nonneg k) (by omega)
  have hab : a ≤ b := by linarith
  rw [if_pos hab]
  have hk : (k : ℤ) ≤ (b - a) / d := Int.le_ediv_of_mul_le hd0 (by linarith)
  omega

/-- The sample points of the reference are the counted points, each once. -/
theorem samples_eq_image (a b : ℤ) :
    Reference.samples a b =
      (Finset.range (Reference.sampleCount a b (Reference.step a b))).image
        (fun k : ℕ => a + (k : ℤ) * Reference.step a b) := by
  have hd : 1 ≤ Reference.step a b := le_max_left _ _
  ext i
  simp only [Reference.samples, Finset.mem_filter, Finset.mem_image, Finset.mem_range]
  constructor
  · rintro ⟨⟨k, _, rfl⟩, hle⟩
    exact ⟨k, lt_sampleCount a b _ hd k hle, rfl⟩
  · rintro ⟨k, hk, rfl⟩
    have hle := (sampleCount_spec a b _ hd).1 k hk
    refine ⟨⟨k, ?_, rfl⟩, hle⟩
    have hkd : (k : ℤ) ≤ (k : ℤ) * Reference.step a b :=
      le_mul_of_one_le_right (Int.ofNat_nonneg k) hd
    omega

/-- A sum over the sample points of the reference, as a sum over the point numbers. -/
theorem sum_samples (a b : ℤ) (g : ℤ → ℚ) :
    ∑ i in Reference.samples a b, g i =
      ∑ k in Finset.range (Reference.sampleCount a b (Reference.step a b)),
        g (a + (k : ℤ) * Reference.step a b) := by
  have hd : 1 ≤ Reference.step a b := le_max_left _ _
  rw [samples_eq_image, Finset.sum_image]
  intro x _ y _ hxy
  have hd0 : Reference.step a b ≠ 0 := by omega
  have : (x : ℤ) * Reference.step a b = (y : ℤ) * Reference.step a b := by linarith
  exact_mod_cast mul_right_cancel₀ hd0 this

/-- The integration of `getCrispValue` for a membership function that never faults: the
sums of the heights over the sample points. -/
theorem integrate_total (o : FuzzyOutput) (f : ℤ → ℤ → ℚ)
    (hf : ∀ i c, o.domain.membership i c = some (f i c)) :
    o.integrate =
      some (∑ i in Reference.samples o.domain.minRange o.domain.maxRange,
          FuzzyOutput.heightOf o.m f i,
        ∑ i in Reference.samples o.domain.minRange o.domain.maxRange,
          (i : ℚ) * FuzzyOutput.heightOf o.m f i) := by
  unfold FuzzyOutput.integrate
  simp only
  have hs := sampleCount_spec o.domain.minRange o.domain.maxRange
    (FuzzyOutput.step o.domain.minRange o.domain.maxRange).1
    (FuzzyOutput.step o.domain.minRange o.domain.maxRange).2
  rw [forLoop_accumulate o (FuzzyOutput.heightOf o.m f) (thisValuesMembership_total o f hf) _ _ _
    _ _ 0 0 hs.1 hs.2, sum_samples, sum_samples, step_eq_reference]
  simp

/-- The height computed by the code is never negative. -/
theorem heightOf_nonneg (m : Fin MAX_CATEGORIES → ℚ) (f : ℤ → ℤ → ℚ) (i : ℤ) :
    0 ≤ FuzzyOutput.heightOf m f i :=
  (foldl_max_spec (fun c => fmin (m c) (f i ((c : ℕ) : ℤ))) _ 0).1

/-- With no accumulated degree, every height is zero. -/
theorem heightOf_zero (m : Fin MAX_CATEGORIES → ℚ) (hm : ∀ c, m c = 0) (f : ℤ → ℤ → ℚ)
    (i : ℤ) : FuzzyOutput.heightOf m f i = 0 := by
  have hs := foldl_max_spec (fun c => fmin (m c) (f i ((c : ℕ) : ℤ)))
    (List.finRange MAX_CATEGORIES) 0
  rcases hs.2.2 with h | ⟨c, _, h⟩
  · exact h
  · apply le_antisymm _ (heightOf_nonneg m f i)
    unfold FuzzyOutput.heightOf
    rw [h]
    simp only [fmin, hm c]
    exact min_le_left _ _

/-- When all degrees and memberships are non-negative, the height computed by the code is the
maximum over the categories. -/
theorem heightOf_eq_reference (m : Fin MAX_CATEGORIES → ℚ) (f : ℤ → ℤ → ℚ) (i : ℤ)
    (hm : ∀ c, 0 ≤ m c) (hf : ∀ c, 0 ≤ f i c) :
    FuzzyOutput.heightOf m f i = Reference.height f m i := by
  have hs := foldl_max_spec (fun c => fmin (m c) (f i ((c : ℕ) : ℤ)))
    (List.finRange MAX_CATEGORIES) 0
  unfold Reference.height
  apply le_antisymm
  · rcases hs.2.2 with h | ⟨c, _, h⟩
    · unfold FuzzyOutput.heightOf
      rw [h]
      refine le_trans ?_ (Finset.le_sup' _ (Finset.mem_univ (⟨0, by decide⟩ : Fin MAX_CATEGORIES)))
      exact le_min (hm _) (hf _)
    · unfold FuzzyOutput.heightOf
      rw [h]
      exact Finset.le_sup' (fun c : Fin MAX_CATEGORIES => min (m c) (f i ((c : ℕ) : ℤ)))
        (Finset.mem_univ c)
  · apply Finset.sup'_le
    intro c _
    exact hs.2.1 c (List.mem_finRange c)

/-- The value `rintf` returns is within one half of its argument. -/
theorem rintf_nearest (x : ℚ) : |((rintf x : ℤ) : ℚ) - x| ≤ 1 / 2 := by
  have h1 : ((⌊x⌋ : ℤ) : ℚ) ≤ x := Int.floor_le x
  have h2 : x < ((⌊x⌋ : ℤ) : ℚ) + 1 := Int.lt_floor_add_one x
  unfold rintf
  simp only
  rw [abs_le]
  split_ifs <;> push_cast <;> constructor <;> linarith

/-- An integer is its own rounding. -/
theorem rintf_intCast (z : ℤ) : rintf (z : ℚ) = z := by
  unfold rintf
  simp

/-- The value `rintf` returns is an integer nearest to its argument. -/
theorem rintf_le_dist (x : ℚ) (z : ℤ) : |((rintf x : ℤ) : ℚ) - x| ≤ |((z : ℤ) : ℚ) - x| := by
  have hr := rintf_nearest x
  by_cases hz : z = rintf x
  · rw [hz]
  · have h1 : (1 : ℤ) ≤ |z - rintf x| := Int.one_le_abs (sub_ne_zero.mpr hz)
    have h2 : (1 : ℚ) ≤ |((z : ℤ) : ℚ) - ((rintf x : ℤ) : ℚ)| := by exact_mod_cast h1
    have h3 : |((z : ℤ) : ℚ) - ((rintf x : ℤ) : ℚ)| ≤
        |((z : ℤ) : ℚ) - x| + |((rintf x : ℤ) : ℚ) - x| := by
      have := abs_sub_le ((z : ℤ) : ℚ) x ((rintf x : ℤ) : ℚ)
      rwa [abs_sub_comm x _] at this
    linarith

/-- `getCrispValue` for a membership function that never faults, in terms of the two sums. -/
theorem getCrispValue_total (o : FuzzyOutput) (f : ℤ → ℤ → ℚ)
    (hf : ∀ i c, o.domain.membership i c = some (f i c)) :
    o.getCrispValue =
      if ∑ i in Reference.samples o.domain.minRange o.domain.maxRange,
          (i : ℚ) * FuzzyOutput.heightOf o.m f i < 1 / 100 then some 0
      else (fdiv
        (∑ i in Reference.samples o.domain.minRange o.domain.maxRange,
          (i : ℚ) * FuzzyOutput.heightOf o.m f i)
        (∑ i in Reference.samples o.domain.minRange o.domain.maxRange,
          FuzzyOutput.heightOf o.m f i)).map rintf := by
  unfold FuzzyOutput.getCrispValue
  rw [integrate_total o f hf]

/-- A membership function that never faults is a total function. -/
theorem membership_total (D : FuzzyVariable) (h : ∀ i c, (D.membership i c).isSome = true) :
    ∀ i c, D.membership i c = some ((D.membership i c).getD 0) := by
  intro i c
  obtain ⟨v, hv⟩ := Option.isSome_iff_exists.mp (h i c)
  rw [hv]
  rfl

/-- When the weighted sum of non-negative heights reaches the threshold, the total weight is
positive. -/
theorem totalWeight_pos_of_guard (S : Finset ℤ) (h : ℤ → ℚ) (hh : ∀ i, 0 ≤ h i)
    (hg : ¬ (∑ i in S, (i : ℚ) * h i < 1 / 100)) : 0 < ∑ i in S, h i := by
  have hnn : 0 ≤ ∑ i in S, h i := Finset.sum_nonneg (fun i _ => hh i)
  rcases hnn.lt_or_eq with hpos | hz
  · exact hpos
  · exfalso
    apply hg
    have hall := (Finset.sum_eq_zero_iff_of_nonneg (fun i _ => hh i)).mp hz.symm
    have : ∑ i in S, (i : ℚ) * h i = 0 :=
      Finset.sum_eq_zero (fun i hi => by rw [hall i hi, mul_zero])
    rw [this]
    norm_num

/-- The value of `centre` lies in `[0,1]`, whatever the deviation. -/
theorem centre_bounds (x median deviation : ℤ) :
    ∃ v, centre x median deviation = some v ∧ 0 ≤ v ∧ v ≤ 1 := by
  by_cases hdev : 0 < deviation
  · refine ⟨_, centre_pos_dev x median deviation hdev, le_max_left _ _, ?_⟩
    have hq : (0 : ℚ) < (deviation : ℚ) := by exact_mod_cast hdev
    have habs : (0 : ℚ) ≤ ((|x - median| : ℤ) : ℚ) := by exact_mod_cast abs_nonneg (x - median)
    have : 0 ≤ ((|x - median| : ℤ) : ℚ) / (deviation : ℚ) := div_nonneg habs hq.le
    exact max_le (by norm_num) (by linarith)
  · have hw : ¬ (0 < |x - median| ∧ |x - median| < deviation) := by
      rintro ⟨h1, h2⟩
      omega
    refine ⟨if x = median then 1 else 0, ?_, ?_, ?_⟩
    · unfold centre
      rw [centreWith_eq, if_neg hw]
    · split <;> norm_num
    · split <;> norm_num

/-- For a positive deviation `centre` is zero at a distance of the deviation or more. -/
theorem centre_zero_outside (x median deviation : ℤ) (hdev : 0 < deviation)
    (h : deviation ≤ |x - median|) : centre x median deviation = some 0 := by
  unfold centre
  rw [centreWith_eq]
  have hw : ¬ (0 < |x - median| ∧ |x - median| < deviation) := by omega
  have hx : x ≠ median := by
    rintro rfl
    simp at h
    omega
  rw [if_neg hw, if_neg hx]

/-- At the median `centre` is one. -/
theorem centre_at_median (median deviation : ℤ) : centre median median deviation = some 1 := by
  unfold centre
  rw [centreWith_eq]
  simp

/-- The height when a single category `K` is accumulated with degree one is the membership
of `K`, provided it lies in `[0,1]`. -/
theorem heightOf_single (m : Fin MAX_CATEGORIES → ℚ) (K : Fin MAX_CATEGORIES) (hK : m K = 1)
    (hother : ∀ c, c ≠ K → m c = 0) (f : ℤ → ℤ → ℚ) (i : ℤ)
    (h0 : 0 ≤ f i ((K : ℕ) : ℤ)) (h1 : f i ((K : ℕ) : ℤ) ≤ 1) :
    FuzzyOutput.heightOf m f i = f i ((K : ℕ) : ℤ) := by
  have hs := foldl_max_spec (fun c => fmin (m c) (f i ((c : ℕ) : ℤ)))
    (List.finRange MAX_CATEGORIES) 0
  have hge : f i ((K : ℕ) : ℤ) ≤ FuzzyOutput.heightOf m f i := by
    have := hs.2.1 K (List.mem_finRange K)
    simp only [fmin, hK, min_eq_right h1] at this
    exact this
  apply le_antisymm _ hge
  rcases hs.2.2 with h | ⟨c, _, h⟩
  · unfold FuzzyOutput.heightOf
    rw [h]
    exact h0
  · unfold FuzzyOutput.heightOf
    rw [h]
    by_cases hc : c = K
    · subst hc
      exact min_le_right _ _
    · simp only [fmin, hother c hc]
      exact le_trans (min_le_left _ _) h0

/-- With step one the sample points are all the integers of the range. -/
theorem samples_eq_Icc (a b : ℤ) (h : b - a < 2048) :
    Reference.samples a b = Finset.Icc a b := by
  have hstep : Reference.step a b = 1 := by
    unfold Reference.step
    omega
  ext i
  simp only [Reference.samples, hstep, mul_one, Finset.mem_filter, Finset.mem_image,
    Finset.mem_range, Finset.mem_Icc]
  constructor
  · rintro ⟨⟨k, _, rfl⟩, hle⟩
    omega
  · rintro ⟨h1, h2⟩
    exact ⟨⟨(i - a).toNat, by omega, by omega⟩, h2⟩

/-- The first moment about `M` of a function symmetric about `M` that vanishes at distance
`dev` or more is zero over a range that contains `[M - dev, M + dev]`. -/
theorem sum_symmetric_moment (a b M dev : ℤ) (g : ℤ → ℚ) (hlo : a ≤ M - dev)
    (hhi : M + dev ≤ b) (hsym : ∀ i, g (2 * M - i) = g i)
    (hzero : ∀ i, dev ≤ |i - M| → g i = 0) :
    ∑ i in Finset.Icc a b, ((i : ℚ) - (M : ℚ)) * g i = 0 := by
  have hsub : Finset.Icc (M - dev) (M + dev) ⊆ Finset.Icc a b :=
    Finset.Icc_subset_Icc hlo hhi
  rw [← Finset.sum_subset hsub]
  · apply Finset.sum_involution (fun i _ => 2 * M - i)
    · intro i _
      rw [hsym i]
      push_cast
      ring
    · intro i _ hne heq
      apply hne
      have : i = M := by omega
      rw [this]
      simp
    · intro i hi
      rw [Finset.mem_Icc] at hi ⊢
      omega
    · intro i _
      ring
  · intro i _ hni
    rw [Finset.mem_Icc] at hni
    have : dev ≤ |i - M| := by
      rcases le_total 0 (i - M) with h | h
      · rw [abs_of_nonneg h]
        omega
      · rw [abs_of_nonpos h]
        omega
    rw [hzero i this, mul_zero]

/-- Defuzzification of a single `centre` category accumulated with degree one: the median,
unless the median is negative, in which case the guard returns zero. -/
theorem getCrispValue_single_centre (o : FuzzyOutput) (K : Fin MAX_CATEGORIES) (M dev : ℤ)
    (hmem : ∀ i c, (o.domain.membership i c).isSome = true)
    (hrange : o.domain.maxRange - o.domain.minRange < 2048) (hdev : 1 ≤ dev)
    (hlo : o.domain.minRange ≤ M - dev) (hhi : M + dev ≤ o.domain.maxRange)
    (hK : ∀ x, o.domain.membership x ((K : ℕ) : ℤ) = centre x M dev)
    (hacc : o.m K = 1) (hother : ∀ c, c ≠ K → o.m c = 0) :
    o.getCrispValue = some (if M < 0 then 0 else M) := by
  have hdev0 : 0 < dev := by omega
  have hf := membership_total o.domain hmem
  have hfK : ∀ x, some ((o.domain.membership x ((K : ℕ) : ℤ)).getD 0) = centre x M dev :=
    fun x => by rw [← hK x]; exact (hf x _).symm
  have hb : ∀ x, 0 ≤ (o.domain.membership x ((K : ℕ) : ℤ)).getD 0 ∧
      (o.domain.membership x ((K : ℕ) : ℤ)).getD 0 ≤ 1 := by
    intro x
    obtain ⟨v, hv, h0, h1⟩ := centre_bounds x M dev
    have : (o.domain.membership x ((K : ℕ) : ℤ)).getD 0 = v :=
      Option.some.inj ((hfK x).trans hv)
    rw [this]
    exact ⟨h0, h1⟩
  have hh : ∀ i, FuzzyOutput.heightOf o.m (fun i c => (o.domain.membership i c).getD 0) i =
      (o.domain.membership i ((K : ℕ) : ℤ)).getD 0 :=
    fun i => heightOf_single o.m K hacc hother _ i (hb i).1 (hb i).2
  have hsym : ∀ i, (o.domain.membership (2 * M - i) ((K : ℕ) : ℤ)).getD 0 =
      (o.domain.membership i ((K : ℕ) : ℤ)).getD 0 := by
    intro i
    apply Option.some.inj
    rw [hfK, hfK]
    have e1 : 2 * M - i = M - (i - M) := by ring
    have e2 : i = M + (i - M) := by ring
    rw [e1]
    nth_rewrite 2 [e2]
    exact (centre_reflect M dev (i - M)).symm
  have hzero : ∀ i, dev ≤ |i - M| → (o.domain.membership i ((K : ℕ) : ℤ)).getD 0 = 0 := by
    intro i hi
    apply Option.some.inj
    rw [hfK]
    exact centre_zero_outside i M dev hdev0 hi
  have hpeak : (o.domain.membership M ((K : ℕ) : ℤ)).getD 0 = 1 := by
    apply Option.some.inj
    rw [hfK]
    exact centre_at_median M dev
  have hmom := sum_symmetric_moment o.domain.minRange o.domain.maxRange M dev
    (fun i => (o.domain.membership i ((K : ℕ) : ℤ)).getD 0) hlo hhi hsym hzero
  have hMmem : M ∈ Finset.Icc o.domain.minRange o.domain.maxRange := by
    rw [Finset.mem_Icc]
    omega
  have htw : (1 : ℚ) ≤ ∑ i in Finset.Icc o.domain.minRange o.domain.maxRange,
      (o.domain.membership i ((K : ℕ) : ℤ)).getD 0 := by
    have := Finset.single_le_sum (f := fun i => (o.domain.membership i ((K : ℕ) : ℤ)).getD 0)
      (fun i _ => (hb i).1) hMmem
    simp only [hpeak] at this
    exact this
  have hws : ∑ i in Finset.Icc o.domain.minRange o.domain.maxRange,
      (i : ℚ) * (o.domain.membership i ((K : ℕ) : ℤ)).getD 0 =
      (M : ℚ) * ∑ i in Finset.Icc o.domain.minRange o.domain.maxRange,
        (o.domain.membership i ((K : ℕ) : ℤ)).getD 0 := by
    have hsplit : ∀ i ∈ Finset.Icc o.domain.minRange o.domain.maxRange,
        (i : ℚ) * (o.domain.membership i ((K : ℕ) : ℤ)).getD 0 =
          ((i : ℚ) - (M : ℚ)) * (o.domain.membership i ((K : ℕ) : ℤ)).getD 0 +
            (M : ℚ) * (o.domain.membership i ((K : ℕ) : ℤ)).getD 0 := by
      intro i _
      ring
    rw [Finset.sum_congr rfl hsplit, Finset.sum_add_distrib, hmom, zero_add, Finset.mul_sum]
  rw [getCrispValue_total o _ hf, samples_eq_Icc _ _ hrange]
  simp only [hh]
  rw [hws]
  set tw := ∑ i in Finset.Icc o.domain.minRange o.domain.maxRange,
    (o.domain.membership i ((K : ℕ) : ℤ)).getD 0 with htwdef
  have htw0 : tw ≠ 0 := by linarith
  rcases lt_trichotomy M 0 with hM | hM | hM
  · have hMq : (M : ℚ) ≤ -1 := by exact_mod_cast (by omega : M ≤ -1)
    have : (M : ℚ) * tw < 1 / 100 := by nlinarith
    rw [if_pos this, if_pos hM]
  · subst hM
    simp
  · have hMq : (1 : ℚ) ≤ (M : ℚ) := by exact_mod_cast (by omega : 1 ≤ M)
    have : ¬ ((M : ℚ) * tw < 1 / 100) := by nlinarith
    rw [if_neg this, if_neg (by omega)]
    simp only [fdiv, htw0, if_false, Option.map_some']
    rw [mul_div_assoc, div_self htw0, mul_one, rintf_intCast]

/-- With the real division, `left` always returns a value. -/
theorem left_isSome (x median deviation : ℤ) : (left x median deviation).isSome = true := by
  unfold left
  split
  · rfl
  · exact centre_isSome x median deviation

/-- With the real division, `right` always returns a value. -/
theorem right_isSome (x median deviation : ℤ) : (right x median deviation).isSome = true := by
  unfold right
  split
  · rfl
  · exact centre_isSome x median deviation

/-- The shorthand `CENTRE_CURVE` always yields a value. -/
theorem CENTRE_CURVE_isSome (m : ℚ) (x category c med d : ℤ) :
    (CENTRE_CURVE m x category c med d).isSome = true := by
  unfold CENTRE_CURVE
  split
  · have := centre_isSome x med d
    rw [Option.isSome_map']
    exact this
  · rfl

/-- The shorthand `LEFT_CURVE` always yields a value. -/
theorem LEFT_CURVE_isSome (m : ℚ) (x category c med d : ℤ) :
    (LEFT_CURVE m x category c med d).isSome = true := by
  unfold LEFT_CURVE
  split
  · have := left_isSome x med d
    rw [Option.isSome_map']
    exact this
  · rfl

/-- The shorthand `RIGHT_CURVE` always yields a value. -/
theorem RIGHT_CURVE_isSome (m : ℚ) (x category c med d : ℤ) :
    (RIGHT_CURVE m x category c med d).isSome = true := by
  unfold RIGHT_CURVE
  split
  · have := right_isSome x med d
    rw [Option.isSome_map']
    exact this
  · rfl

/-- The membership function of `Speed` always yields a value. -/
theorem speed_membership_isSome (x c : ℤ) : (Speed.membership x c).isSome = true := by
  unfold Speed.membership
  obtain ⟨v1, h1⟩ := Option.isSome_iff_exists.mp
    (CENTRE_CURVE_isSome 0 x c Speed.STOPPED 0 0)
  obtain ⟨v2, h2⟩ := Option.isSome_iff_exists.mp
    (LEFT_CURVE_isSome v1 x c Speed.SLOW 64 64)
  obtain ⟨v3, h3⟩ := Option.isSome_iff_exists.mp
    (CENTRE_CURVE_isSome v2 x c Speed.MEDIUM 128 64)
  obtain ⟨v4, h4⟩ := Option.isSome_iff_exists.mp
    (RIGHT_CURVE_isSome v3 x c Speed.FAST 196 64)
  simp [h1, h2, h3, h4]

/-- The membership of `Speed::MEDIUM` is the `centre` curve of median `128`, deviation `64`. -/
theorem speed_membership_MEDIUM (x : ℤ) : Speed.membership x 2 = centre x 128 64 := by
  obtain ⟨v, hv, h0, _⟩ := centre_bounds x 128 64
  simp [Speed.membership, CENTRE_CURVE, LEFT_CURVE, RIGHT_CURVE, Speed.STOPPED, Speed.SLOW,
    Speed.MEDIUM, Speed.FAST, hv, fmax, h0]

/-! ## Accumulation and defuzzification on the exact layer -/

/-- In exact arithmetic: for a domain whose membership function has values in `[0,1]` and an accumulated state
with degrees in `[0,1]`, `getCrispValue` is the centre-of-area reference: `0` if the reference
`weightedSum` is below `0.01`, and otherwise `weightedSum / totalWeight` (a division by a
positive `totalWeight`) rounded to an integer nearest to it. -/
theorem getCrispValue_eq_reference (o : FuzzyOutput) (f : ℤ → ℤ → ℚ)
    (hmem : ∀ i c, o.domain.membership i c = some (f i c))
    (hf : ∀ i c, 0 ≤ f i c ∧ f i c ≤ 1) (hacc : ∀ c, 0 ≤ o.m c ∧ o.m c ≤ 1) :
    o.getCrispValue =
        some (if Reference.weightedSum o.domain.minRange o.domain.maxRange f o.m < 1 / 100
          then 0
          else rintf (Reference.weightedSum o.domain.minRange o.domain.maxRange f o.m /
            Reference.totalWeight o.domain.minRange o.domain.maxRange f o.m)) ∧
      (¬ Reference.weightedSum o.domain.minRange o.domain.maxRange f o.m < 1 / 100 →
        0 < Reference.totalWeight o.domain.minRange o.domain.maxRange f o.m) ∧
      ∀ z : ℤ,
        |((rintf (Reference.weightedSum o.domain.minRange o.domain.maxRange f o.m /
            Reference.totalWeight o.domain.minRange o.domain.maxRange f o.m) : ℤ) : ℚ) -
          Reference.weightedSum o.domain.minRange o.domain.maxRange f o.m /
            Reference.totalWeight o.domain.minRange o.domain.maxRange f o.m| ≤
        |((z : ℤ) : ℚ) -
          Reference.weightedSum o.domain.minRange o.domain.maxRange f o.m /
            Reference.totalWeight o.domain.minRange o.domain.maxRange f o.m| := by
  have hh : ∀ i, FuzzyOutput.heightOf o.m f i = Reference.height f o.m i :=
    fun i => heightOf_eq_reference o.m f i (fun c => (hacc c).1) (fun c => (hf i c).1)
  have hpos : ¬ Reference.weightedSum o.domain.minRange o.domain.maxRange f o.m < 1 / 100 →
      0 < Reference.totalWeight o.domain.minRange o.domain.maxRange f o.m := by
    intro hg
    unfold Reference.totalWeight
    unfold Reference.weightedSum at hg
    simp only [← hh] at hg ⊢
    exact totalWeight_pos_of_guard _ _ (heightOf_nonneg o.m f) hg
  refine ⟨?_, hpos, fun z => rintf_le_dist _ z⟩
  rw [getCrispValue_total o f hmem]
  simp only [hh]
  change (if Reference.weightedSum o.domain.minRange o.domain.maxRange f o.m < 1 / 100
    then some 0
    else (fdiv (Reference.weightedSum o.domain.minRange o.domain.maxRange f o.m)
      (Reference.totalWeight o.domain.minRange o.domain.maxRange f o.m)).map rintf) = _
  by_cases hg : Reference.weightedSum o.domain.minRange o.domain.maxRange f o.m < 1 / 100
  · rw [if_pos hg, if_pos hg]
  · rw [if_neg hg, if_neg hg]
    have := hpos hg
    simp [fdiv, this.ne']

/-- Witness of `getCrispValue_eq_reference`: range `[0, 2]`, every membership `1/2`, every
accumulated degree `1`. -/
theorem getCrispValue_eq_reference_witness :
    (⟨⟨0, 2, fun _ _ => some (1 / 2)⟩, fun _ => 1⟩ : FuzzyOutput).getCrispValue =
      some (if Reference.weightedSum 0 2 (fun _ _ => 1 / 2) (fun _ => 1) < 1 / 100 then 0
        else rintf (Reference.weightedSum 0 2 (fun _ _ => 1 / 2) (fun _ => 1) /
          Reference.totalWeight 0 2 (fun _ _ => 1 / 2) (fun _ => 1))) :=
  (getCrispValue_eq_reference ⟨⟨0, 2, fun _ _ => some (1 / 2)⟩, fun _ => 1⟩
    (fun _ _ => 1 / 2) (fun _ _ => rfl) (fun _ _ => by norm_num) (fun _ => by norm_num)).1

/-- In exact arithmetic: for a domain sampled with step one (`b - a < 2048`), a category `K` whose
membership is `centre(x, M, dev)` with `dev ≥ 1`, `a ≤ M - dev`, `M + dev ≤ b`, and a median
`M ≥ 0`: if `K` is the only category with a nonzero accumulated degree, and its degree is
`1`, then `getCrispValue` returns `M`. -/
theorem getCrispValue_round_trip (o : FuzzyOutput) (K : Fin MAX_CATEGORIES) (M dev : ℤ)
    (hmem : ∀ i c, (o.domain.membership i c).isSome = true)
    (hrange : o.domain.maxRange - o.domain.minRange < 2048) (hdev : 1 ≤ dev)
    (hlo : o.domain.minRange ≤ M - dev) (hhi : M + dev ≤ o.domain.maxRange)
    (hK : ∀ x, o.domain.membership x ((K : ℕ) : ℤ) = centre x M dev)
    (hacc : o.m K = 1) (hother : ∀ c, c ≠ K → o.m c = 0) (hM : 0 ≤ M) :
    o.getCrispValue = some M := by
  rw [getCrispValue_single_centre o K M dev hmem hrange hdev hlo hhi hK hacc hother,
    if_neg (not_lt.mpr hM)]

/-- Witness of `getCrispValue_round_trip`: the domain `Speed`, range `[0, 255]`, with only
`MEDIUM` (centre `128`, deviation `64`) accumulated, defuzzifies to `128`. -/
theorem getCrispValue_round_trip_witness :
    (⟨Speed.domain, fun c => if (c : ℕ) = 2 then 1 else 0⟩ : FuzzyOutput).getCrispValue =
      some 128 :=
  getCrispValue_round_trip ⟨Speed.domain, fun c => if (c : ℕ) = 2 then 1 else 0⟩
    ⟨2, by decide⟩ 128 64 speed_membership_isSome (by decide) (by decide) (by decide)
    (by decide) speed_membership_MEDIUM (by simp)
    (fun c hc => by
      have : (c : ℕ) ≠ 2 := fun h => hc (Fin.ext h)
      simp [this])
    (by decide)

/-- In exact arithmetic and unbounded integers: for every range, every membership function that returns a value and every prior
accumulated state, `reset` sets every accumulated category to `0`, and `getCrispValue` right
after `reset` returns `0`. -/
theorem reset_getCrispValue (o : FuzzyOutput)
    (hmem : ∀ i c, (o.domain.membership i c).isSome = true) :
    (∀ c, o.reset.m c = 0) ∧ o.reset.getCrispValue = some 0 := by
  refine ⟨reset_m o, ?_⟩
  have hd : o.reset.domain = o.domain := rfl
  rw [getCrispValue_total o.reset _ (by rw [hd]; exact membership_total o.domain hmem)]
  simp only [heightOf_zero o.reset.m (reset_m o)]
  norm_num

/-- Witness of `reset_getCrispValue`: the domain `Speed` with every degree at `3/4`. -/
theorem reset_getCrispValue_witness :
    (∀ c, (⟨Speed.domain, fun _ => 3 / 4⟩ : FuzzyOutput).reset.m c = 0) ∧
      (⟨Speed.domain, fun _ => 3 / 4⟩ : FuzzyOutput).reset.getCrispValue = some 0 :=
  reset_getCrispValue ⟨Speed.domain, fun _ => 3 / 4⟩ speed_membership_isSome

/-- C4: for a category `c` with `0 ≤ c < MAX_CATEGORIES`, `addMembership(c, m)` leaves
`accumulated[c] = max(previous accumulated[c], m)`, which is not below the previous value,
and leaves every other category unchanged; on a reset output, `addMembership(c, m1)` then
`addMembership(c, m2)` with `m1, m2` in `[0,1]` stores exactly `max(m1, m2)` for `c`. -/
theorem addMembership_max (o : FuzzyOutput) (c : ℤ) (hc0 : 0 ≤ c)
    (hc1 : c < (MAX_CATEGORIES : ℤ)) :
    ∃ k : Fin MAX_CATEGORIES, ((k : ℕ) : ℤ) = c ∧
      (∀ m : ℚ, ∃ o', o.addMembership c m = some o' ∧
        o'.m k = max (o.m k) m ∧ o.m k ≤ o'.m k ∧ (∀ j, j ≠ k → o'.m j = o.m j) ∧
        o'.domain = o.domain) ∧
      (∀ m1 m2 : ℚ, 0 ≤ m1 → m1 ≤ 1 → 0 ≤ m2 → m2 ≤ 1 →
        ∃ o1 o2, o.reset.addMembership c m1 = some o1 ∧ o1.addMembership c m2 = some o2 ∧
          o2.m k = max m1 m2) := by
  obtain ⟨k, hk, hkc⟩ := index_of_valid c hc0 hc1
  refine ⟨k, hkc, ?_, ?_⟩
  · intro m
    refine ⟨_, addMembership_of_index o c k hk m, ?_, ?_, ?_, rfl⟩
    · simp
    · simp
    · intro j hj
      simp [Function.update_noteq hj]
  · intro m1 m2 h1 _ _ _
    refine ⟨_, _, addMembership_of_index o.reset c k hk m1,
      addMembership_of_index _ c k hk m2, ?_⟩
    simp only [Function.update_same, reset_m o k]
    rw [max_eq_right h1]

/-- Witness of `addMembership_max`: category `2` of an output whose degrees are all `1/4`. -/
theorem addMembership_max_witness :
    ∃ k : Fin MAX_CATEGORIES, ((k : ℕ) : ℤ) = 2 ∧
      (∀ m : ℚ, ∃ o',
        (⟨Speed.domain, fun _ => 1 / 4⟩ : FuzzyOutput).addMembership 2 m = some o' ∧
        o'.m k = max ((⟨Speed.domain, fun _ => 1 / 4⟩ : FuzzyOutput).m k) m ∧
        (⟨Speed.domain, fun _ => 1 / 4⟩ : FuzzyOutput).m k ≤ o'.m k ∧
        (∀ j, j ≠ k → o'.m j = (⟨Speed.domain, fun _ => 1 / 4⟩ : FuzzyOutput).m j) ∧
        o'.domain = (⟨Speed.domain, fun _ => 1 / 4⟩ : FuzzyOutput).domain) ∧
      (∀ m1 m2 : ℚ, 0 ≤ m1 → m1 ≤ 1 → 0 ≤ m2 → m2 ≤ 1 →
        ∃ o1 o2,
          (⟨Speed.domain, fun _ => 1 / 4⟩ : FuzzyOutput).reset.addMembership 2 m1 = some o1 ∧
          o1.addMembership 2 m2 = some o2 ∧ o2.m k = max m1 m2) :=
  addMembership_max ⟨Speed.domain, fun _ => 1 / 4⟩ 2 (by decide) (by decide)

/-! ## Curve functions on the exact layer -/

/-- In exact arithmetic: for a deviation `> 0`, `centre(x, median, deviation)` is
`max(0, 1 - |x - median| / deviation)`: it is `1` at the median, and `0` whenever
`|x - median| ≥ deviation`, in particular at `median + deviation` and `median - deviation`. -/
theorem centre_triangle (x median deviation : ℤ) (hdev : 0 < deviation) :
    centre x median deviation =
        some (max 0 (1 - ((|x - median| : ℤ) : ℚ) / (deviation : ℚ))) ∧
      centre median median deviation = some 1 ∧
      (deviation ≤ |x - median| → centre x median deviation = some 0) ∧
      centre (median + deviation) median deviation = some 0 ∧
      centre (median - deviation) median deviation = some 0 := by
  have hq : (0 : ℚ) < (deviation : ℚ) := by exact_mod_cast hdev
  have zero_of : ∀ y : ℤ, deviation ≤ |y - median| → centre y median deviation = some 0 := by
    intro y hy
    rw [centre_pos_dev y median deviation hdev]
    have hy' : (deviation : ℚ) ≤ ((|y - median| : ℤ) : ℚ) := by exact_mod_cast hy
    have h1 : 1 ≤ ((|y - median| : ℤ) : ℚ) / (deviation : ℚ) := (one_le_div hq).mpr hy'
    rw [max_eq_left (by linarith)]
  refine ⟨centre_pos_dev x median deviation hdev, ?_, zero_of x, ?_, ?_⟩
  · rw [centre_pos_dev median median deviation hdev]
    simp
  · apply zero_of
    have : median + deviation - median = deviation := by ring
    rw [this, abs_of_pos hdev]
  · apply zero_of
    have : median - deviation - median = -deviation := by ring
    rw [this, abs_neg, abs_of_pos hdev]

/-- Witness of `centre_triangle`: median `128`, deviation `64`, at `x = 160`. -/
theorem centre_triangle_witness :
    centre 160 128 64 = some (max 0 (1 - ((|(160 : ℤ) - 128| : ℤ) : ℚ) / ((64 : ℤ) : ℚ))) ∧
      centre 128 128 64 = some 1 ∧
      ((64 : ℤ) ≤ |(160 : ℤ) - 128| → centre 160 128 64 = some 0) ∧
      centre (128 + 64) 128 64 = some 0 ∧
      centre (128 - 64) 128 64 = some 0 :=
  centre_triangle 160 128 64 (by decide)

/-- In unbounded integers: with deviation `0`, `centre(x, median, 0)` is `1` if `x = median` and `0`
otherwise. -/
theorem centre_dev_zero (x median : ℤ) :
    centre x median 0 = some (if x = median then 1 else 0) := by
  unfold centre
  rw [centreWith_eq]
  have hw : ¬ (0 < |x - median| ∧ |x - median| < 0) := by
    intro h
    exact absurd (lt_trans h.1 h.2) (lt_irrefl _)
  rw [if_neg hw]

/-- In unbounded integers: for every `x`, median and deviation (zero and negative deviations included)
`centre`, `left` and `right` return a value, that is, never divide by zero; whatever the
division operation is, `centre` calls it exactly when `0 < |x - median| < deviation`, with
`|x - median|` and `deviation` for arguments, and then `deviation ≥ 2`. -/
theorem curves_never_divide_by_zero (x median deviation : ℤ) :
    (centre x median deviation).isSome = true ∧
      (left x median deviation).isSome = true ∧
      (right x median deviation).isSome = true ∧
      (∀ dv : ℚ → ℚ → Option ℚ,
        centreWith dv x median deviation =
          if 0 < |x - median| ∧ |x - median| < deviation then
            (dv ((|x - median| : ℤ) : ℚ) (deviation : ℚ)).map (fun q => 1 - q)
          else some (if x = median then 1 else 0)) ∧
      (centreWith (fun _ _ => none) x median deviation = none ↔
        (0 < |x - median| ∧ |x - median| < deviation)) ∧
      (0 < |x - median| ∧ |x - median| < deviation → 2 ≤ deviation) := by
  refine ⟨centre_isSome x median deviation, ?_, ?_, fun dv => centreWith_eq dv x median deviation,
    ?_, ?_⟩
  · unfold left
    split
    · rfl
    · exact centre_isSome x median deviation
  · unfold right
    split
    · rfl
    · exact centre_isSome x median deviation
  · rw [centreWith_eq]
    by_cases hw : 0 < |x - median| ∧ |x - median| < deviation
    · simp [hw]
    · simp [hw]
  · rintro ⟨h1, h2⟩
    omega

/-- Witness of `curves_never_divide_by_zero`: at `x = 100`, median `128`, deviation `64` the
division is reached, and the deviation is at least `2`. -/
theorem curves_never_divide_by_zero_witness :
    (centre 100 128 64).isSome = true ∧ (2 : ℤ) ≤ 64 :=
  ⟨(curves_never_divide_by_zero 100 128 64).1,
    (curves_never_divide_by_zero 100 128 64).2.2.2.2.2 (by decide)⟩

/-- C8: `centre` is symmetric about the median, for every median, deviation and `k`. -/
theorem centre_symmetric (median deviation k : ℤ) :
    centre (median + k) median deviation = centre (median - k) median deviation :=
  centre_reflect median deviation k

/-- C9: `left(x, median, d)` is `1` when `x ≤ median` and is `centre(x, median, d)` when
`x > median`. -/
theorem left_spec (x median d : ℤ) :
    (x ≤ median → left x median d = some 1) ∧
      (x > median → left x median d = centre x median d) := by
  constructor
  · intro h
    unfold left
    rw [if_pos h]
  · intro h
    unfold left
    rw [if_neg (not_le.mpr h)]

/-- Witness of `left_spec`: the `CLOSE` curve of `Distance` (median `100`, deviation `50`)
at `50` and at `120`. -/
theorem left_spec_witness :
    left 50 100 50 = some 1 ∧ left 120 100 50 = centre 120 100 50 :=
  ⟨(left_spec 50 100 50).1 (by decide), (left_spec 120 100 50).2 (by decide)⟩

/-- C10: `right` mirrors `left` about the median: `right(median - k) = left(median + k)`
for every median, deviation and `k`; `right` is `1` for `x ≥ median` and is `centre` for
`x < median`. -/
theorem right_mirror_left (median d k x : ℤ) :
    right (median - k) median d = left (median + k) median d ∧
      (x ≥ median → right x median d = some 1) ∧
      (x < median → right x median d = centre x median d) := by
  refine ⟨?_, ?_, ?_⟩
  · unfold right left
    by_cases hk : 0 ≤ k
    · have h1 : median - k ≤ median := by omega
      by_cases hk0 : k = 0
      · subst hk0
        simp
      · have h2 : ¬ median - k ≥ median := by omega
        have h3 : ¬ median + k ≤ median := by omega
        rw [if_neg h2, if_neg h3]
        exact (centre_reflect median d k).symm
    · have h2 : median - k ≥ median := by omega
      have h3 : median + k ≤ median := by omega
      rw [if_pos h2, if_pos h3]
  · intro h
    unfold right
    rw [if_pos h]
  · intro h
    unfold right
    rw [if_neg (not_le.mpr h)]

/-- Witness of `right_mirror_left`: the `FAR` curve of `Distance` (median `100`, deviation
`50`) at `200` and at `80`, and the mirror point for `k = 20`. -/
theorem right_mirror_left_witness :
    right (100 - 20) 100 50 = left (100 + 20) 100 50 ∧ right 200 100 50 = some 1 ∧
      right 80 100 50 = centre 80 100 50 :=
  ⟨(right_mirror_left 100 50 20 0).1, (right_mirror_left 100 50 20 200).2.1 (by decide),
    (right_mirror_left 100 50 20 80).2.2 (by decide)⟩

/-! ## The sampling loop: shared lemmas -/

/-- The loop with a body that never faults, run from `i` over `n` points: a fold of the body
over the points `i, i+d, ...`. -/
theorem forLoop_fold {σ : Type} (b d : ℤ) (hd : 1 ≤ d) (body : ℤ → σ → Option σ)
    (g : ℤ → σ → σ) (hg : ∀ i s, body i s = some (g i s)) :
    ∀ (n : ℕ) (i : ℤ) (s : σ), (∀ k : ℕ, k < n → i + (k : ℤ) * d ≤ b) →
      b < i + (n : ℤ) * d →
      forLoop b d hd body i s =
        some ((List.range n).foldl (fun s (k : ℕ) => g (i + (k : ℤ) * d) s) s) := by
  intro n
  induction n with
  | zero =>
    intro i s _ hlt
    rw [forLoop_done b d hd body i s (by simpa using hlt)]
    rfl
  | succ n ih =>
    intro i s hle hlt
    have h0 : i ≤ b := by simpa using hle 0 (Nat.succ_pos n)
    rw [forLoop_step b d hd body i s _ h0 (hg i s), ih (i + d) _ ?_ ?_]
    · rw [List.range_succ_eq_map, List.foldl_cons, List.foldl_map]
      have e : ∀ k : ℕ, i + d + (k : ℤ) * d = i + ((k + 1 : ℕ) : ℤ) * d := by
        intro k
        push_cast
        ring
      simp only [e, Nat.cast_zero, zero_mul, add_zero, Nat.succ_eq_add_one]
    · intro k hk
      have := hle (k + 1) (Nat.succ_lt_succ hk)
      push_cast at this
      linarith
    · push_cast at hlt
      linarith

/-- Recording the points of a fold gives the list of the points. -/
theorem foldl_record (a d : ℤ) (n : ℕ) (l : List ℤ) :
    (List.range n).foldl (fun s (k : ℕ) => s ++ [a + (k : ℤ) * d]) l =
      l ++ (List.range n).map (fun k : ℕ => a + (k : ℤ) * d) := by
  induction n with
  | zero => simp
  | succ n ih =>
    rw [List.range_succ, List.foldl_append, ih, List.map_append]
    simp

/-- The points the loop of `getCrispValue` visits: `a + k*d` for `k` below the count. -/
theorem loopTrace_eq (a b : ℤ) :
    FuzzyOutput.loopTrace a b =
      some ((List.range (Reference.sampleCount a b (FuzzyOutput.step a b).1)).map
        (fun k : ℕ => a + (k : ℤ) * (FuzzyOutput.step a b).1)) := by
  unfold FuzzyOutput.loopTrace
  simp only
  have hs := sampleCount_spec a b (FuzzyOutput.step a b).1 (FuzzyOutput.step a b).2
  rw [forLoop_fold b _ _ _ (fun i visited => visited ++ [i]) (fun _ _ => rfl) _ a [] hs.1 hs.2,
    foldl_record]
  simp

/-- The step of the code in C arithmetic: the truncated quotient raised to one. -/
theorem step_eq_max (a b : ℤ) :
    (FuzzyOutput.step a b).1 = max 1 (Int.tdiv (b - a) 1024) := by
  unfold FuzzyOutput.step FuzzyOutput.STEPS
  by_cases h : Int.tdiv (b - a) 1024 < 1
  · simp only [h, dite_true]
    omega
  · simp only [h, dite_false]
    omega

/-- At most `2048` points are counted. -/
theorem sampleCount_le (a b : ℤ) :
    Reference.sampleCount a b (Reference.step a b) ≤ 2048 := by
  unfold Reference.sampleCount
  split
  · rename_i hab
    have hD : 0 ≤ b - a := by omega
    have hq : (b - a) / Reference.step a b < 2048 := by
      unfold Reference.step
      by_cases h : (b - a) / 1024 < 1
      · rw [max_eq_left (by omega)]
        omega
      · rw [max_eq_right (by omega)]
        apply Int.ediv_lt_of_lt_mul (by omega)
        have := Int.lt_ediv_add_one_mul_self (b - a) (by decide : (0 : ℤ) < 1024)
        nlinarith
    omega
  · omega

/-- A sample point of the reference lies in the range. -/
theorem mem_samples_bounds (a b i : ℤ) (h : i ∈ Reference.samples a b) : a ≤ i ∧ i ≤ b := by
  have hd : 1 ≤ Reference.step a b := le_max_left _ _
  simp only [Reference.samples, Finset.mem_filter, Finset.mem_image, Finset.mem_range] at h
  obtain ⟨⟨k, _, rfl⟩, hle⟩ := h
  refine ⟨?_, hle⟩
  have : (0 : ℤ) ≤ (k : ℤ) * Reference.step a b := mul_nonneg (Int.ofNat_nonneg k) (by omega)
  linarith

/-- Rounding a value between two integers stays between them. -/
theorem rintf_mem_Icc (a b : ℤ) (x : ℚ) (ha : (a : ℚ) ≤ x) (hb : x ≤ (b : ℚ)) :
    a ≤ rintf x ∧ rintf x ≤ b := by
  have hfl : a ≤ ⌊x⌋ := Int.le_floor.mpr ha
  have hfu : ⌊x⌋ ≤ b := by
    have : ((⌊x⌋ : ℤ) : ℚ) ≤ (b : ℚ) := le_trans (Int.floor_le x) hb
    exact_mod_cast this
  have hup : x - ⌊x⌋ ≠ 0 → ⌊x⌋ + 1 ≤ b := by
    intro hne
    have h1 : ((⌊x⌋ : ℤ) : ℚ) < x := lt_of_le_of_ne (Int.floor_le x) (fun h => hne (by rw [h]; ring))
    have h2 : ((⌊x⌋ : ℤ) : ℚ) < (b : ℚ) := lt_of_lt_of_le h1 hb
    have : ⌊x⌋ < b := by exact_mod_cast h2
    omega
  unfold rintf
  simp only
  split_ifs with h1 h2 h3
  · exact ⟨hfl, hfu⟩
  · exact ⟨by omega, hup (by intro h; rw [h] at h2; norm_num at h2)⟩
  · exact ⟨hfl, hfu⟩
  · refine ⟨by omega, hup ?_⟩
    intro h
    rw [h] at h1
    norm_num at h1

/-- A weighted mean of integers of `[a, b]` with non-negative weights and positive total
weight lies in `[a, b]`. -/
theorem weighted_mean_bounds (S : Finset ℤ) (h : ℤ → ℚ) (a b : ℤ)
    (hS : ∀ i ∈ S, a ≤ i ∧ i ≤ b) (hh : ∀ i, 0 ≤ h i) (hpos : 0 < ∑ i in S, h i) :
    (a : ℚ) ≤ (∑ i in S, (i : ℚ) * h i) / ∑ i in S, h i ∧
      (∑ i in S, (i : ℚ) * h i) / ∑ i in S, h i ≤ (b : ℚ) := by
  constructor
  · rw [le_div_iff₀ hpos, Finset.mul_sum]
    apply Finset.sum_le_sum
    intro i hi
    have : (a : ℚ) ≤ (i : ℚ) := by exact_mod_cast (hS i hi).1
    exact mul_le_mul_of_nonneg_right this (hh i)
  · rw [div_le_iff₀ hpos, Finset.mul_sum]
    apply Finset.sum_le_sum
    intro i hi
    have : (i : ℚ) ≤ (b : ℚ) := by exact_mod_cast (hS i hi).2
    exact mul_le_mul_of_nonneg_right this (hh i)

/-- The array index of a category given by a natural number inside the array. -/
theorem index_natCast (n : ℕ) (h : n < MAX_CATEGORIES) :
    FuzzyOutput.index (n : ℤ) = some ⟨n, h⟩ := by
  unfold FuzzyOutput.index
  rw [dif_pos ⟨Int.ofNat_nonneg n, by exact_mod_cast h⟩]
  simp

/-- Adding the degree zero to a category whose accumulated degree is not negative changes
nothing. -/
theorem addMembership_zero (o : FuzzyOutput) (c : ℤ) (k : Fin MAX_CATEGORIES)
    (hk : FuzzyOutput.index c = some k) (h : 0 ≤ o.m k) : o.addMembership c 0 = some o := by
  rw [addMembership_of_index o c k hk 0, max_eq_left h, Function.update_eq_self]

/-- A rule whose antecedent is zero leaves both outputs unchanged. -/
theorem consequents_zero (g : Demo) (cl cr : ℤ) (kl kr : Fin MAX_CATEGORIES)
    (hl : FuzzyOutput.index cl = some kl) (hr : FuzzyOutput.index cr = some kr)
    (hnl : 0 ≤ g.left.m kl) (hnr : 0 ≤ g.right.m kr) : g.consequents 0 cl cr = some g := by
  unfold Demo.consequents
  rw [addMembership_zero g.left cl kl hl hnl, addMembership_zero g.right cr kr hr hnr]
  rfl

/-- The membership of `Distance::FAR` is one from the median `100` on. -/
theorem distance_FAR (x : ℤ) (hx : 100 ≤ x) : Distance.membership x Distance.FAR = some 1 := by
  simp [Distance.membership, LEFT_CURVE, RIGHT_CURVE, Distance.CLOSE, Distance.FAR, right, hx,
    fmax]

/-- The membership of `Distance::CLOSE` is zero from `150` on. -/
theorem distance_CLOSE (x : ℤ) (hx : 150 ≤ x) :
    Distance.membership x Distance.CLOSE = some 0 := by
  have hc : centre x 100 50 = some 0 :=
    centre_zero_outside x 100 50 (by decide) (by rw [abs_of_nonneg (by omega)]; omega)
  have hl : left x 100 50 = some 0 := by
    unfold left
    rw [if_neg (by omega), hc]
  simp [Distance.membership, LEFT_CURVE, RIGHT_CURVE, Distance.CLOSE, Distance.FAR, hl, fmax]

/-- At the crisp direction `0` the membership of `Direction::LEFT` is zero. -/
theorem direction_LEFT_zero : Direction.membership 0 Direction.LEFT = some 0 := by
  have hc : centre 0 (-10) 10 = some 0 := centre_zero_outside 0 (-10) 10 (by decide) (by decide)
  have hl : left 0 (-10) 10 = some 0 := by
    unfold left
    rw [if_neg (by decide), hc]
  simp [Direction.membership, LEFT_CURVE, RIGHT_CURVE, CENTRE_CURVE, Direction.LEFT,
    Direction.RIGHT, Direction.AHEAD, hl, fmax]

/-- At the crisp direction `0` the membership of `Direction::RIGHT` is zero. -/
theorem direction_RIGHT_zero : Direction.membership 0 Direction.RIGHT = some 0 := by
  have hc : centre 0 10 10 = some 0 := centre_zero_outside 0 10 10 (by decide) (by decide)
  have hr : right 0 10 10 = some 0 := by
    unfold right
    rw [if_neg (by decide), hc]
  simp [Direction.membership, LEFT_CURVE, RIGHT_CURVE, CENTRE_CURVE, Direction.LEFT,
    Direction.RIGHT, Direction.AHEAD, hr, fmax]

/-- A `Speed` output in which only `MEDIUM` is accumulated, with degree one, defuzzifies to
`128`. -/
theorem speed_MEDIUM_only :
    (⟨Speed.domain, fun c => if (c : ℕ) = 2 then 1 else 0⟩ : FuzzyOutput).getCrispValue =
      some 128 := by
  rw [getCrispValue_single_centre ⟨Speed.domain, fun c => if (c : ℕ) = 2 then 1 else 0⟩
    ⟨2, by decide⟩ 128 64 speed_membership_isSome (by decide) (by decide) (by decide)
    (by decide) speed_membership_MEDIUM (by simp)
    (fun c hc => by
      have : (c : ℕ) ≠ 2 := fun h => hc (Fin.ext h)
      simp [this])]
  rfl

/-- On a reset `Speed` output, `addMembership(MEDIUM, 1)` leaves `MEDIUM` at one and the other
categories at zero. -/
theorem reset_add_MEDIUM (m : Fin MAX_CATEGORIES → ℚ) :
    (⟨Speed.domain, m⟩ : FuzzyOutput).reset.addMembership Speed.MEDIUM 1 =
      some ⟨Speed.domain, fun c => if (c : ℕ) = 2 then 1 else 0⟩ := by
  have i2 : FuzzyOutput.index Speed.MEDIUM = some ⟨2, by decide⟩ := index_natCast 2 (by decide)
  rw [addMembership_of_index _ _ _ i2]
  have hf : Function.update (⟨Speed.domain, m⟩ : FuzzyOutput).reset.m ⟨2, by decide⟩
      (max ((⟨Speed.domain, m⟩ : FuzzyOutput).reset.m ⟨2, by decide⟩) 1) =
      fun c : Fin MAX_CATEGORIES => (if (c : ℕ) = 2 then 1 else 0 : ℚ) := by
    funext c
    by_cases hc : (c : ℕ) = 2
    · have : c = ⟨2, by decide⟩ := Fin.ext hc
      rw [this, Function.update_same, reset_m, if_pos rfl]
      norm_num
    · have : c ≠ ⟨2, by decide⟩ := fun h => hc (by rw [h])
      rw [Function.update_noteq this, reset_m, if_neg hc]
  rw [hf]
  rfl

/-- One run of `test()` on `Speed` outputs when the distance is `FAR` with degree one and not
`CLOSE`, and the direction is neither `LEFT` nor `RIGHT`: only `MEDIUM` is accumulated and
both outputs defuzzify to `128`. -/
theorem test_far (oa bd : FuzzyInput) (mL mR : Fin MAX_CATEGORIES → ℚ)
    (h1 : oa.is Distance.FAR = some 1) (h2 : oa.is Distance.CLOSE = some 0)
    (h3 : bd.is Direction.LEFT = some 0) (h4 : bd.is Direction.RIGHT = some 0) :
    Demo.test ⟨oa, bd, ⟨Speed.domain, mL⟩, ⟨Speed.domain, mR⟩⟩ =
      some (⟨oa, bd, ⟨Speed.domain, fun c => if (c : ℕ) = 2 then 1 else 0⟩,
        ⟨Speed.domain, fun c => if (c : ℕ) = 2 then 1 else 0⟩⟩, 128, 128) := by
  have i1 : FuzzyOutput.index Speed.SLOW = some ⟨1, by decide⟩ := index_natCast 1 (by decide)
  have i3 : FuzzyOutput.index Speed.FAST = some ⟨3, by decide⟩ := index_natCast 3 (by decide)
  have hnn : ∀ c : Fin MAX_CATEGORIES, (0 : ℚ) ≤ if (c : ℕ) = 2 then 1 else 0 := by
    intro c
    split <;> norm_num
  have hc1 : Demo.consequents
      ⟨oa, bd, (⟨Speed.domain, mL⟩ : FuzzyOutput).reset, (⟨Speed.domain, mR⟩ : FuzzyOutput).reset⟩
      1 Speed.MEDIUM Speed.MEDIUM =
      some ⟨oa, bd, ⟨Speed.domain, fun c => if (c : ℕ) = 2 then 1 else 0⟩,
        ⟨Speed.domain, fun c => if (c : ℕ) = 2 then 1 else 0⟩⟩ := by
    unfold Demo.consequents
    simp only [reset_add_MEDIUM]
    rfl
  have hz : ∀ (cl cr : ℤ) (kl kr : Fin MAX_CATEGORIES), FuzzyOutput.index cl = some kl →
      FuzzyOutput.index cr = some kr →
      Demo.consequents ⟨oa, bd, ⟨Speed.domain, fun c => if (c : ℕ) = 2 then 1 else 0⟩,
        ⟨Speed.domain, fun c => if (c : ℕ) = 2 then 1 else 0⟩⟩ 0 cl cr =
      some ⟨oa, bd, ⟨Speed.domain, fun c => if (c : ℕ) = 2 then 1 else 0⟩,
        ⟨Speed.domain, fun c => if (c : ℕ) = 2 then 1 else 0⟩⟩ :=
    fun cl cr kl kr hl hr => consequents_zero _ cl cr kl kr hl hr (hnn kl) (hnn kr)
  unfold Demo.test
  dsimp only [FuzzyInput.is] at h1 h2 h3 h4 ⊢
  rw [h1, Option.bind_eq_bind, Option.some_bind, hc1, Option.bind_eq_bind, Option.some_bind]
  dsimp only
  rw [h2, Option.bind_eq_bind, Option.some_bind, hz _ _ _ _ i1 i1, Option.some_bind]
  dsimp only
  rw [h3, Option.some_bind, hz _ _ _ _ i1 i3, Option.some_bind]
  dsimp only
  rw [h4, Option.some_bind, hz _ _ _ _ i3 i1, Option.some_bind]
  dsimp only
  rw [speed_MEDIUM_only, Option.some_bind, Option.some_bind]
  rfl

/-! ## Division, range and sampling loop of `getCrispValue` on the exact layer -/

/-- C16: in the domain `Distance`, for every crisp distance `x ≥ 150`, `is(FAR) = 1` and
`is(CLOSE) = 0`; and `test()` run with that distance and the direction `0`, from any state of
the two `Speed` outputs, accumulates only `MEDIUM`, with degree `1`, and prints `128` for both
outputs. -/
theorem demo_far_scenario (x : ℤ) (hx : 150 ≤ x) (mL mR : Fin MAX_CATEGORIES → ℚ) :
    (⟨Distance.domain, x⟩ : FuzzyInput).is Distance.FAR = some 1 ∧
      (⟨Distance.domain, x⟩ : FuzzyInput).is Distance.CLOSE = some 0 ∧
      Demo.test ⟨⟨Distance.domain, x⟩, ⟨Direction.domain, 0⟩, ⟨Speed.domain, mL⟩,
          ⟨Speed.domain, mR⟩⟩ =
        some (⟨⟨Distance.domain, x⟩, ⟨Direction.domain, 0⟩,
          ⟨Speed.domain, fun c => if (c : ℕ) = 2 then 1 else 0⟩,
          ⟨Speed.domain, fun c => if (c : ℕ) = 2 then 1 else 0⟩⟩, 128, 128) :=
  ⟨distance_FAR x (by omega), distance_CLOSE x hx,
    test_far ⟨Distance.domain, x⟩ ⟨Direction.domain, 0⟩ mL mR (distance_FAR x (by omega))
      (distance_CLOSE x hx) direction_LEFT_zero direction_RIGHT_zero⟩

/-- Witness of `demo_far_scenario`: the first run of `main`, distance `200` on the initial
globals. -/
theorem demo_far_scenario_witness :
    (Demo.initial.obstructionAhead.setCrispValue 200).is Distance.FAR = some 1 ∧
      (Demo.initial.obstructionAhead.setCrispValue 200).is Distance.CLOSE = some 0 ∧
      Demo.test { Demo.initial with
          obstructionAhead := Demo.initial.obstructionAhead.setCrispValue 200 } =
        some (⟨⟨Distance.domain, 200⟩, ⟨Direction.domain, 0⟩,
          ⟨Speed.domain, fun c => if (c : ℕ) = 2 then 1 else 0⟩,
          ⟨Speed.domain, fun c => if (c : ℕ) = 2 then 1 else 0⟩⟩, 128, 128) :=
  demo_far_scenario 200 (by decide) (fun _ => 0) (fun _ => 0)

/-- In unbounded integers: for every pair of range bounds `a, b` the step `d = max(1, (b - a) / 1024)` is `≥ 1`
and the sampling loop terminates, with any body that returns a value; it visits its points in
strictly increasing order, and they are exactly the `a + k*d` with `0 ≤ k` and `a + k*d ≤ b`,
none at all when `a > b`. -/
theorem sampling_loop_terminates (a b : ℤ) :
    1 ≤ (FuzzyOutput.step a b).1 ∧
      (FuzzyOutput.step a b).1 = max 1 (Int.tdiv (b - a) 1024) ∧
      (∃ L, FuzzyOutput.loopTrace a b = some L ∧ L.Pairwise (fun i j => i < j) ∧
        (∀ i, i ∈ L ↔ ∃ k : ℕ, i = a + (k : ℤ) * (FuzzyOutput.step a b).1 ∧ i ≤ b) ∧
        (b < a → L = [])) ∧
      ∀ (σ : Type) (body : ℤ → σ → Option σ) (s : σ),
        (∀ i t, (body i t).isSome = true) →
        (forLoop b (FuzzyOutput.step a b).1 (FuzzyOutput.step a b).2 body a s).isSome = true := by
  have hd := (FuzzyOutput.step a b).2
  have hs := sampleCount_spec a b (FuzzyOutput.step a b).1 hd
  refine ⟨hd, step_eq_max a b, ⟨_, loopTrace_eq a b, ?_, ?_, ?_⟩, ?_⟩
  · apply List.Pairwise.map _ _ (List.pairwise_lt_range _)
    intro k l hkl
    have : (k : ℤ) < (l : ℤ) := by exact_mod_cast hkl
    have := mul_lt_mul_of_pos_right this (by omega : (0 : ℤ) < (FuzzyOutput.step a b).1)
    linarith
  · intro i
    simp only [List.mem_map, List.mem_range]
    constructor
    · rintro ⟨k, hk, rfl⟩
      exact ⟨k, rfl, hs.1 k hk⟩
    · rintro ⟨k, rfl, hle⟩
      exact ⟨k, lt_sampleCount a b _ hd k hle, rfl⟩
  · intro hba
    have : Reference.sampleCount a b (FuzzyOutput.step a b).1 = 0 := by
      unfold Reference.sampleCount
      rw [if_neg (by omega)]
    rw [this]
    rfl
  · intro σ body s hbody
    have hg : ∀ i t, body i t = some ((body i t).getD t) := by
      intro i t
      obtain ⟨v, hv⟩ := Option.isSome_iff_exists.mp (hbody i t)
      rw [hv]
      rfl
    rw [forLoop_fold b _ hd body (fun i t => (body i t).getD t) hg _ a s hs.1 hs.2]
    rfl

/-- Witness of `sampling_loop_terminates`: the range `[0, 255]` of `Speed` has step at least
one, and the range `[5, 3]` has no sample point. -/
theorem sampling_loop_terminates_witness :
    1 ≤ (FuzzyOutput.step 0 255).1 ∧
      ∃ L, FuzzyOutput.loopTrace 5 3 = some L ∧ L = [] :=
  ⟨(sampling_loop_terminates 0 255).1,
    (sampling_loop_terminates 5 3).2.2.1.imp (fun _ h => ⟨h.1, h.2.2.2 (by decide)⟩)⟩

/-- In exact arithmetic: for every integer `x`, median and deviation (zero and negative deviations included)
`centre`, `left` and `right` return a degree in `[0,1]`. -/
theorem curves_in_unit_interval (x median deviation : ℤ) :
    (∃ v, centre x median deviation = some v ∧ 0 ≤ v ∧ v ≤ 1) ∧
      (∃ v, left x median deviation = some v ∧ 0 ≤ v ∧ v ≤ 1) ∧
      (∃ v, right x median deviation = some v ∧ 0 ≤ v ∧ v ≤ 1) := by
  refine ⟨centre_bounds x median deviation, ?_, ?_⟩
  · unfold left
    split
    · exact ⟨1, rfl, by norm_num, le_refl 1⟩
    · exact centre_bounds x median deviation
  · unfold right
    split
    · exact ⟨1, rfl, by norm_num, le_refl 1⟩
    · exact centre_bounds x median deviation

/-- In exact arithmetic: for every domain whose membership function returns a value (with range bounds
`a ≤ b`, and also without that order) and every accumulated state, `getCrispValue` returns
either `0` or an integer `r` with `a ≤ r ≤ b`. -/
theorem getCrispValue_in_range (o : FuzzyOutput)
    (hmem : ∀ i c, (o.domain.membership i c).isSome = true) :
    ∃ r, o.getCrispValue = some r ∧
      (r = 0 ∨ (o.domain.minRange ≤ r ∧ r ≤ o.domain.maxRange)) := by
  have hf := membership_total o.domain hmem
  rw [getCrispValue_total o _ hf]
  split
  · exact ⟨0, rfl, Or.inl rfl⟩
  · rename_i hg
    have hpos := totalWeight_pos_of_guard _ _ (heightOf_nonneg o.m _) hg
    have hb := weighted_mean_bounds _ _ o.domain.minRange o.domain.maxRange
      (fun i hi => mem_samples_bounds _ _ i hi) (heightOf_nonneg o.m _) hpos
    refine ⟨_, ?_, Or.inr (rintf_mem_Icc _ _ _ hb.1 hb.2)⟩
    simp only [fdiv, hpos.ne', if_false, Option.map_some']

/-- Witness of `getCrispValue_in_range`: the domain `Speed`, range `[0, 255]`, with every
degree at `3/4`. -/
theorem getCrispValue_in_range_witness :
    ∃ r, (⟨Speed.domain, fun _ => 3 / 4⟩ : FuzzyOutput).getCrispValue = some r ∧
      (r = 0 ∨ (Speed.domain.minRange ≤ r ∧ r ≤ Speed.domain.maxRange)) :=
  getCrispValue_in_range ⟨Speed.domain, fun _ => 3 / 4⟩ speed_membership_isSome

/-- In unbounded integers: for every range with `a ≤ b` the loop of `getCrispValue` visits
`⌊(b - a) / d⌋ + 1` sample points, `d = max(1, (b - a) / 1024)`, and never more than
`2048`. -/
theorem sample_count_bound (a b : ℤ) (hab : a ≤ b) :
    ∃ L, FuzzyOutput.loopTrace a b = some L ∧
      (L.length : ℤ) = (b - a) / max 1 ((b - a) / 1024) + 1 ∧ L.length ≤ 2048 := by
  refine ⟨_, loopTrace_eq a b, ?_, ?_⟩
  · rw [List.length_map, List.length_range, step_eq_reference]
    unfold Reference.sampleCount Reference.step
    rw [if_pos hab]
    have hq : 0 ≤ (b - a) / max 1 ((b - a) / 1024) :=
      Int.ediv_nonneg (by omega) (le_trans (by decide) (le_max_left _ _))
    push_cast
    rw [Int.toNat_of_nonneg hq]
  · rw [List.length_map, List.length_range, step_eq_reference]
    exact sampleCount_le a b

/-- Witness of `sample_count_bound`: the range `[0, 2047]` is sampled at `2048` points. -/
theorem sample_count_bound_witness :
    ∃ L, FuzzyOutput.loopTrace 0 2047 = some L ∧
      (L.length : ℤ) = (2047 - 0) / max 1 ((2047 - 0) / 1024) + 1 ∧ L.length ≤ 2048 :=
  sample_count_bound 0 2047 (by decide)

/-! ## Hedges: shared lemmas -/

/-- The `INDEED` hedge with the exact power: the two branches of the code. -/
theorem hedge_INDEED_exact (m : ℝ) :
    hedge (⟨fun x y => x ^ y, Real.sqrt⟩ : CMath ℝ) Hedge.INDEED m =
      if 0 ≤ m ∧ m ≤ 1 / 2 then 2 * m ^ 2 else 1 - 2 * (1 - m) ^ 2 := by
  have h : (0.5 : ℝ) = 1 / 2 := by norm_num
  simp only [hedge, h, Real.rpow_two]

/-! ## Hedges: the properties -/

/-- C11: with the exact power and square root, every one of the eight hedges maps `0` to `0`
and `1` to `1`; and `hedge(NONE, m) = m` for every `m`, whatever the library functions. -/
theorem hedge_endpoints (kind : Hedge) :
    hedge (⟨fun x y => x ^ y, Real.sqrt⟩ : CMath ℝ) kind 0 = 0 ∧
      hedge (⟨fun x y => x ^ y, Real.sqrt⟩ : CMath ℝ) kind 1 = 1 ∧
      (∀ (F : Type) [LinearOrderedField F] (lib : CMath F) (m : F),
        hedge lib Hedge.NONE m = m) := by
  refine ⟨?_, ?_, fun F _ lib m => rfl⟩
  · cases kind <;> simp [hedge] <;> norm_num
  · cases kind <;> simp [hedge]
    norm_num

/-- C13: with the exact power and square root, every hedge is monotonic on `[0,1]`: for
`0 ≤ m1 ≤ m2 ≤ 1`, `hedge(kind, m1) ≤ hedge(kind, m2)`; for `INDEED` also when `m1` and `m2`
lie on opposite sides of `0.5`. -/
theorem hedge_monotone (kind : Hedge) (m1 m2 : ℝ) (h0 : 0 ≤ m1) (h12 : m1 ≤ m2)
    (h1 : m2 ≤ 1) :
    hedge (⟨fun x y => x ^ y, Real.sqrt⟩ : CMath ℝ) kind m1 ≤
      hedge (⟨fun x y => x ^ y, Real.sqrt⟩ : CMath ℝ) kind m2 := by
  have h02 : 0 ≤ m2 := le_trans h0 h12
  cases kind
  case NONE => exact h12
  case A_LITTLE => exact Real.rpow_le_rpow h0 h12 (by norm_num)
  case SLIGHTLY => exact Real.rpow_le_rpow h0 h12 (by norm_num)
  case VERY => exact Real.rpow_le_rpow h0 h12 (by norm_num)
  case EXTREMELY => exact Real.rpow_le_rpow h0 h12 (by norm_num)
  case VERY_VERY => exact Real.rpow_le_rpow h0 h12 (by norm_num)
  case SOMEWHAT => exact Real.sqrt_le_sqrt h12
  case INDEED =>
    rw [hedge_INDEED_exact, hedge_INDEED_exact]
    by_cases ha : m1 ≤ 1 / 2
    · rw [if_pos ⟨h0, ha⟩]
      by_cases hb : m2 ≤ 1 / 2
      · rw [if_pos ⟨h02, hb⟩]
        nlinarith
      · rw [if_neg (fun h => hb h.2)]
        nlinarith
    · have hb : ¬ m2 ≤ 1 / 2 := fun h => ha (le_trans h12 h)
      rw [if_neg (fun h => ha h.2), if_neg (fun h => hb h.2)]
      nlinarith

/-- Witness of `hedge_monotone`: `INDEED` at `1/4` and `3/4`, on opposite sides of `0.5`. -/
theorem hedge_monotone_witness :
    hedge (⟨fun x y => x ^ y, Real.sqrt⟩ : CMath ℝ) Hedge.INDEED (1 / 4) ≤
      hedge (⟨fun x y => x ^ y, Real.sqrt⟩ : CMath ℝ) Hedge.INDEED (3 / 4) :=
  hedge_monotone Hedge.INDEED (1 / 4) (3 / 4) (by norm_num) (by norm_num) (by norm_num)

/-- C14: with the exact power, `hedge(INDEED, 0.5) = 0.5`, both branch formulas are `0.5` at
`m = 0.5`, and `m ↦ hedge(INDEED, m)` is continuous at `0.5`. -/
theorem hedge_INDEED_continuous_at_half :
    hedge (⟨fun x y => x ^ y, Real.sqrt⟩ : CMath ℝ) Hedge.INDEED 0.5 = 0.5 ∧
      (2 : ℝ) * 0.5 ^ 2 = 0.5 ∧ (1 : ℝ) - 2 * (1 - 0.5) ^ 2 = 0.5 ∧
      ContinuousAt
        (fun m : ℝ => hedge (⟨fun x y => x ^ y, Real.sqrt⟩ : CMath ℝ) Hedge.INDEED m) 0.5 := by
  refine ⟨?_, by norm_num, by norm_num, ?_⟩
  · rw [hedge_INDEED_exact]
    norm_num
  · have hc : Continuous (fun m : ℝ => if m ≤ 1 / 2 then 2 * m ^ 2 else 1 - 2 * (1 - m) ^ 2) := by
      apply Continuous.if_le (by continuity) (by continuity) continuous_id continuous_const
      intro x hx
      simp only [id] at hx
      rw [hx]
      norm_num
    apply hc.continuousAt.congr
    have hpos : ∀ᶠ m : ℝ in nhds (0.5 : ℝ), 0 < m :=
      lt_mem_nhds (by norm_num : (0 : ℝ) < 0.5)
    filter_upwards [hpos] with m hm
    rw [hedge_INDEED_exact]
    by_cases h : m ≤ 1 / 2
    · rw [if_pos h, if_pos ⟨hm.le, h⟩]
    · rw [if_neg h, if_neg (fun h' => h h'.2)]

/-! ## Machine arithmetic: rounding -/

/-- The binary exponent of a positive rational between two consecutive powers of two. -/
theorem log_two_eq (r : ℚ) (e : ℤ) (hlo : (2 : ℚ) ^ e ≤ r) (hhi : r < (2 : ℚ) ^ (e + 1)) :
    Int.log 2 r = e := by
  have hr : 0 < r := lt_of_lt_of_le (zpow_pos (by norm_num) e) hlo
  have h1 : e ≤ Int.log 2 r :=
    (Int.zpow_le_iff_le_log (by norm_num) hr).mp (by simpa using hlo)
  have h2 : Int.log 2 r < e + 1 :=
    (Int.lt_zpow_iff_log_lt (by norm_num) hr).mp (by simpa using hhi)
  omega

/-- Rounding in the binade of exponent `e ≥ -126`: to a multiple of `2^(e-23)`. -/
theorem round32_of_exponent (x : ℚ) (e : ℤ) (he : -126 ≤ e) (hlo : (2 : ℚ) ^ e ≤ |x|)
    (hhi : |x| < (2 : ℚ) ^ (e + 1)) :
    Machine.round32 x = ((rintf (x / 2 ^ (e - 23)) : ℤ) : ℚ) * 2 ^ (e - 23) := by
  have hpos : 0 < |x| := lt_of_lt_of_le (zpow_pos (by norm_num) e) hlo
  have hx : x ≠ 0 := abs_pos.mp hpos
  unfold Machine.round32
  rw [if_neg hx, log_two_eq |x| e hlo hhi, max_eq_left he]

/-- Rounding below the least normal number: to a multiple of `2^(-149)`. -/
theorem round32_subnormal (x : ℚ) (hx : |x| < (2 : ℚ) ^ (-126 : ℤ)) :
    Machine.round32 x = ((rintf (x / 2 ^ (-149 : ℤ)) : ℤ) : ℚ) * 2 ^ (-149 : ℤ) := by
  unfold Machine.round32
  by_cases h0 : x = 0
  · rw [if_pos h0, h0]
    simp [rintf]
  · rw [if_neg h0]
    have hpos : 0 < |x| := abs_pos.mpr h0
    have hlog : Int.log 2 |x| < -126 :=
      (Int.lt_zpow_iff_log_lt (by norm_num) hpos).mp (by simpa using hx)
    rw [max_eq_right (by omega)]
    norm_num

/-- A value within less than one half of an integer rounds to that integer. -/
theorem rintf_eq_of_abs_lt (x : ℚ) (n : ℤ) (h : |x - (n : ℚ)| < 1 / 2) : rintf x = n := by
  have hr := rintf_nearest x
  have h1 : |((rintf x : ℤ) : ℚ) - (n : ℚ)| < 1 := by
    have := abs_sub_le ((rintf x : ℤ) : ℚ) x (n : ℚ)
    linarith
  have h2 : |rintf x - n| < 1 := by exact_mod_cast h1
  have h3 : rintf x - n = 0 := Int.abs_lt_one_iff.mp h2
  omega

/-- A value halfway between two integers rounds to the even one. -/
theorem rintf_half (n : ℤ) :
    rintf ((n : ℚ) + 1 / 2) = if n % 2 = 0 then n else n + 1 := by
  have hf : ⌊(n : ℚ) + 1 / 2⌋ = n := by
    rw [Int.floor_eq_iff]
    constructor <;> norm_num
  unfold rintf
  simp only [hf]
  have e : (n : ℚ) + 1 / 2 - (n : ℚ) = 1 / 2 := by ring
  rw [e]
  simp

/-- An integer below a value is below its rounding. -/
theorem le_rintf (a : ℤ) (x : ℚ) (ha : (a : ℚ) ≤ x) : a ≤ rintf x :=
  (rintf_mem_Icc a ⌈x⌉ x ha (Int.le_ceil x)).1

/-- An integer above a value is above its rounding. -/
theorem rintf_le (b : ℤ) (x : ℚ) (hb : x ≤ (b : ℚ)) : rintf x ≤ b :=
  (rintf_mem_Icc ⌊x⌋ b x (Int.floor_le x) hb).2

/-- The rounding of zero. -/
theorem round32_zero : Machine.round32 0 = 0 := by
  unfold Machine.round32
  rw [if_pos rfl]

/-- Every rounded value is a multiple of `2^(-149)`. -/
theorem round32_grid (x : ℚ) : ∃ z : ℤ, Machine.round32 x = (z : ℚ) * 2 ^ (-149 : ℤ) := by
  unfold Machine.round32
  by_cases h0 : x = 0
  · exact ⟨0, by rw [if_pos h0]; simp⟩
  · rw [if_neg h0]
    have hk : 0 ≤ max (Int.log 2 |x|) (-126) - 23 + 149 := by
      have := le_max_right (Int.log 2 |x|) (-126)
      omega
    refine ⟨rintf (x / 2 ^ (max (Int.log 2 |x|) (-126) - 23)) *
      2 ^ (max (Int.log 2 |x|) (-126) - 23 + 149).toNat, ?_⟩
    have e : (2 : ℚ) ^ (max (Int.log 2 |x|) (-126) - 23) =
        ((2 ^ (max (Int.log 2 |x|) (-126) - 23 + 149).toNat : ℤ) : ℚ) * 2 ^ (-149 : ℤ) := by
      push_cast
      rw [← zpow_natCast, Int.toNat_of_nonneg hk, ← zpow_add₀ (by norm_num : (2 : ℚ) ≠ 0)]
      congr 1
      ring
    simp only
    rw [e]
    push_cast
    ring

/-- A multiple of `2^(-149)` below the least normal number is a binary32 number. -/
theorem round32_exact_small (z : ℤ) (h : |(z : ℚ) * 2 ^ (-149 : ℤ)| < (2 : ℚ) ^ (-126 : ℤ)) :
    Machine.round32 ((z : ℚ) * 2 ^ (-149 : ℤ)) = (z : ℚ) * 2 ^ (-149 : ℤ) := by
  rw [round32_subnormal _ h]
  have hne : (2 : ℚ) ^ (-149 : ℤ) ≠ 0 := zpow_ne_zero _ (by norm_num)
  rw [mul_div_assoc, div_self hne, mul_one, rintf_intCast]

/-- The relative error of rounding a value that is not below the least normal number is at
most `2^(-24)`. -/
theorem round32_rel (x : ℚ) (h : (2 : ℚ) ^ (-126 : ℤ) ≤ |x|) :
    |Machine.round32 x - x| ≤ 2 ^ (-24 : ℤ) * |x| := by
  have hpos : 0 < |x| := lt_of_lt_of_le (zpow_pos (by norm_num) _) h
  have hlo : (2 : ℚ) ^ (Int.log 2 |x|) ≤ |x| := by
    simpa using Int.zpow_log_le_self (b := 2) (by norm_num) hpos
  have hhi : |x| < (2 : ℚ) ^ (Int.log 2 |x| + 1) := by
    simpa using Int.lt_zpow_succ_log_self (b := 2) (by norm_num) |x|
  have he : -126 ≤ Int.log 2 |x| :=
    (Int.zpow_le_iff_le_log (by norm_num) hpos).mp (by simpa using h)
  rw [round32_of_exponent x _ he hlo hhi]
  set e := Int.log 2 |x| with he_def
  have hu : (0 : ℚ) < 2 ^ (e - 23) := zpow_pos (by norm_num) _
  have hr := rintf_nearest (x / 2 ^ (e - 23))
  have e1 : ((rintf (x / 2 ^ (e - 23)) : ℤ) : ℚ) * 2 ^ (e - 23) - x =
      (((rintf (x / 2 ^ (e - 23)) : ℤ) : ℚ) - x / 2 ^ (e - 23)) * 2 ^ (e - 23) := by
    field_simp
  rw [e1, abs_mul, abs_of_pos hu]
  have e2 : (2 : ℚ) ^ (e - 23) = 2 ^ (-23 : ℤ) * 2 ^ e := by
    rw [← zpow_add₀ (by norm_num : (2 : ℚ) ≠ 0)]
    congr 1
    ring
  calc |((rintf (x / 2 ^ (e - 23)) : ℤ) : ℚ) - x / 2 ^ (e - 23)| * 2 ^ (e - 23)
      ≤ 1 / 2 * 2 ^ (e - 23) := mul_le_mul_of_nonneg_right hr hu.le
    _ = 2 ^ (-24 : ℤ) * 2 ^ e := by
        rw [e2]
        norm_num
        ring
    _ ≤ 2 ^ (-24 : ℤ) * |x| := mul_le_mul_of_nonneg_left hlo (by positivity)

/-- Rounding a non-negative multiple of `2^(-149)`: the relative error is at most `2^(-24)`,
also below the least normal number, where such a value is exact. -/
theorem round32_rel_grid (w : ℚ) (hw : 0 ≤ w) (hg : ∃ z : ℤ, w = (z : ℚ) * 2 ^ (-149 : ℤ)) :
    (1 - 2 ^ (-24 : ℤ)) * w ≤ Machine.round32 w ∧
      Machine.round32 w ≤ (1 + 2 ^ (-24 : ℤ)) * w := by
  by_cases h : (2 : ℚ) ^ (-126 : ℤ) ≤ |w|
  · have hr := round32_rel w h
    rw [abs_of_nonneg hw, abs_le] at hr
    constructor <;> linarith [hr.1, hr.2]
  · obtain ⟨z, rfl⟩ := hg
    rw [round32_exact_small z (not_le.mp h)]
    have hu : (0 : ℚ) ≤ 2 ^ (-24 : ℤ) := by positivity
    constructor <;> nlinarith

/-- An integer of at most 24 bits is a binary32 number. -/
theorem round32_int (n : ℤ) (h : |n| ≤ 16777216) : Machine.round32 (n : ℚ) = (n : ℚ) := by
  by_cases h0 : n = 0
  · rw [h0]
    exact round32_zero
  have hq : (1 : ℚ) ≤ |(n : ℚ)| := by
    have : (1 : ℤ) ≤ |n| := Int.one_le_abs h0
    exact_mod_cast this
  have hq2 : |(n : ℚ)| ≤ 16777216 := by exact_mod_cast h
  have hpos : 0 < |(n : ℚ)| := by linarith
  have hlo : (2 : ℚ) ^ (Int.log 2 |(n : ℚ)|) ≤ |(n : ℚ)| := by
    simpa using Int.zpow_log_le_self (b := 2) (by norm_num) hpos
  have hhi : |(n : ℚ)| < (2 : ℚ) ^ (Int.log 2 |(n : ℚ)| + 1) := by
    simpa using Int.lt_zpow_succ_log_self (b := 2) (by norm_num) |(n : ℚ)|
  have he0 : 0 ≤ Int.log 2 |(n : ℚ)| :=
    (Int.zpow_le_iff_le_log (by norm_num) hpos).mp (by simpa using hq)
  have he24 : Int.log 2 |(n : ℚ)| < 25 :=
    (Int.lt_zpow_iff_log_lt (by norm_num) hpos).mp (by norm_num; linarith)
  rw [round32_of_exponent _ _ (by omega) hlo hhi]
  set e := Int.log 2 |(n : ℚ)| with he_def
  by_cases he : e ≤ 23
  · have hk : 0 ≤ 23 - e := by omega
    have hz : (n : ℚ) / 2 ^ (e - 23) = ((n * 2 ^ (23 - e).toNat : ℤ) : ℚ) := by
      push_cast
      rw [← zpow_natCast, Int.toNat_of_nonneg hk, div_eq_mul_inv, ← zpow_neg]
      congr 2
      ring
    rw [hz, rintf_intCast]
    push_cast
    rw [← zpow_natCast, Int.toNat_of_nonneg hk, mul_assoc,
      ← zpow_add₀ (by norm_num : (2 : ℚ) ≠ 0)]
    have : 23 - e + (e - 23) = 0 := by ring
    rw [this, zpow_zero, mul_one]
  · have he' : e = 24 := by omega
    have habs : |(n : ℚ)| = 16777216 := by
      apply le_antisymm hq2
      have := hlo
      rw [he'] at this
      norm_num at this
      exact this
    have habs' : |n| = 16777216 := by exact_mod_cast habs
    rw [he']
    rcases abs_eq (by norm_num : (0 : ℤ) ≤ 16777216) |>.mp habs' with hn | hn
    · rw [hn]
      have : ((16777216 : ℤ) : ℚ) / 2 ^ ((24 : ℤ) - 23) = ((8388608 : ℤ) : ℚ) := by norm_num
      rw [this, rintf_intCast]
      norm_num
    · rw [hn]
      have : ((-16777216 : ℤ) : ℚ) / 2 ^ ((24 : ℤ) - 23) = ((-8388608 : ℤ) : ℚ) := by norm_num
      rw [this, rintf_intCast]
      norm_num

/-- Rounding in a binade whose exponent and rounded significand are given. -/
theorem round32_eval (x : ℚ) (e z : ℤ) (he : -126 ≤ e) (hlo : (2 : ℚ) ^ e ≤ |x|)
    (hhi : |x| < (2 : ℚ) ^ (e + 1)) (hz : rintf (x / 2 ^ (e - 23)) = z) :
    Machine.round32 x = (z : ℚ) * 2 ^ (e - 23) := by
  rw [round32_of_exponent x e he hlo hhi, hz]

/-! ## Machine arithmetic: the curve functions at concrete arguments -/

/-- `centre(-2147483648, 0, 0)`: the difference `0 - INT_MIN` wraps to `INT_MIN`, the test
`d >= deviation` fails and the division by the deviation `0` is reached. -/
theorem machine_centre_INT_MIN_zero_dev :
    Machine.wrap (0 - (-2147483648)) = -2147483648 ∧
      Machine.centre (-2147483648) 0 0 = none := by
  have hw : Machine.wrap (0 - (-2147483648)) = -2147483648 := by decide
  refine ⟨hw, ?_⟩
  unfold Machine.centre
  rw [if_pos (by decide)]
  simp only [hw]
  rw [if_neg (by decide)]
  simp [Machine.fdiv, round32_zero]

/-- `centre(-2000000000, 2000000000, 10)`: the difference wraps to `-294967296`, and
`1.0f - (float)d / 10` is `29496732` in binary32. -/
theorem machine_centre_far_apart :
    Machine.centre (-2000000000) 2000000000 10 = some 29496732 := by
  have hw : Machine.wrap (2000000000 - (-2000000000)) = -294967296 := by decide
  have r1 : Machine.round32 ((-294967296 : ℤ) : ℚ) = -294967296 := by
    rw [round32_eval _ 28 (-9217728) (by norm_num)
      (by rw [abs_of_neg (by norm_num)]; norm_num)
      (by rw [abs_of_neg (by norm_num)]; norm_num)
      (by
        have : (((-294967296 : ℤ) : ℚ)) / 2 ^ ((28 : ℤ) - 23) = ((-9217728 : ℤ) : ℚ) := by
          norm_num
        rw [this, rintf_intCast])]
    norm_num
  have r2 : Machine.round32 ((10 : ℤ) : ℚ) = 10 := by
    rw [round32_int 10 (by decide)]
    norm_num
  have r3 : Machine.round32 (-294967296 / 10) = -29496730 := by
    rw [round32_eval _ 24 (-14748365) (by norm_num)
      (by rw [abs_of_neg (by norm_num)]; norm_num)
      (by rw [abs_of_neg (by norm_num)]; norm_num)
      (rintf_eq_of_abs_lt _ _ (by rw [abs_lt]; constructor <;> norm_num))]
    norm_num
  have r4 : Machine.round32 (1 - (-29496730)) = 29496732 := by
    rw [round32_eval _ 24 14748366 (by norm_num)
      (by rw [abs_of_pos (by norm_num)]; norm_num)
      (by rw [abs_of_pos (by norm_num)]; norm_num)
      (by
        have : ((1 : ℚ) - (-29496730)) / 2 ^ ((24 : ℤ) - 23) = ((14748365 : ℤ) : ℚ) + 1 / 2 := by
          norm_num
        rw [this, rintf_half]
        decide)]
    norm_num
  unfold Machine.centre
  rw [if_pos (by decide)]
  simp only [hw]
  rw [if_neg (by decide), r1, r2]
  simp only [Machine.fdiv]
  rw [if_neg (by norm_num), Option.map_some', r3, r4]

/-! ## Machine arithmetic: wrapping and the sampling loop -/

/-- A result inside the `int` range is not changed by wrapping. -/
theorem wrap_of_mem (n : ℤ) (h0 : Machine.INT_MIN ≤ n) (h1 : n ≤ Machine.INT_MAX) :
    Machine.wrap n = n := by
  unfold Machine.wrap
  unfold Machine.INT_MIN at h0
  unfold Machine.INT_MAX at h1
  omega

/-- A wrapped result lies in the `int` range. -/
theorem wrap_mem (n : ℤ) : Machine.INT_MIN ≤ Machine.wrap n ∧ Machine.wrap n ≤ Machine.INT_MAX := by
  unfold Machine.wrap Machine.INT_MIN Machine.INT_MAX
  omega

/-- With the bound `INT_MAX` the test `i <= b` never fails: on any fuel the loop is still
running, whatever the step and for any body that returns a value. -/
theorem machine_forLoop_INT_MAX {σ : Type} (d : ℤ) (body : ℤ → σ → Option σ)
    (hbody : ∀ i s, (body i s).isSome = true) :
    ∀ (fuel : ℕ) (i : ℤ) (s : σ), i ≤ Machine.INT_MAX →
      Machine.forLoop Machine.INT_MAX d body fuel i s = Machine.Outcome.timeout := by
  intro fuel
  induction fuel with
  | zero =>
    intro i s _
    rfl
  | succ fuel ih =>
    intro i s hi
    obtain ⟨s', hs'⟩ := Option.isSome_iff_exists.mp (hbody i s)
    unfold Machine.forLoop
    rw [if_pos hi, hs']
    exact ih _ _ (wrap_mem _).2

/-- The machine loop while nothing overflows: from `i`, over `n` points up to the bound, with
a body that returns a value and more fuel than points, it ends with the fold of the body over
the points `i, i+d, ...`. -/
theorem machine_forLoop_fold {σ : Type} (b d : ℤ) (hd : 1 ≤ d) (body : ℤ → σ → Option σ)
    (g : ℤ → σ → σ) :
    ∀ (n : ℕ) (fuel : ℕ) (i : ℤ) (s : σ), n < fuel → Machine.INT_MIN ≤ i →
      i + (n : ℤ) * d ≤ Machine.INT_MAX →
      (∀ k : ℕ, k < n → i + (k : ℤ) * d ≤ b) → b < i + (n : ℤ) * d →
      (∀ k : ℕ, k < n → ∀ t, body (i + (k : ℤ) * d) t = some (g (i + (k : ℤ) * d) t)) →
      Machine.forLoop b d body fuel i s =
        Machine.Outcome.done
          ((List.range n).foldl (fun s (k : ℕ) => g (i + (k : ℤ) * d) s) s) := by
  intro n
  induction n with
  | zero =>
    intro fuel i s hf _ _ _ hlt _
    obtain ⟨fuel, rfl⟩ : ∃ f, fuel = f + 1 := ⟨fuel - 1, by omega⟩
    unfold Machine.forLoop
    rw [if_neg (by simpa using hlt)]
    rfl
  | succ n ih =>
    intro fuel i s hf hmin hmax hle hlt hg
    obtain ⟨fuel, rfl⟩ : ∃ f, fuel = f + 1 := ⟨fuel - 1, by omega⟩
    have h0 : i ≤ b := by simpa using hle 0 (Nat.succ_pos n)
    have hb : body i s = some (g i s) := by simpa using hg 0 (Nat.succ_pos n) s
    have hnd : (0 : ℤ) ≤ (n : ℤ) * d := mul_nonneg (Int.ofNat_nonneg n) (by omega)
    have hw : Machine.wrap (i + d) = i + d := by
      apply wrap_of_mem
      · omega
      · push_cast at hmax
        linarith
    have e : ∀ k : ℕ, i + d + (k : ℤ) * d = i + ((k + 1 : ℕ) : ℤ) * d := by
      intro k
      push_cast
      ring
    unfold Machine.forLoop
    rw [if_pos h0, hb]
    simp only
    rw [hw, ih fuel (i + d) (g i s) (by omega) (by omega) ?_ ?_ ?_ ?_]
    · rw [List.range_succ_eq_map, List.foldl_cons, List.foldl_map]
      simp only [e, Nat.cast_zero, zero_mul, add_zero, Nat.succ_eq_add_one]
    · push_cast at hmax
      linarith
    · intro k hk
      have := hle (k + 1) (Nat.succ_lt_succ hk)
      push_cast at this
      linarith
    · push_cast at hlt
      linarith
    · intro k hk t
      rw [e k]
      exact hg (k + 1) (Nat.succ_lt_succ hk) t

/-- The machine step is the step of the reference when `b - a` does not overflow. -/
theorem machine_step_eq (a b : ℤ) (h0 : Machine.INT_MIN ≤ b - a)
    (h1 : b - a ≤ Machine.INT_MAX) : Machine.step a b = Reference.step a b := by
  have h := step_eq_reference a b
  unfold FuzzyOutput.step at h
  unfold Machine.step
  rw [wrap_of_mem _ h0 h1]
  by_cases hd : Int.tdiv (b - a) FuzzyOutput.STEPS < 1
  · simp only [hd, if_true, dite_true] at h ⊢
    exact h
  · simp only [hd, if_false, dite_false] at h ⊢
    exact h

/-- The trace of the machine loop while nothing overflows: the points `a + k*d` below the
count, for any fuel above the count. -/
theorem machine_loopTrace_eq (a b : ℤ) (fuel : ℕ) (ha : Machine.INT_MIN ≤ a)
    (h0 : Machine.INT_MIN ≤ b - a) (h1 : b - a ≤ Machine.INT_MAX)
    (hmax : a + (Reference.sampleCount a b (Reference.step a b) : ℤ) * Reference.step a b ≤
      Machine.INT_MAX)
    (hf : Reference.sampleCount a b (Reference.step a b) < fuel) :
    Machine.loopTrace fuel a b =
      Machine.Outcome.done ((List.range (Reference.sampleCount a b (Reference.step a b))).map
        (fun k : ℕ => a + (k : ℤ) * Reference.step a b)) := by
  have hd : 1 ≤ Reference.step a b := le_max_left _ _
  have hs := sampleCount_spec a b (Reference.step a b) hd
  unfold Machine.loopTrace
  rw [machine_step_eq a b h0 h1,
    machine_forLoop_fold b _ hd _ (fun i visited => visited ++ [i]) _ fuel a [] hf ha hmax
      hs.1 hs.2 (fun _ _ _ => rfl), foldl_record]
  simp

/-- The height of a sample is a value when the membership function returns one. -/
theorem machine_accumulate_isSome (o : FuzzyOutput)
    (hmem : ∀ i c, (o.domain.membership i c).isSome = true) (i : ℤ) (s : ℚ × ℚ) :
    (Machine.accumulate o i s).isSome = true := by
  unfold Machine.accumulate
  rw [thisValuesMembership_total o (fun i c => (o.domain.membership i c).getD 0)
    (membership_total o.domain hmem) i]
  rfl

/-! ## Machine arithmetic: where the code leaves the specified behaviour -/

/-- C3 (code): on the range `[0, INT_MAX]`, with a membership function that is `1` everywhere
and any prior accumulated state, `getCrispValue` after `reset()` is still running on every
fuel: it never returns. -/
theorem machine_reset_getCrispValue_hangs (fuel : ℕ) (m : Fin MAX_CATEGORIES → ℚ) :
    Machine.getCrispValue fuel
        (FuzzyOutput.reset ⟨⟨0, Machine.INT_MAX, fun _ _ => some 1⟩, m⟩) =
      Machine.Outcome.timeout := by
  unfold Machine.getCrispValue Machine.integrate
  have hbody : ∀ i s, (Machine.accumulate
      (FuzzyOutput.reset ⟨⟨0, Machine.INT_MAX, fun _ _ => some 1⟩, m⟩) i s).isSome = true :=
    machine_accumulate_isSome _ (by intro i c; rfl)
  have h := machine_forLoop_INT_MAX (Machine.step 0 Machine.INT_MAX) _ hbody
    fuel 0 (0, 0) (by decide)
  simp only [FuzzyOutput.reset] at h ⊢
  rw [h]

/-- C6 (code): `centre(INT_MIN, 0, 0)` with `INT_MIN ≠ 0` does not return `0.0`: the
difference `0 - INT_MIN` wraps to `INT_MIN < 0`, the test `d >= deviation` fails and the code
divides by the deviation `0`; so does `Speed::membership(INT_MIN, STOPPED)` of the demo, whose
curve is `CENTRE_CURVE(STOPPED, 0, 0)`. -/
theorem machine_centre_dev_zero_fault :
    Machine.wrap (0 - Machine.INT_MIN) = Machine.INT_MIN ∧
      Machine.centre Machine.INT_MIN 0 0 = none ∧
      Machine.centre Machine.INT_MIN 0 0 ≠ some (if Machine.INT_MIN = 0 then 1 else 0) ∧
      Machine.speedMembership Machine.INT_MIN Speed.STOPPED = none := by
  have h := machine_centre_INT_MIN_zero_dev
  have hc : Machine.centre Machine.INT_MIN 0 0 = none := h.2
  refine ⟨h.1, hc, ?_, ?_⟩
  · rw [hc]
    exact fun hne => Option.noConfusion hne
  · unfold Machine.speedMembership Machine.CENTRE_CURVE
    rw [if_pos rfl, hc]
    rfl

/-- C7 (code): with deviation `0` and `|x - median|` beyond `INT_MAX` the curve functions
divide by zero: `centre(INT_MIN, INT_MAX, 0)`, `right(INT_MIN, INT_MAX, 0)` and
`left(INT_MAX, INT_MIN, 0)` reach the division with `d = -1` and the divisor `0`, outside the
window `0 < |x - median| < deviation`. -/
theorem machine_curves_divide_by_zero :
    Machine.wrap (Machine.INT_MAX - Machine.INT_MIN) = -1 ∧
      Machine.centre Machine.INT_MIN Machine.INT_MAX 0 = none ∧
      Machine.right Machine.INT_MIN Machine.INT_MAX 0 = none ∧
      Machine.left Machine.INT_MAX Machine.INT_MIN 0 = none ∧
      ¬ (0 < |Machine.INT_MIN - Machine.INT_MAX| ∧ |Machine.INT_MIN - Machine.INT_MAX| < 0) := by
  have hw : Machine.wrap (Machine.INT_MAX - Machine.INT_MIN) = -1 := by decide
  have hc1 : Machine.centre Machine.INT_MIN Machine.INT_MAX 0 = none := by
    unfold Machine.centre
    rw [if_pos (by decide)]
    simp only [hw]
    rw [if_neg (by decide)]
    simp [Machine.fdiv, round32_zero]
  have hc2 : Machine.centre Machine.INT_MAX Machine.INT_MIN 0 = none := by
    unfold Machine.centre
    rw [if_neg (by decide), if_pos (by decide)]
    simp only [hw]
    rw [if_neg (by decide)]
    simp [Machine.fdiv, round32_zero]
  refine ⟨hw, hc1, ?_, ?_, ?_⟩
  · unfold Machine.right
    rw [if_neg (by decide), hc1]
  · unfold Machine.left
    rw [if_neg (by decide), hc2]
  · rintro ⟨h1, h2⟩
    exact absurd (lt_trans h1 h2) (lt_irrefl _)

/-- C17 (code): for the range `[0, INT_MAX]` the sampling loop is still running on every
fuel: `i <= b` cannot fail and `i += d` wraps, so the loop does not terminate. -/
theorem machine_loop_never_exits (fuel : ℕ) :
    Machine.loopTrace fuel 0 Machine.INT_MAX = Machine.Outcome.timeout := by
  unfold Machine.loopTrace
  exact machine_forLoop_INT_MAX (Machine.step 0 Machine.INT_MAX)
    (fun i visited => some (visited ++ [i])) (fun _ _ => rfl) fuel 0 [] (by decide)

/-- C18 (code): `centre(-2000000000, 2000000000, 10)` is `29496732`, not a degree of
`[0,1]`: the difference of the two arguments overflows `int`. -/
theorem machine_centre_out_of_unit_interval :
    Machine.wrap (2000000000 - (-2000000000)) = -294967296 ∧
      Machine.centre (-2000000000) 2000000000 10 = some 29496732 ∧
      ¬ ((29496732 : ℚ) ≤ 1) :=
  ⟨by decide, machine_centre_far_apart, by norm_num⟩

/-- C20 (code): for the range `[-2000000000, 2000000000]`, `b - a` overflows `int`, the step
is `1` and not `max(1, (b - a) / 1024) = 3906250`, and the loop visits `4000000001` sample
points, far more than `2048`. -/
theorem machine_sample_count_overflow :
    Machine.wrap (2000000000 - (-2000000000)) = -294967296 ∧
      Machine.step (-2000000000) 2000000000 = 1 ∧
      max 1 (((2000000000 : ℤ) - (-2000000000)) / 1024) = 3906250 ∧
      ∃ L, Machine.loopTrace 4000000002 (-2000000000) 2000000000 = Machine.Outcome.done L ∧
        L.length = 4000000001 ∧ ¬ (L.length ≤ 2048) := by
  have hstep : Machine.step (-2000000000) 2000000000 = 1 := by decide
  refine ⟨by decide, hstep, by decide,
    (List.range 4000000001).map (fun k : ℕ => (-2000000000 : ℤ) + (k : ℤ) * 1), ?_, ?_, ?_⟩
  · unfold Machine.loopTrace
    have hle : ∀ k : ℕ, k < 4000000001 → (-2000000000 : ℤ) + (k : ℤ) * 1 ≤ 2000000000 := by
      intro k hk
      have : (k : ℤ) < 4000000001 := by exact_mod_cast hk
      omega
    rw [hstep, machine_forLoop_fold 2000000000 1 (le_refl 1) _
      (fun i visited => visited ++ [i]) 4000000001 4000000002 (-2000000000) []
      (by decide) (by decide) (by decide) hle (by decide) (fun _ _ _ => rfl), foldl_record,
      List.nil_append]
  · rw [List.length_map, List.length_range]
  · rw [List.length_map, List.length_range]
    norm_num

/-! ## Machine arithmetic: rounding keeps the order -/

/-- The function `rintf` is monotone. -/
theorem rintf_mono (x y : ℚ) (h : x ≤ y) : rintf x ≤ rintf y := by
  by_contra hlt
  have hlt' : rintf y + 1 ≤ rintf x := by omega
  have hq : ((rintf y : ℤ) : ℚ) + 1 ≤ ((rintf x : ℤ) : ℚ) := by exact_mod_cast hlt'
  have hx := abs_le.mp (rintf_nearest x)
  have hy := abs_le.mp (rintf_nearest y)
  have hxy : x = y := le_antisymm h (by linarith [hx.1, hx.2, hy.1, hy.2])
  rw [hxy] at hlt
  exact hlt (le_refl _)

/-- A non-negative power of two with an integer exponent is an integer. -/
theorem two_zpow_eq_intCast (k : ℤ) (hk : 0 ≤ k) :
    (2 : ℚ) ^ k = (((2 : ℤ) ^ k.toNat : ℤ) : ℚ) := by
  push_cast
  rw [← zpow_natCast, Int.toNat_of_nonneg hk]

/-- Rounding a non-negative value gives a non-negative value. -/
theorem round32_nonneg (x : ℚ) (hx : 0 ≤ x) : 0 ≤ Machine.round32 x := by
  unfold Machine.round32
  by_cases h0 : x = 0
  · rw [if_pos h0]
  · rw [if_neg h0]
    simp only
    have hu : (0 : ℚ) < 2 ^ (max (Int.log 2 |x|) (-126) - 23) := zpow_pos (by norm_num) _
    have hr : (0 : ℤ) ≤ rintf (x / 2 ^ (max (Int.log 2 |x|) (-126) - 23)) :=
      le_rintf 0 _ (by exact_mod_cast div_nonneg hx hu.le)
    have hr' : (0 : ℚ) ≤ ((rintf (x / 2 ^ (max (Int.log 2 |x|) (-126) - 23)) : ℤ) : ℚ) := by
      exact_mod_cast hr
    exact mul_nonneg hr' hu.le

/-- Rounding does not cross a power of two from below. -/
theorem round32_le_zpow (x : ℚ) (e : ℤ) (he : -126 ≤ e) (hx0 : 0 ≤ x) (hx : x ≤ 2 ^ e) :
    Machine.round32 x ≤ 2 ^ e := by
  unfold Machine.round32
  by_cases h0 : x = 0
  · rw [if_pos h0]
    positivity
  · rw [if_neg h0]
    simp only
    have hpos : 0 < x := lt_of_le_of_ne hx0 (Ne.symm h0)
    have hlog : Int.log 2 |x| ≤ e := by
      rw [abs_of_pos hpos]
      have := Int.log_mono_right (b := 2) hpos hx
      rwa [show ((2 : ℚ) ^ e) = (((2 : ℕ) : ℚ) ^ e) by norm_num,
        Int.log_zpow (by norm_num : 1 < 2)] at this
    have hle : max (Int.log 2 |x|) (-126) ≤ e := max_le hlog he
    set e' := max (Int.log 2 |x|) (-126) with he'
    have hu : (0 : ℚ) < 2 ^ (e' - 23) := zpow_pos (by norm_num) _
    have hk : 0 ≤ e - e' + 23 := by omega
    have hdiv : x / 2 ^ (e' - 23) ≤ (((2 : ℤ) ^ (e - e' + 23).toNat : ℤ) : ℚ) := by
      rw [← two_zpow_eq_intCast _ hk, div_le_iff₀ hu,
        ← zpow_add₀ (by norm_num : (2 : ℚ) ≠ 0)]
      have : e - e' + 23 + (e' - 23) = e := by ring
      rw [this]
      exact hx
    have hr := rintf_le _ _ hdiv
    have hr' : ((rintf (x / 2 ^ (e' - 23)) : ℤ) : ℚ) ≤
        (((2 : ℤ) ^ (e - e' + 23).toNat : ℤ) : ℚ) := by exact_mod_cast hr
    calc ((rintf (x / 2 ^ (e' - 23)) : ℤ) : ℚ) * 2 ^ (e' - 23)
        ≤ (((2 : ℤ) ^ (e - e' + 23).toNat : ℤ) : ℚ) * 2 ^ (e' - 23) :=
          mul_le_mul_of_nonneg_right hr' hu.le
      _ = 2 ^ e := by
          rw [← two_zpow_eq_intCast _ hk, ← zpow_add₀ (by norm_num : (2 : ℚ) ≠ 0)]
          congr 1
          ring

/-- Rounding does not cross a power of two from above. -/
theorem zpow_le_round32 (x : ℚ) (e : ℤ) (he : -126 ≤ e) (hx : 2 ^ e ≤ x) :
    2 ^ e ≤ Machine.round32 x := by
  have hpos : 0 < x := lt_of_lt_of_le (zpow_pos (by norm_num) e) hx
  have habs : |x| = x := abs_of_pos hpos
  have hlo : (2 : ℚ) ^ (Int.log 2 |x|) ≤ |x| := by
    simpa using Int.zpow_log_le_self (b := 2) (by norm_num) (by rwa [habs])
  have hhi : |x| < (2 : ℚ) ^ (Int.log 2 |x| + 1) := by
    simpa using Int.lt_zpow_succ_log_self (b := 2) (by norm_num) |x|
  have hlog : e ≤ Int.log 2 |x| :=
    (Int.zpow_le_iff_le_log (by norm_num) (by rwa [habs])).mp (by simpa [habs] using hx)
  rw [round32_of_exponent x _ (le_trans he hlog) hlo hhi]
  set e' := Int.log 2 |x| with he'
  have hu : (0 : ℚ) < 2 ^ (e' - 23) := zpow_pos (by norm_num) _
  have h23 : (8388608 : ℚ) = 2 ^ (23 : ℤ) := by norm_num
  have hsplit : (2 : ℚ) ^ e' = 8388608 * 2 ^ (e' - 23) := by
    rw [h23, ← zpow_add₀ (by norm_num : (2 : ℚ) ≠ 0)]
    congr 1
    ring
  have hdiv : ((8388608 : ℤ) : ℚ) ≤ x / 2 ^ (e' - 23) := by
    rw [le_div_iff₀ hu]
    push_cast
    rw [← hsplit, ← habs]
    exact hlo
  have hr := le_rintf _ _ hdiv
  have hr' : (8388608 : ℚ) ≤ ((rintf (x / 2 ^ (e' - 23)) : ℤ) : ℚ) := by
    exact_mod_cast hr
  calc (2 : ℚ) ^ e ≤ 2 ^ e' := zpow_le_zpow_right₀ (by norm_num) hlog
    _ = 8388608 * 2 ^ (e' - 23) := hsplit
    _ ≤ ((rintf (x / 2 ^ (e' - 23)) : ℤ) : ℚ) * 2 ^ (e' - 23) :=
        mul_le_mul_of_nonneg_right hr' hu.le

/-- Rounding is monotone on the non-negative values. -/
theorem round32_mono (x y : ℚ) (hx : 0 ≤ x) (hxy : x ≤ y) :
    Machine.round32 x ≤ Machine.round32 y := by
  by_cases h0 : x = 0
  · rw [h0, round32_zero]
    exact round32_nonneg y (le_trans hx hxy)
  have hxpos : 0 < x := lt_of_le_of_ne hx (Ne.symm h0)
  have hypos : 0 < y := lt_of_lt_of_le hxpos hxy
  have hlog : Int.log 2 |x| ≤ Int.log 2 |y| := by
    rw [abs_of_pos hxpos, abs_of_pos hypos]
    exact Int.log_mono_right hxpos hxy
  by_cases heq : max (Int.log 2 |x|) (-126) = max (Int.log 2 |y|) (-126)
  · unfold Machine.round32
    rw [if_neg h0, if_neg (ne_of_gt hypos)]
    simp only
    rw [heq]
    have hu : (0 : ℚ) < 2 ^ (max (Int.log 2 |y|) (-126) - 23) := zpow_pos (by norm_num) _
    have hr := rintf_mono _ _ (div_le_div_of_nonneg_right hxy hu.le)
    have hr' : ((rintf (x / 2 ^ (max (Int.log 2 |y|) (-126) - 23)) : ℤ) : ℚ) ≤
        ((rintf (y / 2 ^ (max (Int.log 2 |y|) (-126) - 23)) : ℤ) : ℚ) := by exact_mod_cast hr
    exact mul_le_mul_of_nonneg_right hr' hu.le
  · have hlt : max (Int.log 2 |x|) (-126) < max (Int.log 2 |y|) (-126) :=
      lt_of_le_of_ne (max_le_max hlog (le_refl _)) heq
    have hy126 : -126 < Int.log 2 |y| := by
      rcases le_total (Int.log 2 |y|) (-126) with h | h
      · rw [max_eq_right h] at hlt
        have := le_max_right (Int.log 2 |x|) (-126)
        omega
      · rw [max_eq_left h] at hlt
        have := le_max_right (Int.log 2 |x|) (-126)
        omega
    have hxe : Int.log 2 |x| + 1 ≤ Int.log 2 |y| := by
      rw [max_eq_left hy126.le] at hlt
      have := le_max_left (Int.log 2 |x|) (-126)
      omega
    have hxhi : x < (2 : ℚ) ^ (Int.log 2 |x| + 1) := by
      have := Int.lt_zpow_succ_log_self (b := 2) (by norm_num) |x|
      rw [abs_of_pos hxpos] at this ⊢
      simpa using this
    have hylo : (2 : ℚ) ^ (Int.log 2 |y|) ≤ y := by
      have := Int.zpow_log_le_self (b := 2) (by norm_num) (show 0 < |y| by rwa [abs_of_pos hypos])
      rw [abs_of_pos hypos] at this ⊢
      simpa using this
    have hxle : x ≤ (2 : ℚ) ^ (Int.log 2 |y|) :=
      le_trans hxhi.le (zpow_le_zpow_right₀ (by norm_num) hxe)
    exact le_trans (round32_le_zpow x _ hy126.le hx hxle) (zpow_le_round32 y _ hy126.le hylo)

/-- The number one is a binary32 number. -/
theorem round32_one : Machine.round32 1 = 1 := by
  have := round32_int 1 (by decide)
  simpa using this

/-- Rounding keeps a degree of `[0,1]` in `[0,1]`. -/
theorem round32_unit (x : ℚ) (h0 : 0 ≤ x) (h1 : x ≤ 1) :
    0 ≤ Machine.round32 x ∧ Machine.round32 x ≤ 1 := by
  refine ⟨round32_nonneg x h0, ?_⟩
  have := round32_mono x 1 h0 h1
  rwa [round32_one] at this

/-! ## Machine arithmetic: the curve `centre` -/

/-- The absolute error of rounding a value of magnitude at most `b`, a bound not below the
least normal number, is at most `2^(-24) * b`. -/
theorem round32_err_le (x b : ℚ) (hb : |x| ≤ b) (hb1 : (2 : ℚ) ^ (-126 : ℤ) ≤ b) :
    |Machine.round32 x - x| ≤ 2 ^ (-24 : ℤ) * b := by
  have hu : (0 : ℚ) ≤ 2 ^ (-24 : ℤ) := by positivity
  by_cases h : (2 : ℚ) ^ (-126 : ℤ) ≤ |x|
  · exact le_trans (round32_rel x h) (mul_le_mul_of_nonneg_left hb hu)
  · rw [round32_subnormal x (not_le.mp h)]
    have hr := rintf_nearest (x / 2 ^ (-149 : ℤ))
    have hp : (0 : ℚ) < 2 ^ (-149 : ℤ) := by positivity
    have e1 : ((rintf (x / 2 ^ (-149 : ℤ)) : ℤ) : ℚ) * 2 ^ (-149 : ℤ) - x =
        (((rintf (x / 2 ^ (-149 : ℤ)) : ℤ) : ℚ) - x / 2 ^ (-149 : ℤ)) * 2 ^ (-149 : ℤ) := by
      field_simp
      ring
    rw [e1, abs_mul, abs_of_pos hp]
    calc |((rintf (x / 2 ^ (-149 : ℤ)) : ℤ) : ℚ) - x / 2 ^ (-149 : ℤ)| * 2 ^ (-149 : ℤ)
        ≤ 1 / 2 * 2 ^ (-149 : ℤ) := mul_le_mul_of_nonneg_right hr hp.le
      _ = 2 ^ (-24 : ℤ) * 2 ^ (-126 : ℤ) := by norm_num
      _ ≤ 2 ^ (-24 : ℤ) * b := mul_le_mul_of_nonneg_left hb1 hu

/-- Where the difference of its arguments does not overflow, the machine `centre` is `1` at
the median, `0` from the deviation on, and in between the rounded ramp. -/
theorem machine_centre_eq (x median deviation : ℤ) (hno : |x - median| ≤ Machine.INT_MAX) :
    Machine.centre x median deviation =
      if x = median then some 1
      else if deviation ≤ |x - median| then some 0
      else (Machine.fdiv (Machine.round32 ((|x - median| : ℤ) : ℚ))
        (Machine.round32 (deviation : ℚ))).map (fun q => Machine.round32 (1 - q)) := by
  have hmin : Machine.INT_MIN ≤ -Machine.INT_MAX := by decide
  have hb := abs_le.mp hno
  unfold Machine.centre
  by_cases h1 : x < median
  · have hw : Machine.wrap (median - x) = median - x :=
      wrap_of_mem _ (by linarith [hb.1, hb.2]) (by linarith [hb.1, hb.2])
    have ha : |x - median| = median - x := by
      rw [abs_of_neg (by omega)]
      ring
    rw [if_pos h1, if_neg (ne_of_lt h1)]
    simp only [hw, ha, ge_iff_le]
  · by_cases h2 : x > median
    · have hw : Machine.wrap (x - median) = x - median :=
        wrap_of_mem _ (by linarith [hb.1, hb.2]) (by linarith [hb.1, hb.2])
      have ha : |x - median| = x - median := abs_of_pos (by omega)
      rw [if_neg h1, if_pos h2, if_neg (ne_of_gt h2)]
      simp only [hw, ha, ge_iff_le]
    · have : x = median := by omega
      rw [if_neg h1, if_neg h2, if_pos this]

/-- The rounded ramp `1.0f - (float)d / deviation` for `0 < d < deviation`: a degree of
`[0,1]` within `2^(-21)` of `1 - d / deviation`. -/
theorem machine_ramp_bounds (D dev : ℤ) (hD : 0 < D) (hlt : D < dev) :
    0 ≤ Machine.round32 (1 - Machine.round32 (Machine.round32 (D : ℚ) /
        Machine.round32 (dev : ℚ))) ∧
      Machine.round32 (1 - Machine.round32 (Machine.round32 (D : ℚ) /
        Machine.round32 (dev : ℚ))) ≤ 1 ∧
      |Machine.round32 (1 - Machine.round32 (Machine.round32 (D : ℚ) /
        Machine.round32 (dev : ℚ))) - (1 - (D : ℚ) / (dev : ℚ))| ≤ 2 ^ (-21 : ℤ) := by
  have hx1 : (1 : ℚ) ≤ (D : ℚ) := by exact_mod_cast hD
  have hxy : (D : ℚ) < (dev : ℚ) := by exact_mod_cast hlt
  have hy1 : (1 : ℚ) ≤ (dev : ℚ) := by linarith
  have hsmall : (2 : ℚ) ^ (-126 : ℤ) ≤ 1 := by norm_num
  have hX := abs_le.mp (round32_rel (D : ℚ) (by rw [abs_of_pos (by linarith)]; linarith))
  have hY := abs_le.mp (round32_rel (dev : ℚ) (by rw [abs_of_pos (by linarith)]; linarith))
  rw [abs_of_pos (by linarith)] at hX hY
  have hXY := round32_mono (D : ℚ) (dev : ℚ) (by linarith) hxy.le
  set x : ℚ := (D : ℚ) with hx
  set y : ℚ := (dev : ℚ) with hy
  set X := Machine.round32 x with hXdef
  set Y := Machine.round32 y with hYdef
  have hu : (2 : ℚ) ^ (-24 : ℤ) = 1 / 16777216 := by norm_num
  rw [hu] at hX hY
  have hXpos : 0 < X := by nlinarith [hX.1]
  have hYpos : 0 < Y := lt_of_lt_of_le hXpos hXY
  have hypos : 0 < y := by linarith
  have hρ0 : 0 ≤ X / Y := div_nonneg hXpos.le hYpos.le
  have hρ1 : X / Y ≤ 1 := (div_le_one hYpos).mpr hXY
  have ht0 : 0 ≤ x / y := div_nonneg (by linarith) hypos.le
  have ht1 : x / y ≤ 1 := (div_le_one hypos).mpr hxy.le
  have hρu : X / Y ≤ x / y + 3 / 16777216 := by
    rw [div_le_iff₀ hYpos]
    have e : (x / y + 3 / 16777216) * Y = x * (Y / y) + 3 / 16777216 * Y := by
      field_simp
      ring
    have hYy : 1 - 1 / 16777216 ≤ Y / y := by
      rw [le_div_iff₀ hypos]
      linarith [hY.1]
    rw [e]
    nlinarith [hX.2, hY.1, mul_le_mul_of_nonneg_left hYy (by linarith : (0 : ℚ) ≤ x)]
  have hρl : x / y - 2 / 16777216 ≤ X / Y := by
    rw [le_div_iff₀ hYpos]
    have e : (x / y - 2 / 16777216) * Y = x * (Y / y) - 2 / 16777216 * Y := by
      field_simp
      ring
    have hYy : Y / y ≤ 1 + 1 / 16777216 := by
      rw [div_le_iff₀ hypos]
      linarith [hY.2]
    rw [e]
    nlinarith [hX.1, hY.2, mul_le_mul_of_nonneg_left hYy (by linarith : (0 : ℚ) ≤ x)]
  have hq := abs_le.mp (round32_err_le (X / Y) 1 (by rw [abs_of_nonneg hρ0]; exact hρ1) hsmall)
  have hq01 := round32_unit (X / Y) hρ0 hρ1
  set q := Machine.round32 (X / Y) with hqdef
  have hw0 : 0 ≤ 1 - q := by linarith [hq01.2]
  have hw1 : 1 - q ≤ 1 := by linarith [hq01.1]
  have hr := abs_le.mp (round32_err_le (1 - q) 1 (by rw [abs_of_nonneg hw0]; exact hw1) hsmall)
  have hr01 := round32_unit (1 - q) hw0 hw1
  rw [hu] at hq hr
  refine ⟨hr01.1, hr01.2, ?_⟩
  rw [abs_le]
  have h21 : (2 : ℚ) ^ (-21 : ℤ) = 8 / 16777216 := by norm_num
  rw [h21]
  constructor <;> linarith [hq.1, hq.2, hr.1, hr.2]

/-- Where the difference `x - median` does not overflow and the deviation is positive, the
machine `centre` returns a degree of `[0,1]` within `2^(-21)` of
`max(0, 1 - |x - median| / deviation)`: `1` at the median, `0` from the deviation on, the
rounded ramp in between. -/
theorem machine_centre_bounds (x median deviation : ℤ) (hdev : 0 < deviation)
    (hno : |x - median| ≤ Machine.INT_MAX) :
    ∃ v : ℚ, Machine.centre x median deviation = some v ∧ 0 ≤ v ∧ v ≤ 1 ∧
      |v - max 0 (1 - ((|x - median| : ℤ) : ℚ) / (deviation : ℚ))| ≤ 2 ^ (-21 : ℤ) ∧
      (x = median → v = 1) ∧ (deviation ≤ |x - median| → v = 0) ∧
      (0 < |x - median| → |x - median| < deviation →
        v = Machine.round32 (1 - Machine.round32
          (Machine.round32 ((|x - median| : ℤ) : ℚ) / Machine.round32 (deviation : ℚ)))) := by
  have hdq : (0 : ℚ) < (deviation : ℚ) := by exact_mod_cast hdev
  rw [machine_centre_eq x median deviation hno]
  by_cases h1 : x = median
  · refine ⟨1, by rw [if_pos h1], by norm_num, le_refl _, ?_, fun _ => rfl, ?_, ?_⟩
    · rw [h1]
      simp
      positivity
    · intro h
      rw [h1] at h
      simp at h
      omega
    · intro h
      rw [h1] at h
      simp at h
  · have hD0 : 0 < |x - median| := abs_pos.mpr (sub_ne_zero.mpr h1)
    by_cases h2 : deviation ≤ |x - median|
    · refine ⟨0, by rw [if_neg h1, if_pos h2], le_refl _, by norm_num, ?_,
        fun h => absurd h h1, fun _ => rfl, fun _ h => absurd h (not_lt.mpr h2)⟩
      have hq : (deviation : ℚ) ≤ ((|x - median| : ℤ) : ℚ) := by exact_mod_cast h2
      have : (1 : ℚ) ≤ ((|x - median| : ℤ) : ℚ) / (deviation : ℚ) := (one_le_div hdq).mpr hq
      rw [max_eq_left (by linarith)]
      simp
      positivity
    · have hlt : |x - median| < deviation := not_le.mp h2
      have hb := machine_ramp_bounds (|x - median|) deviation hD0 hlt
      have hY : Machine.round32 (deviation : ℚ) ≠ 0 := by
        have := zpow_le_round32 (deviation : ℚ) 0 (by norm_num)
          (by
            have : (1 : ℤ) ≤ deviation := hdev
            have h' : (1 : ℚ) ≤ (deviation : ℚ) := by exact_mod_cast this
            simpa using h')
        intro h0
        rw [h0] at this
        norm_num at this
      have hq : ((|x - median| : ℤ) : ℚ) < (deviation : ℚ) := by exact_mod_cast hlt
      have ht : ((|x - median| : ℤ) : ℚ) / (deviation : ℚ) < 1 := (div_lt_one hdq).mpr hq
      refine ⟨_, by rw [if_neg h1, if_neg h2, Machine.fdiv, if_neg hY, Option.map_some'],
        hb.1, hb.2.1, ?_, fun h => absurd h h1, fun h => absurd h h2, fun _ _ => rfl⟩
      rw [max_eq_right (by linarith)]
      exact hb.2.2

/-- C5 as stated fails in single precision: `centre(1, 0, 3)` is `5592405/8388608`
(`0.66666662693...`), which is neither `max(0, 1 - |1 - 0| / 3) = 2/3` nor the binary32
number nearest to `2/3`. -/
theorem machine_centre_triangle_counterexample :
    Machine.centre 1 0 3 = some (5592405 / 8388608) ∧
      (5592405 / 8388608 : ℚ) ≠ max 0 (1 - |((1 : ℤ) : ℚ) - ((0 : ℤ) : ℚ)| / ((3 : ℤ) : ℚ)) ∧
      Machine.round32 (2 / 3) = 11184811 / 16777216 := by
  have r1 : Machine.round32 ((1 : ℤ) : ℚ) = 1 := by
    rw [round32_int 1 (by decide)]
    norm_num
  have r2 : Machine.round32 ((3 : ℤ) : ℚ) = 3 := by
    rw [round32_int 3 (by decide)]
    norm_num
  have r3 : Machine.round32 (1 / 3) = 11184811 / 33554432 := by
    rw [round32_eval _ (-2) 11184811 (by norm_num)
      (by rw [abs_of_pos (by norm_num)]; norm_num)
      (by rw [abs_of_pos (by norm_num)]; norm_num)
      (rintf_eq_of_abs_lt _ _ (by rw [abs_lt]; constructor <;> norm_num))]
    norm_num
  have r4 : Machine.round32 (1 - 11184811 / 33554432) = 5592405 / 8388608 := by
    rw [round32_eval _ (-1) 11184810 (by norm_num)
      (by rw [abs_of_pos (by norm_num)]; norm_num)
      (by rw [abs_of_pos (by norm_num)]; norm_num)
      (by
        have : ((1 : ℚ) - 11184811 / 33554432) / 2 ^ ((-1 : ℤ) - 23) =
            ((11184810 : ℤ) : ℚ) + 1 / 2 := by
          norm_num
        rw [this, rintf_half]
        decide)]
    norm_num
  have r5 : Machine.round32 (2 / 3) = 11184811 / 16777216 := by
    rw [round32_eval _ (-1) 11184811 (by norm_num)
      (by rw [abs_of_pos (by norm_num)]; norm_num)
      (by rw [abs_of_pos (by norm_num)]; norm_num)
      (rintf_eq_of_abs_lt _ _ (by rw [abs_lt]; constructor <;> norm_num))]
    norm_num
  refine ⟨?_, ?_, r5⟩
  · unfold Machine.centre
    rw [if_neg (by decide), if_pos (by decide)]
    have hw : Machine.wrap (1 - 0) = 1 := by decide
    simp only [hw]
    rw [if_neg (by decide), r1, r2]
    simp only [Machine.fdiv]
    rw [if_neg (by norm_num), Option.map_some', r3, r4]
  · norm_num

/-- C5 (amended): for every crisp value `x`, median and deviation `> 0` whose difference
`x - median` does not overflow `int`, `centre(x, median, deviation)` returns a degree `v` of
`[0,1]` within `2^(-21)` of `max(0, 1 - |x - median| / deviation)`: it is exactly `1` at
`x = median`, exactly `0` whenever `|x - median| ≥ deviation`, and in between the
single-precision value of `1.0f - (float)d / deviation`, each operation rounded. -/
theorem machine_centre_triangle (x median deviation : ℤ) (hdev : 0 < deviation)
    (hno : |x - median| ≤ Machine.INT_MAX) :
    ∃ v : ℚ, Machine.centre x median deviation = some v ∧ 0 ≤ v ∧ v ≤ 1 ∧
      |v - max 0 (1 - ((|x - median| : ℤ) : ℚ) / (deviation : ℚ))| ≤ 2 ^ (-21 : ℤ) ∧
      (x = median → v = 1) ∧ (deviation ≤ |x - median| → v = 0) ∧
      (0 < |x - median| → |x - median| < deviation →
        v = Machine.round32 (1 - Machine.round32
          (Machine.round32 ((|x - median| : ℤ) : ℚ) / Machine.round32 (deviation : ℚ)))) :=
  machine_centre_bounds x median deviation hdev hno

/-- C5 (amended) at `centre(96, 128, 64)`, a point of the `MEDIUM` curve of `Speed`. -/
theorem machine_centre_triangle_witness :
    ∃ v : ℚ, Machine.centre 96 128 64 = some v ∧ 0 ≤ v ∧ v ≤ 1 ∧
      |v - max 0 (1 - ((|(96 : ℤ) - 128| : ℤ) : ℚ) / ((64 : ℤ) : ℚ))| ≤ 2 ^ (-21 : ℤ) ∧
      ((96 : ℤ) = 128 → v = 1) ∧ ((64 : ℤ) ≤ |(96 : ℤ) - 128| → v = 0) ∧
      (0 < |(96 : ℤ) - 128| → |(96 : ℤ) - 128| < 64 →
        v = Machine.round32 (1 - Machine.round32
          (Machine.round32 ((|(96 : ℤ) - 128| : ℤ) : ℚ) / Machine.round32 ((64 : ℤ) : ℚ)))) :=
  machine_centre_triangle 96 128 64 (by decide) (by decide)

/-! ## Machine arithmetic: the integration loop as sums in single precision -/

/-- The inner loop at a sample where the membership function returns values. -/
theorem thisValuesMembership_at (o : FuzzyOutput) (f : ℤ → ℤ → ℚ) (i : ℤ)
    (hf : ∀ c, o.domain.membership i c = some (f i c)) :
    o.thisValuesMembership i = some (FuzzyOutput.heightOf o.m f i) := by
  unfold FuzzyOutput.thisValuesMembership FuzzyOutput.heightOf
  generalize (0 : ℚ) = t
  induction List.finRange MAX_CATEGORIES generalizing t with
  | nil => rfl
  | cons c l ih =>
    rw [List.foldlM_cons, hf, List.foldl_cons]
    exact ih _

/-- A fold on a pair whose components do not interact is the pair of the two folds. -/
theorem foldl_pair32 {α : Type} (H T : α → ℚ) (l : List α) (w s : ℚ) :
    l.foldl (fun (p : ℚ × ℚ) i => (Machine.round32 (p.1 + H i), Machine.round32 (p.2 + T i)))
        (w, s) =
      (l.foldl (fun w i => Machine.round32 (w + H i)) w,
        l.foldl (fun s i => Machine.round32 (s + T i)) s) := by
  induction l generalizing w s with
  | nil => rfl
  | cons i l ih =>
    rw [List.foldl_cons, List.foldl_cons, List.foldl_cons]
    exact ih _ _

/-- The last sample point plus the step is at most the upper bound plus the step. -/
theorem sampleCount_mul_le (a b d : ℤ) (hd : 1 ≤ d) (hab : a ≤ b + d) :
    a + (Reference.sampleCount a b d : ℤ) * d ≤ b + d := by
  rcases Nat.eq_zero_or_pos (Reference.sampleCount a b d) with h | h
  · rw [h]
    simpa using hab
  · have hs := (sampleCount_spec a b d hd).1 (Reference.sampleCount a b d - 1) (by omega)
    have e : ((Reference.sampleCount a b d - 1 : ℕ) : ℤ) =
        (Reference.sampleCount a b d : ℤ) - 1 := by
      rw [Nat.cast_sub h]
      simp
    rw [e] at hs
    linarith

/-- Without `int` overflow and with enough fuel, the integration loop returns the two sums
of the single-precision reference over the heights `heightOf`. -/
theorem machine_integrate_eq (o : FuzzyOutput) (f : ℤ → ℤ → ℚ) (fuel : ℕ)
    (hf : ∀ i, o.domain.minRange ≤ i → i ≤ o.domain.maxRange →
      ∀ c, o.domain.membership i c = some (f i c))
    (ha : Machine.INT_MIN ≤ o.domain.minRange) (ha' : o.domain.minRange ≤ Machine.INT_MAX)
    (h0 : Machine.INT_MIN ≤ o.domain.maxRange - o.domain.minRange)
    (h1 : o.domain.maxRange - o.domain.minRange ≤ Machine.INT_MAX)
    (hb : o.domain.maxRange + Reference.step o.domain.minRange o.domain.maxRange ≤
      Machine.INT_MAX)
    (hfuel : Reference.sampleCount o.domain.minRange o.domain.maxRange
      (Reference.step o.domain.minRange o.domain.maxRange) < fuel) :
    Machine.integrate fuel o =
      Machine.Outcome.done
        (Reference.sum32 (FuzzyOutput.heightOf o.m f)
          (Reference.sampleList o.domain.minRange o.domain.maxRange),
        Reference.sum32 (fun i => Machine.round32
            (Machine.round32 (i : ℚ) * FuzzyOutput.heightOf o.m f i))
          (Reference.sampleList o.domain.minRange o.domain.maxRange)) := by
  have hd : 1 ≤ Reference.step o.domain.minRange o.domain.maxRange := le_max_left _ _
  have hs := sampleCount_spec o.domain.minRange o.domain.maxRange _ hd
  have hk0 : ∀ k : ℕ, (0 : ℤ) ≤ (k : ℤ) * Reference.step o.domain.minRange o.domain.maxRange :=
    fun k => mul_nonneg (Int.ofNat_nonneg k) (by omega)
  have hmax : o.domain.minRange + (Reference.sampleCount o.domain.minRange o.domain.maxRange
      (Reference.step o.domain.minRange o.domain.maxRange) : ℤ) *
        Reference.step o.domain.minRange o.domain.maxRange ≤ Machine.INT_MAX := by
    by_cases hab : o.domain.minRange ≤ o.domain.maxRange +
        Reference.step o.domain.minRange o.domain.maxRange
    · exact le_trans (sampleCount_mul_le _ _ _ hd hab) hb
    · have hz : Reference.sampleCount o.domain.minRange o.domain.maxRange
          (Reference.step o.domain.minRange o.domain.maxRange) = 0 := by
        unfold Reference.sampleCount
        rw [if_neg (by omega)]
      rw [hz]
      simpa using ha'
  unfold Machine.integrate
  simp only
  rw [machine_step_eq _ _ h0 h1,
    machine_forLoop_fold _ _ hd (Machine.accumulate o)
      (fun i (p : ℚ × ℚ) => (Machine.round32 (p.1 + FuzzyOutput.heightOf o.m f i),
        Machine.round32 (p.2 + Machine.round32
          (Machine.round32 (i : ℚ) * FuzzyOutput.heightOf o.m f i))))
      _ fuel _ (0, 0) hfuel ha hmax hs.1 hs.2 ?_]
  · unfold Reference.sum32 Reference.sampleList
    rw [List.foldl_map, List.foldl_map]
    exact congrArg Machine.Outcome.done
      (foldl_pair32
        (fun k : ℕ => FuzzyOutput.heightOf o.m f
          (o.domain.minRange + (k : ℤ) * Reference.step o.domain.minRange o.domain.maxRange))
        (fun k : ℕ => Machine.round32
          (Machine.round32
            ((o.domain.minRange + (k : ℤ) * Reference.step o.domain.minRange o.domain.maxRange :
              ℤ) : ℚ) *
            FuzzyOutput.heightOf o.m f
              (o.domain.minRange + (k : ℤ) * Reference.step o.domain.minRange o.domain.maxRange)))
        _ 0 0)
  · intro k hk t
    unfold Machine.accumulate
    rw [thisValuesMembership_at o f _ (hf _ (by linarith [hk0 k]) (hs.1 k hk))]
    rfl

/-- The machine `getCrispValue` in terms of the two sums, before the division. -/
theorem machine_getCrispValue_of_integrate (o : FuzzyOutput) (fuel : ℕ) (w s : ℚ)
    (h : Machine.integrate fuel o = Machine.Outcome.done (w, s)) :
    Machine.getCrispValue fuel o =
      if s < Machine.round32 (1 / 100) then Machine.Outcome.done 0
      else
        match Machine.fdiv s w with
        | none => Machine.Outcome.fault
        | some q => Machine.toInt (rintf q) := by
  unfold Machine.getCrispValue
  rw [h]

/-- Below the threshold `0.01f` the machine `getCrispValue` returns `0`. -/
theorem machine_getCrispValue_guard (o : FuzzyOutput) (fuel : ℕ) (w s : ℚ)
    (h : Machine.integrate fuel o = Machine.Outcome.done (w, s))
    (hg : s < Machine.round32 (1 / 100)) :
    Machine.getCrispValue fuel o = Machine.Outcome.done 0 := by
  rw [machine_getCrispValue_of_integrate o fuel w s h, if_pos hg]

/-- From the threshold `0.01f` on, with a total weight that is not zero, the machine
`getCrispValue` converts the rounded quotient of the two sums. -/
theorem machine_getCrispValue_quotient (o : FuzzyOutput) (fuel : ℕ) (w s : ℚ)
    (h : Machine.integrate fuel o = Machine.Outcome.done (w, s))
    (hg : ¬ s < Machine.round32 (1 / 100)) (hw : w ≠ 0) :
    Machine.getCrispValue fuel o = Machine.toInt (rintf (Machine.round32 (s / w))) := by
  rw [machine_getCrispValue_of_integrate o fuel w s h, if_neg hg]
  unfold Machine.fdiv
  rw [if_neg hw]

/-- The conversion of an integer of the `int` range. -/
theorem toInt_of_mem (z : ℤ) (h0 : Machine.INT_MIN ≤ z) (h1 : z ≤ Machine.INT_MAX) :
    Machine.toInt z = Machine.Outcome.done z := by
  unfold Machine.toInt
  rw [if_pos ⟨h0, h1⟩]

/-! ## Machine arithmetic: `getCrispValue` against the single-precision reference -/

/-- A binary32 number is a multiple of `2^(-149)`. -/
theorem grid_of_isFloat (x : ℚ) (h : Machine.isFloat x) :
    ∃ z : ℤ, x = (z : ℚ) * 2 ^ (-149 : ℤ) := by
  obtain ⟨z, hz⟩ := round32_grid x
  exact ⟨z, by rw [← hz]; exact h.symm⟩

/-- The sum of two multiples of `2^(-149)` is one. -/
theorem grid_add (x y : ℚ) (hx : ∃ z : ℤ, x = (z : ℚ) * 2 ^ (-149 : ℤ))
    (hy : ∃ z : ℤ, y = (z : ℚ) * 2 ^ (-149 : ℤ)) :
    ∃ z : ℤ, x + y = (z : ℚ) * 2 ^ (-149 : ℤ) := by
  obtain ⟨a, rfl⟩ := hx
  obtain ⟨b, rfl⟩ := hy
  exact ⟨a + b, by push_cast; ring⟩

/-- Zero is a multiple of `2^(-149)`. -/
theorem grid_zero : ∃ z : ℤ, (0 : ℚ) = (z : ℚ) * 2 ^ (-149 : ℤ) := ⟨0, by simp⟩

/-- A non-negative multiple of `2^(-149)` that rounds to zero is zero. -/
theorem round32_eq_zero (x : ℚ) (hx : 0 ≤ x) (hg : ∃ z : ℤ, x = (z : ℚ) * 2 ^ (-149 : ℤ))
    (h : Machine.round32 x = 0) : x = 0 := by
  have hr := (round32_rel_grid x hx hg).1
  rw [h] at hr
  have hu : (0 : ℚ) < 1 - 2 ^ (-24 : ℤ) := by norm_num
  nlinarith

/-- The height is zero or one of the clipped values. -/
theorem heightOf_cases (m : Fin MAX_CATEGORIES → ℚ) (f : ℤ → ℤ → ℚ) (i : ℤ) :
    FuzzyOutput.heightOf m f i = 0 ∨
      ∃ c : Fin MAX_CATEGORIES, FuzzyOutput.heightOf m f i = m c ∨
        FuzzyOutput.heightOf m f i = f i ((c : ℕ) : ℤ) := by
  have hs := foldl_max_spec (fun c => fmin (m c) (f i ((c : ℕ) : ℤ)))
    (List.finRange MAX_CATEGORIES) 0
  rcases hs.2.2 with h | ⟨c, _, h⟩
  · exact Or.inl h
  · refine Or.inr ⟨c, ?_⟩
    unfold FuzzyOutput.heightOf
    rw [h]
    unfold fmin
    rcases min_choice (m c) (f i ((c : ℕ) : ℤ)) with h' | h'
    · exact Or.inl h'
    · exact Or.inr h'

/-- The height of binary32 values is a binary32 number. -/
theorem heightOf_isFloat (m : Fin MAX_CATEGORIES → ℚ) (f : ℤ → ℤ → ℚ) (i : ℤ)
    (hm : ∀ c, Machine.isFloat (m c)) (hf : ∀ c, Machine.isFloat (f i c)) :
    Machine.isFloat (FuzzyOutput.heightOf m f i) := by
  rcases heightOf_cases m f i with h | ⟨c, h | h⟩
  · rw [h]
    exact round32_zero
  · rw [h]
    exact hm c
  · rw [h]
    exact hf _

/-- The sample points of the list lie in the range. -/
theorem mem_sampleList_bounds (a b i : ℤ) (h : i ∈ Reference.sampleList a b) :
    a ≤ i ∧ i ≤ b := by
  have hd : 1 ≤ Reference.step a b := le_max_left _ _
  unfold Reference.sampleList at h
  rw [List.mem_map] at h
  obtain ⟨k, hk, rfl⟩ := h
  rw [List.mem_range] at hk
  refine ⟨?_, (sampleCount_spec a b _ hd).1 k hk⟩
  have : (0 : ℤ) ≤ (k : ℤ) * Reference.step a b := mul_nonneg (Int.ofNat_nonneg k) (by omega)
  linarith

/-- Sums in single precision of terms that agree on the list agree. -/
theorem sum32_congr (t t' : ℤ → ℚ) (l : List ℤ) (h : ∀ i ∈ l, t i = t' i) :
    Reference.sum32 t l = Reference.sum32 t' l := by
  unfold Reference.sum32
  generalize (0 : ℚ) = s
  induction l generalizing s with
  | nil => rfl
  | cons i l ih =>
    rw [List.foldl_cons, List.foldl_cons, h i (List.mem_cons_self i l)]
    exact ih (fun j hj => h j (List.mem_cons_of_mem i hj)) _

/-- When the weights are non-negative binary32 numbers and their single-precision sum is
zero, the single-precision weighted sum is zero as well. -/
theorem sum32_zero_of_weight_zero (H : ℤ → ℚ) (l : List ℤ)
    (hH : ∀ i ∈ l, 0 ≤ H i ∧ ∃ z : ℤ, H i = (z : ℚ) * 2 ^ (-149 : ℤ))
    (h : Reference.sum32 H l = 0) :
    Reference.sum32 (fun i => Machine.round32 (Machine.round32 (i : ℚ) * H i)) l = 0 := by
  unfold Reference.sum32 at h ⊢
  have key : ∀ (l : List ℤ), (∀ i ∈ l, 0 ≤ H i ∧ ∃ z : ℤ, H i = (z : ℚ) * 2 ^ (-149 : ℤ)) →
      ∀ w s : ℚ, 0 ≤ w → (∃ z : ℤ, w = (z : ℚ) * 2 ^ (-149 : ℤ)) → (w = 0 → s = 0) →
      l.foldl (fun w i => Machine.round32 (w + H i)) w = 0 →
      l.foldl (fun s (i : ℤ) => Machine.round32
        (s + Machine.round32 (Machine.round32 (i : ℚ) * H i))) s = 0 := by
    intro l
    induction l with
    | nil =>
      intro _ w s _ _ hws hw
      exact hws hw
    | cons i l ih =>
      intro hl w s hw0 hwg hws hfold
      rw [List.foldl_cons] at hfold ⊢
      have hi := hl i (List.mem_cons_self i l)
      refine ih (fun j hj => hl j (List.mem_cons_of_mem i hj)) _ _
        (round32_nonneg _ (add_nonneg hw0 hi.1)) (round32_grid _) ?_ hfold
      intro hz
      have hsum := round32_eq_zero _ (add_nonneg hw0 hi.1) (grid_add _ _ hwg hi.2) hz
      have hw : w = 0 := by linarith [hi.1]
      have hh : H i = 0 := by linarith [hi.1]
      rw [hws hw, hh, mul_zero, round32_zero, add_zero, round32_zero]
  exact key l hH 0 0 (le_refl 0) grid_zero (fun _ => rfl) h

/-- The binary32 constant `0.01f` is positive and below one. -/
theorem round32_guard_bounds :
    (2 : ℚ) ^ (-7 : ℤ) ≤ Machine.round32 (1 / 100) ∧
      Machine.round32 (1 / 100) ≤ 2 ^ (-6 : ℤ) :=
  ⟨zpow_le_round32 _ _ (by norm_num) (by norm_num),
    round32_le_zpow _ _ (by norm_num) (by norm_num) (by norm_num)⟩

/-- The conversion of zero. -/
theorem toInt_zero : Machine.toInt 0 = Machine.Outcome.done 0 := by decide

/-- Without `int` overflow and with enough fuel, the machine `getCrispValue` is the
conversion to `int` of the single-precision reference, for membership values and accumulated
degrees that are non-negative binary32 numbers. -/
theorem machine_getCrispValue_eq (o : FuzzyOutput) (f : ℤ → ℤ → ℚ) (fuel : ℕ)
    (hf : ∀ i, o.domain.minRange ≤ i → i ≤ o.domain.maxRange →
      ∀ c, o.domain.membership i c = some (f i c))
    (hf0 : ∀ i, o.domain.minRange ≤ i → i ≤ o.domain.maxRange → ∀ c, 0 ≤ f i c)
    (hf32 : ∀ i, o.domain.minRange ≤ i → i ≤ o.domain.maxRange →
      ∀ c, Machine.isFloat (f i c))
    (hm0 : ∀ c, 0 ≤ o.m c) (hm32 : ∀ c, Machine.isFloat (o.m c))
    (ha : Machine.INT_MIN ≤ o.domain.minRange) (ha' : o.domain.minRange ≤ Machine.INT_MAX)
    (h0 : Machine.INT_MIN ≤ o.domain.maxRange - o.domain.minRange)
    (h1 : o.domain.maxRange - o.domain.minRange ≤ Machine.INT_MAX)
    (hb : o.domain.maxRange + Reference.step o.domain.minRange o.domain.maxRange ≤
      Machine.INT_MAX)
    (hfuel : Reference.sampleCount o.domain.minRange o.domain.maxRange
      (Reference.step o.domain.minRange o.domain.maxRange) < fuel) :
    Machine.getCrispValue fuel o =
      Machine.toInt (Reference.crisp32 o.domain.minRange o.domain.maxRange f o.m) := by
  have hH : ∀ i ∈ Reference.sampleList o.domain.minRange o.domain.maxRange,
      Reference.height f o.m i = FuzzyOutput.heightOf o.m f i := by
    intro i hi
    have hbnd := mem_sampleList_bounds _ _ i hi
    exact (heightOf_eq_reference o.m f i hm0 (hf0 i hbnd.1 hbnd.2)).symm
  have hW : Reference.totalWeight32 o.domain.minRange o.domain.maxRange f o.m =
      Reference.sum32 (FuzzyOutput.heightOf o.m f)
        (Reference.sampleList o.domain.minRange o.domain.maxRange) :=
    sum32_congr _ _ _ hH
  have hS : Reference.weightedSum32 o.domain.minRange o.domain.maxRange f o.m =
      Reference.sum32 (fun i => Machine.round32
          (Machine.round32 (i : ℚ) * FuzzyOutput.heightOf o.m f i))
        (Reference.sampleList o.domain.minRange o.domain.maxRange) :=
    sum32_congr _ _ _ (fun i hi => by simp only [hH i hi])
  rw [machine_getCrispValue_of_integrate o fuel _ _
    (machine_integrate_eq o f fuel hf ha ha' h0 h1 hb hfuel)]
  unfold Reference.crisp32
  rw [hW, hS]
  by_cases hg : Reference.sum32 (fun i => Machine.round32
      (Machine.round32 (i : ℚ) * FuzzyOutput.heightOf o.m f i))
      (Reference.sampleList o.domain.minRange o.domain.maxRange) < Machine.round32 (1 / 100)
  · rw [if_pos hg, if_pos hg, toInt_zero]
  · rw [if_neg hg, if_neg hg]
    have hw : Reference.sum32 (FuzzyOutput.heightOf o.m f)
        (Reference.sampleList o.domain.minRange o.domain.maxRange) ≠ 0 := by
      intro hz
      have := sum32_zero_of_weight_zero (FuzzyOutput.heightOf o.m f) _
        (fun i hi => by
          have hbnd := mem_sampleList_bounds _ _ i hi
          exact ⟨heightOf_nonneg _ _ _, grid_of_isFloat _
            (heightOf_isFloat o.m f i hm32 (hf32 i hbnd.1 hbnd.2))⟩) hz
      rw [this] at hg
      have hpos : (0 : ℚ) < 2 ^ (-7 : ℤ) := by positivity
      exact hg (lt_of_lt_of_le hpos round32_guard_bounds.1)
    unfold Machine.fdiv
    rw [if_neg hw]

/-- A sum in single precision of terms that are all zero is zero. -/
theorem sum32_of_zero (t : ℤ → ℚ) (l : List ℤ) (h : ∀ i ∈ l, t i = 0) :
    Reference.sum32 t l = 0 := by
  unfold Reference.sum32
  induction l with
  | nil => rfl
  | cons i l ih =>
    rw [List.foldl_cons, h i (List.mem_cons_self i l), add_zero, round32_zero]
    exact ih (fun j hj => h j (List.mem_cons_of_mem i hj))

/-- Without `int` overflow and with enough fuel, `getCrispValue` right after `reset` returns
`0` in machine arithmetic, for every membership function that returns values on the range and
every prior accumulated state. -/
theorem machine_reset_getCrispValue (o : FuzzyOutput) (fuel : ℕ)
    (hmem : ∀ i, o.domain.minRange ≤ i → i ≤ o.domain.maxRange →
      ∀ c, (o.domain.membership i c).isSome = true)
    (ha : Machine.INT_MIN ≤ o.domain.minRange) (ha' : o.domain.minRange ≤ Machine.INT_MAX)
    (h0 : Machine.INT_MIN ≤ o.domain.maxRange - o.domain.minRange)
    (h1 : o.domain.maxRange - o.domain.minRange ≤ Machine.INT_MAX)
    (hb : o.domain.maxRange + Reference.step o.domain.minRange o.domain.maxRange ≤
      Machine.INT_MAX)
    (hfuel : Reference.sampleCount o.domain.minRange o.domain.maxRange
      (Reference.step o.domain.minRange o.domain.maxRange) < fuel) :
    Machine.getCrispValue fuel o.reset = Machine.Outcome.done 0 := by
  have hf : ∀ i, o.reset.domain.minRange ≤ i → i ≤ o.reset.domain.maxRange →
      ∀ c, o.reset.domain.membership i c = some ((o.domain.membership i c).getD 0) := by
    intro i h1 h2 c
    obtain ⟨v, hv⟩ := Option.isSome_iff_exists.mp (hmem i h1 h2 c)
    show o.domain.membership i c = _
    rw [hv]
    rfl
  have hint := machine_integrate_eq o.reset (fun i c => (o.domain.membership i c).getD 0)
    fuel hf ha ha' h0 h1 hb hfuel
  have hz : ∀ i, FuzzyOutput.heightOf o.reset.m
      (fun i c => (o.domain.membership i c).getD 0) i = 0 :=
    fun i => heightOf_zero _ (reset_m o) _ i
  have hS : Reference.sum32 (fun i => Machine.round32 (Machine.round32 (i : ℚ) *
      FuzzyOutput.heightOf o.reset.m (fun i c => (o.domain.membership i c).getD 0) i))
      (Reference.sampleList o.reset.domain.minRange o.reset.domain.maxRange) = 0 :=
    sum32_of_zero _ _ (fun i _ => by
      show Machine.round32 (Machine.round32 (i : ℚ) * _) = 0
      rw [hz i, mul_zero, round32_zero])
  refine machine_getCrispValue_guard o.reset fuel _ _ hint ?_
  rw [hS]
  exact lt_of_lt_of_le (by positivity) round32_guard_bounds.1

/-- The reference height when every clipped value is one. -/
theorem height_const_one (i : ℤ) :
    Reference.height (fun _ _ => (1 : ℚ)) (fun _ => (1 : ℚ)) i = 1 := by
  simp [Reference.height]

/-- The single-precision sum over one point. -/
theorem sum32_singleton (t : ℤ → ℚ) (x : ℤ) :
    Reference.sum32 t [x] = Machine.round32 (0 + t x) := rfl

/-- The integer `16777217 = 2^24 + 1` is not a binary32 number: it rounds to `2^24`. -/
theorem round32_16777217 : Machine.round32 ((16777217 : ℤ) : ℚ) = 16777216 := by
  rw [round32_eval _ 24 8388608 (by norm_num)
    (by rw [abs_of_pos (by norm_num)]; norm_num)
    (by rw [abs_of_pos (by norm_num)]; norm_num)
    (by
      have : (((16777217 : ℤ) : ℚ)) / 2 ^ ((24 : ℤ) - 23) = ((8388608 : ℤ) : ℚ) + 1 / 2 := by
        norm_num
      rw [this, rintf_half]
      decide)]
  norm_num

/-- The range `[16777217, 16777217]` with membership `1` everywhere and every accumulated
degree `1`: `getCrispValue` returns `16777216`. -/
theorem machine_getCrispValue_16777217 :
    Machine.getCrispValue 2 ⟨⟨16777217, 16777217, fun _ _ => some 1⟩, fun _ => 1⟩ =
      Machine.Outcome.done 16777216 := by
  have hl : Reference.sampleList 16777217 16777217 = [16777217] := by decide
  have r1 : Machine.round32 ((16777216 : ℤ) : ℚ) = 16777216 := by
    rw [round32_int 16777216 (by decide)]
    norm_num
  have r1' : Machine.round32 (16777216 : ℚ) = 16777216 := by exact_mod_cast r1
  rw [machine_getCrispValue_eq ⟨⟨16777217, 16777217, fun _ _ => some 1⟩, fun _ => 1⟩
    (fun _ _ => 1) 2 (fun _ _ _ _ => rfl) (fun _ _ _ _ => zero_le_one)
    (fun _ _ _ _ => round32_one) (fun _ => zero_le_one) (fun _ => round32_one)
    (by decide) (by decide) (by decide) (by decide) (by decide) (by decide)]
  have hS : Reference.weightedSum32 16777217 16777217 (fun _ _ => 1) (fun _ => 1) =
      16777216 := by
    unfold Reference.weightedSum32
    rw [hl, sum32_singleton, height_const_one, mul_one, zero_add, round32_16777217, r1', r1']
  have hW : Reference.totalWeight32 16777217 16777217 (fun _ _ => 1) (fun _ => 1) = 1 := by
    unfold Reference.totalWeight32
    rw [hl, sum32_singleton, height_const_one, zero_add]
    exact round32_one
  have hg : ¬ ((16777216 : ℚ) < Machine.round32 (1 / 100)) := by
    have := round32_guard_bounds.2
    have h6 : (2 : ℚ) ^ (-6 : ℤ) ≤ 1 := by norm_num
    intro h
    linarith
  have hq : Machine.round32 ((16777216 : ℚ) / 1) = 16777216 := by
    rw [div_one, r1']
  show Machine.toInt (Reference.crisp32 16777217 16777217 (fun _ _ => 1) (fun _ => 1)) = _
  unfold Reference.crisp32
  rw [hS, hW, if_neg hg, hq]
  have : rintf (16777216 : ℚ) = 16777216 := by exact_mod_cast rintf_intCast 16777216
  rw [this]
  decide

/-- C1 as stated fails in single precision: for the range `[16777217, 16777217]`, membership
`1` everywhere and every accumulated degree `1`, the exact reference has
`weightedSum = 16777217`, `totalWeight = 1` and the rounded quotient `16777217`, but
`getCrispValue` returns `16777216`, because `(float)16777217` is `16777216`. -/
theorem machine_getCrispValue_eq_reference_counterexample :
    Machine.getCrispValue 2 ⟨⟨16777217, 16777217, fun _ _ => some 1⟩, fun _ => 1⟩ =
        Machine.Outcome.done 16777216 ∧
      Reference.weightedSum 16777217 16777217 (fun _ _ => 1) (fun _ => 1) = 16777217 ∧
      Reference.totalWeight 16777217 16777217 (fun _ _ => 1) (fun _ => 1) = 1 ∧
      ¬ ((16777217 : ℚ) < 1 / 100) ∧ rintf ((16777217 : ℚ) / 1) = 16777217 := by
  have hs : Reference.samples 16777217 16777217 = {16777217} := by
    rw [samples_eq_Icc _ _ (by norm_num), Finset.Icc_self]
  refine ⟨machine_getCrispValue_16777217, ?_, ?_, by norm_num, ?_⟩
  · unfold Reference.weightedSum
    rw [hs, Finset.sum_singleton, height_const_one]
    norm_num
  · unfold Reference.totalWeight
    rw [hs, Finset.sum_singleton, height_const_one]
  · rw [div_one]
    exact_mod_cast rintf_intCast 16777217

/-- C1 (amended): for every domain whose `int` arithmetic does not overflow (the bounds
`a = minRange`, `b = maxRange` with `b - a` and `b + d` in the `int` range), membership values
and accumulated degrees that are binary32 numbers of `[0,1]`, and enough fuel,
`getCrispValue` equals the centre-of-area reference evaluated in single precision: with step
`d = max(1, (b - a) / 1024)` and the sample points `a, a+d, ... ≤ b` in this order,
`height(i)` the maximum over the categories of `min(accumulated[c], membership(i, c))`,
`totalWeight` and `weightedSum` the sums of `height(i)` and of `(float)i * height(i)` with
every product and every addition rounded to binary32; the result is `0` if
`weightedSum < 0.01f` and otherwise the binary32 quotient `weightedSum / totalWeight` rounded
to the nearest integer, converted to `int`. -/
theorem machine_getCrispValue_eq_reference (o : FuzzyOutput) (f : ℤ → ℤ → ℚ) (fuel : ℕ)
    (hf : ∀ i, o.domain.minRange ≤ i → i ≤ o.domain.maxRange →
      ∀ c, o.domain.membership i c = some (f i c))
    (hf01 : ∀ i, o.domain.minRange ≤ i → i ≤ o.domain.maxRange →
      ∀ c, 0 ≤ f i c ∧ f i c ≤ 1)
    (hf32 : ∀ i, o.domain.minRange ≤ i → i ≤ o.domain.maxRange →
      ∀ c, Machine.isFloat (f i c))
    (hm01 : ∀ c, 0 ≤ o.m c ∧ o.m c ≤ 1) (hm32 : ∀ c, Machine.isFloat (o.m c))
    (ha : Machine.INT_MIN ≤ o.domain.minRange) (ha' : o.domain.minRange ≤ Machine.INT_MAX)
    (h0 : Machine.INT_MIN ≤ o.domain.maxRange - o.domain.minRange)
    (h1 : o.domain.maxRange - o.domain.minRange ≤ Machine.INT_MAX)
    (hb : o.domain.maxRange + Reference.step o.domain.minRange o.domain.maxRange ≤
      Machine.INT_MAX)
    (hfuel : Reference.sampleCount o.domain.minRange o.domain.maxRange
      (Reference.step o.domain.minRange o.domain.maxRange) < fuel) :
    Machine.getCrispValue fuel o =
      Machine.toInt (Reference.crisp32 o.domain.minRange o.domain.maxRange f o.m) :=
  machine_getCrispValue_eq o f fuel hf (fun i h h' c => (hf01 i h h' c).1) hf32
    (fun c => (hm01 c).1) hm32 ha ha' h0 h1 hb hfuel

/-- C1 (amended) at the range `[0, 3]` with membership `1` everywhere and every accumulated
degree `1`, on fuel `5`. -/
theorem machine_getCrispValue_eq_reference_witness :
    Machine.getCrispValue 5 ⟨⟨0, 3, fun _ _ => some 1⟩, fun _ => 1⟩ =
      Machine.toInt (Reference.crisp32 0 3 (fun _ _ => 1) (fun _ => 1)) :=
  machine_getCrispValue_eq_reference ⟨⟨0, 3, fun _ _ => some 1⟩, fun _ => 1⟩
    (fun _ _ => 1) 5 (fun _ _ _ _ => rfl) (fun _ _ _ _ => ⟨zero_le_one, le_refl 1⟩)
    (fun _ _ _ _ => round32_one) (fun _ => ⟨zero_le_one, le_refl 1⟩) (fun _ => round32_one)
    (by decide) (by decide) (by decide) (by decide) (by decide) (by decide)

/-! ## Machine arithmetic: the error of the accumulated sums -/

/-- A sum accumulated in single precision of non-negative terms, each within the relative
error `2^(-24)` of its exact value: after `n` additions the sum is within the factors
`(1 ± 2^(-24))^(n+1)` of the exact sum. -/
theorem sum32_bounds (t T : ℤ → ℚ) (l : List ℤ)
    (h : ∀ i ∈ l, 0 ≤ T i ∧ (∃ z : ℤ, t i = (z : ℚ) * 2 ^ (-149 : ℤ)) ∧
      (1 - 2 ^ (-24 : ℤ)) * T i ≤ t i ∧ t i ≤ (1 + 2 ^ (-24 : ℤ)) * T i) :
    (1 - 2 ^ (-24 : ℤ)) ^ (l.length + 1) * (l.map T).sum ≤ Reference.sum32 t l ∧
      Reference.sum32 t l ≤ (1 + 2 ^ (-24 : ℤ)) ^ (l.length + 1) * (l.map T).sum := by
  have hu0 : (0 : ℚ) ≤ 1 - 2 ^ (-24 : ℤ) := by norm_num
  have hu1 : (1 : ℚ) - 2 ^ (-24 : ℤ) ≤ 1 := by norm_num
  have hv1 : (1 : ℚ) ≤ 1 + 2 ^ (-24 : ℤ) := by norm_num
  have hv0 : (0 : ℚ) ≤ 1 + 2 ^ (-24 : ℤ) := by norm_num
  have key : ∀ (l : List ℤ), (∀ i ∈ l, 0 ≤ T i ∧ (∃ z : ℤ, t i = (z : ℚ) * 2 ^ (-149 : ℤ)) ∧
      (1 - 2 ^ (-24 : ℤ)) * T i ≤ t i ∧ t i ≤ (1 + 2 ^ (-24 : ℤ)) * T i) →
      ∀ (s S : ℚ) (k : ℕ), k ≠ 0 → 0 ≤ S → (∃ z : ℤ, s = (z : ℚ) * 2 ^ (-149 : ℤ)) →
      (1 - 2 ^ (-24 : ℤ)) ^ k * S ≤ s → s ≤ (1 + 2 ^ (-24 : ℤ)) ^ k * S →
      (1 - 2 ^ (-24 : ℤ)) ^ (k + l.length) * (S + (l.map T).sum) ≤
          l.foldl (fun s i => Machine.round32 (s + t i)) s ∧
        l.foldl (fun s i => Machine.round32 (s + t i)) s ≤
          (1 + 2 ^ (-24 : ℤ)) ^ (k + l.length) * (S + (l.map T).sum) := by
    intro l
    induction l with
    | nil =>
      intro _ s S k _ _ _ h1 h2
      simpa using ⟨h1, h2⟩
    | cons i l ih =>
      intro hl s S k hk hS hg h1 h2
      obtain ⟨hT, htg, ht1, ht2⟩ := hl i (List.mem_cons_self i l)
      have hpu : (0 : ℚ) ≤ (1 - 2 ^ (-24 : ℤ)) ^ k := pow_nonneg hu0 k
      have hs0 : 0 ≤ s := le_trans (mul_nonneg hpu hS) h1
      have ht0 : 0 ≤ t i := le_trans (mul_nonneg hu0 hT) ht1
      have hr := round32_rel_grid (s + t i) (add_nonneg hs0 ht0) (grid_add _ _ hg htg)
      have hpk : (1 - 2 ^ (-24 : ℤ) : ℚ) ^ k ≤ 1 - 2 ^ (-24 : ℤ) :=
        pow_le_of_le_one hu0 hu1 hk
      have hqk : (1 + 2 ^ (-24 : ℤ) : ℚ) ≤ (1 + 2 ^ (-24 : ℤ)) ^ k := le_self_pow₀ hv1 hk
      have hlo : (1 - 2 ^ (-24 : ℤ)) ^ (k + 1) * (S + T i) ≤
          Machine.round32 (s + t i) := by
        have e1 : (1 - 2 ^ (-24 : ℤ) : ℚ) ^ k * T i ≤ (1 - 2 ^ (-24 : ℤ)) * T i :=
          mul_le_mul_of_nonneg_right hpk hT
        have e2 : (1 - 2 ^ (-24 : ℤ) : ℚ) ^ k * (S + T i) ≤ s + t i := by
          rw [mul_add]
          linarith
        calc (1 - 2 ^ (-24 : ℤ) : ℚ) ^ (k + 1) * (S + T i)
            = (1 - 2 ^ (-24 : ℤ)) * ((1 - 2 ^ (-24 : ℤ)) ^ k * (S + T i)) := by
              rw [pow_succ]
              ring
          _ ≤ (1 - 2 ^ (-24 : ℤ)) * (s + t i) := mul_le_mul_of_nonneg_left e2 hu0
          _ ≤ Machine.round32 (s + t i) := hr.1
      have hhi : Machine.round32 (s + t i) ≤
          (1 + 2 ^ (-24 : ℤ)) ^ (k + 1) * (S + T i) := by
        have e1 : (1 + 2 ^ (-24 : ℤ) : ℚ) * T i ≤ (1 + 2 ^ (-24 : ℤ)) ^ k * T i :=
          mul_le_mul_of_nonneg_right hqk hT
        have e2 : s + t i ≤ (1 + 2 ^ (-24 : ℤ) : ℚ) ^ k * (S + T i) := by
          rw [mul_add]
          linarith
        calc Machine.round32 (s + t i) ≤ (1 + 2 ^ (-24 : ℤ)) * (s + t i) := hr.2
          _ ≤ (1 + 2 ^ (-24 : ℤ)) * ((1 + 2 ^ (-24 : ℤ)) ^ k * (S + T i)) :=
              mul_le_mul_of_nonneg_left e2 hv0
          _ = (1 + 2 ^ (-24 : ℤ) : ℚ) ^ (k + 1) * (S + T i) := by
              rw [pow_succ]
              ring
      have := ih (fun j hj => hl j (List.mem_cons_of_mem i hj)) (Machine.round32 (s + t i))
        (S + T i) (k + 1) (Nat.succ_ne_zero k) (add_nonneg hS hT) (round32_grid _) hlo hhi
      rw [List.foldl_cons, List.map_cons, List.sum_cons, List.length_cons]
      have e3 : k + (l.length + 1) = k + 1 + l.length := by omega
      have e4 : S + (T i + (l.map T).sum) = S + T i + (l.map T).sum := by ring
      rw [e3, e4]
      exact this
  have := key l h 0 0 1 one_ne_zero (le_refl 0) grid_zero (by simp) (by simp)
  unfold Reference.sum32
  rw [zero_add, add_comm 1 l.length] at this
  exact this

/-- A power of `1 + 2^(-24)` with an exponent of at most `2049` is at most `1 + 1/8000`. -/
theorem one_add_pow_le (n : ℕ) (hn : n ≤ 2049) :
    (1 + 2 ^ (-24 : ℤ) : ℚ) ^ n ≤ 1 + 1 / 8000 := by
  have key : ∀ k : ℕ, k ≤ 2049 →
      (1 + 2 ^ (-24 : ℤ) : ℚ) ^ k ≤ 1 + 51 / 50 * (k : ℚ) * 2 ^ (-24 : ℤ) := by
    intro k
    induction k with
    | zero =>
      intro _
      simp
    | succ k ih =>
      intro hk
      have h := ih (by omega)
      have hk' : (k : ℚ) ≤ 2049 := by exact_mod_cast (by omega : k ≤ 2049)
      have hk0 : (0 : ℚ) ≤ (k : ℚ) := Nat.cast_nonneg k
      have hu : (2 : ℚ) ^ (-24 : ℤ) = 1 / 16777216 := by norm_num
      rw [pow_succ]
      rw [hu] at h ⊢
      push_cast
      have h2 : (1 + 1 / 16777216 : ℚ) ^ k * (1 + 1 / 16777216) ≤
          (1 + 51 / 50 * (k : ℚ) * (1 / 16777216)) * (1 + 1 / 16777216) :=
        mul_le_mul_of_nonneg_right h (by norm_num)
      nlinarith
  have h := key n hn
  have hn' : (n : ℚ) ≤ 2049 := by exact_mod_cast hn
  have hu : (2 : ℚ) ^ (-24 : ℤ) = 1 / 16777216 := by norm_num
  rw [hu] at h ⊢
  linarith

/-- A power of `1 - 2^(-24)` with an exponent of at most `2049` is at least `1 - 1/8000`. -/
theorem one_sub_pow_ge (n : ℕ) (hn : n ≤ 2049) :
    1 - 1 / 8000 ≤ (1 - 2 ^ (-24 : ℤ) : ℚ) ^ n := by
  have h := one_add_mul_le_pow (show (-2 : ℚ) ≤ -(2 ^ (-24 : ℤ))  by norm_num) n
  have hn' : (n : ℚ) ≤ 2049 := by exact_mod_cast hn
  have hu : (2 : ℚ) ^ (-24 : ℤ) = 1 / 16777216 := by norm_num
  rw [hu] at h
  have e : (1 + -(1 / 16777216) : ℚ) = 1 - 1 / 16777216 := by ring
  rw [e] at h
  rw [hu]
  linarith

/-- Rounding a multiple of `2^(-149)` of either sign: the relative error is at most
`2^(-24)`. -/
theorem round32_abs_rel_grid (w : ℚ) (hg : ∃ z : ℤ, w = (z : ℚ) * 2 ^ (-149 : ℤ)) :
    |Machine.round32 w - w| ≤ 2 ^ (-24 : ℤ) * |w| := by
  by_cases h : (2 : ℚ) ^ (-126 : ℤ) ≤ |w|
  · exact round32_rel w h
  · obtain ⟨z, rfl⟩ := hg
    rw [round32_exact_small z (not_le.mp h), sub_self, abs_zero]
    positivity

/-- A sum accumulated in single precision of terms of either sign, each within the relative
error `2^(-24)` of its exact value: after `n` additions the absolute error is at most
`(1 + 2^(-24))^(n+1) - 1` times the sum of the magnitudes of the exact terms. -/
theorem sum32_abs_bounds (t T : ℤ → ℚ) (l : List ℤ)
    (h : ∀ i ∈ l, (∃ z : ℤ, t i = (z : ℚ) * 2 ^ (-149 : ℤ)) ∧
      |t i - T i| ≤ 2 ^ (-24 : ℤ) * |T i|) :
    |Reference.sum32 t l - (l.map T).sum| ≤
      ((1 + 2 ^ (-24 : ℤ)) ^ (l.length + 1) - 1) * (l.map (fun i => |T i|)).sum := by
  have hu : (2 : ℚ) ^ (-24 : ℤ) = 1 / 16777216 := by norm_num
  have hv1 : (1 : ℚ) ≤ 1 + 1 / 16777216 := by norm_num
  rw [hu]
  have key : ∀ (l : List ℤ), (∀ i ∈ l, (∃ z : ℤ, t i = (z : ℚ) * 2 ^ (-149 : ℤ)) ∧
      |t i - T i| ≤ 1 / 16777216 * |T i|) →
      ∀ (s S A : ℚ) (k : ℕ), k ≠ 0 → (∃ z : ℤ, s = (z : ℚ) * 2 ^ (-149 : ℤ)) → |S| ≤ A →
      |s - S| ≤ ((1 + 1 / 16777216) ^ k - 1) * A →
      |l.foldl (fun s i => Machine.round32 (s + t i)) s - (S + (l.map T).sum)| ≤
        ((1 + 1 / 16777216) ^ (k + l.length) - 1) * (A + (l.map (fun i => |T i|)).sum) := by
    intro l
    induction l with
    | nil =>
      intro _ s S A k _ _ _ h1
      simpa using h1
    | cons i l ih =>
      intro hl s S A k hk hg hSA hsS
      obtain ⟨htg, htT⟩ := hl i (List.mem_cons_self i l)
      have hg1 : (1 + 1 / 16777216 : ℚ) ≤ (1 + 1 / 16777216) ^ k := le_self_pow₀ hv1 hk
      set g : ℚ := (1 + 1 / 16777216) ^ k with hgdef
      have hA0 : 0 ≤ A := le_trans (abs_nonneg S) hSA
      have ha0 : 0 ≤ |T i| := abs_nonneg _
      have hr := round32_abs_rel_grid (s + t i) (grid_add _ _ hg htg)
      rw [hu] at hr
      have hs : |s| ≤ g * A := by
        have := abs_sub_abs_le_abs_sub s S
        nlinarith
      have ht : |t i| ≤ (1 + 1 / 16777216) * |T i| := by
        have := abs_sub_abs_le_abs_sub (t i) (T i)
        linarith
      have hx : |s + t i| ≤ g * A + (1 + 1 / 16777216) * |T i| :=
        le_trans (abs_add s (t i)) (add_le_add hs ht)
      have hga : (1 + 1 / 16777216) * |T i| ≤ g * |T i| :=
        mul_le_mul_of_nonneg_right hg1 ha0
      have hS' : |S + T i| ≤ A + |T i| := le_trans (abs_add S (T i)) (add_le_add hSA (le_refl _))
      have hnew : |Machine.round32 (s + t i) - (S + T i)| ≤
          ((1 + 1 / 16777216) ^ (k + 1) - 1) * (A + |T i|) := by
        have e : Machine.round32 (s + t i) - (S + T i) =
            (Machine.round32 (s + t i) - (s + t i)) + (s - S) + (t i - T i) := by ring
        have tri : |Machine.round32 (s + t i) - (S + T i)| ≤
            |Machine.round32 (s + t i) - (s + t i)| + |s - S| + |t i - T i| := by
          rw [e]
          exact le_trans (abs_add _ _) (add_le_add (abs_add _ _) (le_refl _))
        rw [pow_succ]
        have e5 : (g * (1 + 1 / 16777216) - 1) * (A + |T i|) =
            g * A * (1 + 1 / 16777216) - A + (g * |T i|) * (1 + 1 / 16777216) - |T i| := by
          ring
        rw [e5]
        have e6 : ((1 + 1 / 16777216 : ℚ) ^ k - 1) * A = g * A - A := by ring
        rw [e6] at hsS
        nlinarith
      have := ih (fun j hj => hl j (List.mem_cons_of_mem i hj)) (Machine.round32 (s + t i))
        (S + T i) (A + |T i|) (k + 1) (Nat.succ_ne_zero k) (round32_grid _) hS' hnew
      rw [List.foldl_cons, List.map_cons, List.sum_cons, List.map_cons, List.sum_cons,
        List.length_cons]
      have e3 : k + (l.length + 1) = k + 1 + l.length := by omega
      have e4 : S + (T i + (l.map T).sum) = S + T i + (l.map T).sum := by ring
      have e7 : A + (|T i| + (l.map (fun i => |T i|)).sum) =
          A + |T i| + (l.map (fun i => |T i|)).sum := by ring
      rw [e3, e4, e7]
      exact this
  have := key l (fun i hi => by
    have := h i hi
    rw [hu] at this
    exact this) 0 0 0 1 one_ne_zero grid_zero (by simp) (by simp)
  unfold Reference.sum32
  rw [zero_add, zero_add, add_comm 1 l.length] at this
  exact this

/-- Weighted sums of points of `[a, b]` with non-negative weights lie between `a` and `b`
times the sum of the weights. -/
theorem list_weighted_bounds (H : ℤ → ℚ) (a b : ℤ) (l : List ℤ)
    (h : ∀ i ∈ l, a ≤ i ∧ i ≤ b ∧ 0 ≤ H i) :
    (a : ℚ) * (l.map H).sum ≤ (l.map (fun i : ℤ => (i : ℚ) * H i)).sum ∧
      (l.map (fun i : ℤ => (i : ℚ) * H i)).sum ≤ (b : ℚ) * (l.map H).sum ∧
      0 ≤ (l.map H).sum := by
  induction l with
  | nil => simp
  | cons i l ih =>
    obtain ⟨h1, h2, h3⟩ := ih (fun j hj => h j (List.mem_cons_of_mem i hj))
    obtain ⟨hia, hib, hH⟩ := h i (List.mem_cons_self i l)
    have hia' : (a : ℚ) ≤ (i : ℚ) := by exact_mod_cast hia
    have hib' : (i : ℚ) ≤ (b : ℚ) := by exact_mod_cast hib
    simp only [List.map_cons, List.sum_cons]
    refine ⟨?_, ?_, add_nonneg hH h3⟩
    · have := mul_le_mul_of_nonneg_right hia' hH
      rw [mul_add]
      linarith
    · have := mul_le_mul_of_nonneg_right hib' hH
      rw [mul_add]
      linarith

/-- The sum of the magnitudes `|i| * h i` over points of magnitude at most `B` with
non-negative weights is at most `B` times the sum of the weights. -/
theorem list_abs_weighted_bound (H : ℤ → ℚ) (B : ℚ) (l : List ℤ)
    (h : ∀ i ∈ l, |(i : ℚ)| ≤ B ∧ 0 ≤ H i) :
    (l.map (fun i : ℤ => |(i : ℚ) * H i|)).sum ≤ B * (l.map H).sum := by
  induction l with
  | nil => simp
  | cons i l ih =>
    have h1 := ih (fun j hj => h j (List.mem_cons_of_mem i hj))
    obtain ⟨hi, hH⟩ := h i (List.mem_cons_self i l)
    simp only [List.map_cons, List.sum_cons]
    rw [abs_mul, abs_of_nonneg hH, mul_add]
    have := mul_le_mul_of_nonneg_right hi hH
    linarith

/-- The length of the sample list. -/
theorem sampleList_length (a b : ℤ) :
    (Reference.sampleList a b).length = Reference.sampleCount a b (Reference.step a b) := by
  unfold Reference.sampleList
  rw [List.length_map, List.length_range]

/-- A value above `a - 1/2` does not round below the integer `a`. -/
theorem le_rintf_of_lt (a : ℤ) (x : ℚ) (h : (a : ℚ) - 1 / 2 < x) : a ≤ rintf x := by
  have hr := abs_le.mp (rintf_nearest x)
  have h1 : (a : ℚ) - 1 < ((rintf x : ℤ) : ℚ) := by linarith [hr.1]
  have h2 : a - 1 < rintf x := by exact_mod_cast h1
  omega

/-- A value below `b + 1/2` does not round above the integer `b`. -/
theorem rintf_le_of_lt (b : ℤ) (x : ℚ) (h : x < (b : ℚ) + 1 / 2) : rintf x ≤ b := by
  have hr := abs_le.mp (rintf_nearest x)
  have h1 : ((rintf x : ℤ) : ℚ) < (b : ℚ) + 1 := by linarith [hr.2]
  have h2 : rintf x < b + 1 := by exact_mod_cast h1
  omega

/-- The two sums of `getCrispValue` over at most `2048` sample points of `[-1024, 1024]` with
non-negative binary32 heights: the total weight is within the relative error `1/8000` of the
exact sum `W`, and the weighted sum within the absolute error `1024 * W / 8000` of the exact
sum. -/
theorem machine_sums_bounds (H : ℤ → ℚ) (l : List ℤ) (hlen : l.length ≤ 2048)
    (hl : ∀ i ∈ l, -1024 ≤ i ∧ i ≤ 1024 ∧ 0 ≤ H i ∧
      ∃ z : ℤ, H i = (z : ℚ) * 2 ^ (-149 : ℤ)) :
    (1 - 1 / 8000) * (l.map H).sum ≤ Reference.sum32 H l ∧
      Reference.sum32 H l ≤ (1 + 1 / 8000) * (l.map H).sum ∧
      |Reference.sum32 (fun i => Machine.round32 (Machine.round32 (i : ℚ) * H i)) l -
        (l.map (fun i : ℤ => (i : ℚ) * H i)).sum| ≤ 1 / 8000 * (1024 * (l.map H).sum) := by
  have hN : l.length + 1 ≤ 2049 := by omega
  have hp := one_add_pow_le _ hN
  have hm := one_sub_pow_ge _ hN
  have hW0 : 0 ≤ (l.map H).sum :=
    (list_weighted_bounds H (-1024) 1024 l (fun i hi => ⟨(hl i hi).1, (hl i hi).2.1,
      (hl i hi).2.2.1⟩)).2.2
  have hA := list_abs_weighted_bound H 1024 l (fun i hi => by
    obtain ⟨h0, h1, h2, _⟩ := hl i hi
    refine ⟨?_, h2⟩
    rw [abs_le]
    constructor
    · exact_mod_cast h0
    · exact_mod_cast h1)
  have hA0 : 0 ≤ (l.map (fun i : ℤ => |(i : ℚ) * H i|)).sum :=
    List.sum_nonneg (fun x hx => by
      rw [List.mem_map] at hx
      obtain ⟨i, _, rfl⟩ := hx
      exact abs_nonneg _)
  have hw := sum32_bounds H H l (fun i hi => by
    obtain ⟨_, _, h0, hg⟩ := hl i hi
    have hu : (0 : ℚ) ≤ 2 ^ (-24 : ℤ) := by positivity
    refine ⟨h0, hg, ?_, ?_⟩ <;> nlinarith)
  have hs := sum32_abs_bounds (fun i => Machine.round32 (Machine.round32 (i : ℚ) * H i))
    (fun i : ℤ => (i : ℚ) * H i) l (fun i hi => by
    obtain ⟨hi0, hi1, _, z, hz⟩ := hl i hi
    have hri : Machine.round32 (i : ℚ) = (i : ℚ) :=
      round32_int i (by rw [abs_le]; constructor <;> omega)
    have hgrid : ∃ y : ℤ, (i : ℚ) * H i = (y : ℚ) * 2 ^ (-149 : ℤ) :=
      ⟨i * z, by rw [hz]; push_cast; ring⟩
    simp only [hri]
    exact ⟨round32_grid _, round32_abs_rel_grid _ hgrid⟩)
  refine ⟨?_, ?_, ?_⟩
  · exact le_trans (mul_le_mul_of_nonneg_right hm hW0) hw.1
  · exact le_trans hw.2 (mul_le_mul_of_nonneg_right hp hW0)
  · refine le_trans hs ?_
    have h1 : ((1 + 2 ^ (-24 : ℤ) : ℚ) ^ (l.length + 1) - 1) *
        (l.map (fun i : ℤ => |(i : ℚ) * H i|)).sum ≤
        1 / 8000 * (l.map (fun i : ℤ => |(i : ℚ) * H i|)).sum :=
      mul_le_mul_of_nonneg_right (by linarith) hA0
    have h2 : (1 / 8000 : ℚ) * (l.map (fun i : ℤ => |(i : ℚ) * H i|)).sum ≤
        1 / 8000 * (1024 * (l.map H).sum) :=
      mul_le_mul_of_nonneg_left hA (by norm_num)
    exact le_trans h1 h2

/-- The rounded quotient of a positive weighted sum `s` and a total weight `w`, where `w` is
within the relative error `1/8000` of an exact sum `W`, `s` within `1024 * W / 8000` of an
exact sum `S`, and `lo * W ≤ S ≤ hi * W` with `lo ≤ hi ≤ 1024`: it lies strictly
between `lo - 1/2` and `hi + 1/2`. -/
theorem round32_quotient_bounds (w s W S lo hi : ℚ) (hW0 : 0 ≤ W) (hlohi : lo ≤ hi)
    (hhi : hi ≤ 1024) (h1 : lo * W ≤ S) (h2 : S ≤ hi * W)
    (hw1 : (1 - 1 / 8000) * W ≤ w) (hw2 : w ≤ (1 + 1 / 8000) * W)
    (hs : |s - S| ≤ 1 / 8000 * (1024 * W)) (hpos : 0 < s) :
    0 < w ∧ lo - 1 / 2 < Machine.round32 (s / w) ∧ Machine.round32 (s / w) < hi + 1 / 2 := by
  have hsb := abs_le.mp hs
  have hW : 0 < W := by
    rcases hW0.lt_or_eq with h | h
    · exact h
    · rw [← h] at h2 hsb
      simp only [mul_zero] at h2 hsb
      linarith [hsb.2]
  have hw0 : 0 < w := by nlinarith
  have hρ0 : 0 ≤ s / w := div_nonneg hpos.le hw0.le
  have hhi0 : 0 < hi + 16 / 125 := by
    by_contra hneg
    have := mul_nonpos_of_nonpos_of_nonneg (not_lt.mp hneg) hW.le
    nlinarith [hsb.2]
  have hup : s / w ≤ hi + 13 / 50 := by
    rw [div_le_iff₀ hw0]
    have hb : 0 ≤ (hi + 13 / 50) * (1 - 1 / 8000) - (hi + 16 / 125) := by linarith
    have e1 := mul_nonneg hb hW.le
    have e2 : (0 : ℚ) ≤ hi + 13 / 50 := by linarith
    have e3 := mul_le_mul_of_nonneg_left hw1 e2
    nlinarith [hsb.2]
  have hdn : lo - 13 / 50 ≤ s / w := by
    by_cases hneg : lo - 13 / 50 ≤ 0
    · linarith
    · rw [le_div_iff₀ hw0]
      have hp : 0 ≤ lo - 13 / 50 := by linarith
      have hb : 0 ≤ (lo - 16 / 125) - (lo - 13 / 50) * (1 + 1 / 8000) := by linarith
      have e1 := mul_nonneg hb hW.le
      have e3 := mul_le_mul_of_nonneg_left hw2 hp
      nlinarith [hsb.1]
  have herr := abs_le.mp (round32_err_le (s / w) 2048
    (by rw [abs_of_nonneg hρ0]; linarith) (by norm_num))
  have hu : (2 : ℚ) ^ (-24 : ℤ) * 2048 = 1 / 8192 := by norm_num
  rw [hu] at herr
  refine ⟨hw0, ?_, ?_⟩
  · linarith [herr.1]
  · linarith [herr.2]

/-! ## Machine arithmetic: the result of `getCrispValue` on ranges within `[-1024, 1024]` -/

/-- On a range `-1024 ≤ a ≤ b ≤ 1024`, with membership values and accumulated degrees that
are binary32 numbers, the machine `getCrispValue` returns `0` or an integer of `[a, b]`. -/
theorem machine_getCrispValue_range (o : FuzzyOutput) (f : ℤ → ℤ → ℚ) (fuel : ℕ)
    (hf : ∀ i, o.domain.minRange ≤ i → i ≤ o.domain.maxRange →
      ∀ c, o.domain.membership i c = some (f i c))
    (hf32 : ∀ i, o.domain.minRange ≤ i → i ≤ o.domain.maxRange →
      ∀ c, Machine.isFloat (f i c))
    (hm32 : ∀ c, Machine.isFloat (o.m c))
    (ha : -1024 ≤ o.domain.minRange) (hab : o.domain.minRange ≤ o.domain.maxRange)
    (hb : o.domain.maxRange ≤ 1024)
    (hfuel : Reference.sampleCount o.domain.minRange o.domain.maxRange
      (Reference.step o.domain.minRange o.domain.maxRange) < fuel) :
    ∃ r : ℤ, Machine.getCrispValue fuel o = Machine.Outcome.done r ∧
      (r = 0 ∨ (o.domain.minRange ≤ r ∧ r ≤ o.domain.maxRange)) := by
  have hmin : Machine.INT_MIN = -2147483648 := rfl
  have hmax : Machine.INT_MAX = 2147483647 := rfl
  have hstep : Reference.step o.domain.minRange o.domain.maxRange ≤ 2 := by
    unfold Reference.step
    omega
  have hint := machine_integrate_eq o f fuel hf (by omega) (by omega) (by omega) (by omega)
    (by omega) hfuel
  have hlen : (Reference.sampleList o.domain.minRange o.domain.maxRange).length ≤ 2048 := by
    rw [sampleList_length]
    exact sampleCount_le _ _
  have hl : ∀ i ∈ Reference.sampleList o.domain.minRange o.domain.maxRange,
      -1024 ≤ i ∧ i ≤ 1024 ∧ 0 ≤ FuzzyOutput.heightOf o.m f i ∧
        ∃ z : ℤ, FuzzyOutput.heightOf o.m f i = (z : ℚ) * 2 ^ (-149 : ℤ) := by
    intro i hi
    have hbnd := mem_sampleList_bounds _ _ i hi
    exact ⟨by omega, by omega, heightOf_nonneg _ _ _, grid_of_isFloat _
      (heightOf_isFloat o.m f i hm32 (hf32 i hbnd.1 hbnd.2))⟩
  have hsum := machine_sums_bounds (FuzzyOutput.heightOf o.m f) _ hlen hl
  have hwb := list_weighted_bounds (FuzzyOutput.heightOf o.m f) o.domain.minRange
    o.domain.maxRange (Reference.sampleList o.domain.minRange o.domain.maxRange)
    (fun i hi => by
      have hbnd := mem_sampleList_bounds _ _ i hi
      exact ⟨hbnd.1, hbnd.2, heightOf_nonneg _ _ _⟩)
  by_cases hg : Reference.sum32 (fun i => Machine.round32
      (Machine.round32 (i : ℚ) * FuzzyOutput.heightOf o.m f i))
      (Reference.sampleList o.domain.minRange o.domain.maxRange) < Machine.round32 (1 / 100)
  · exact ⟨0, machine_getCrispValue_guard o fuel _ _ hint hg, Or.inl rfl⟩
  · have hc : (0 : ℚ) < Machine.round32 (1 / 100) :=
      lt_of_lt_of_le (by positivity) round32_guard_bounds.1
    have hs0 := lt_of_lt_of_le hc (not_lt.mp hg)
    have habq : (o.domain.minRange : ℚ) ≤ (o.domain.maxRange : ℚ) := by exact_mod_cast hab
    have hbq : (o.domain.maxRange : ℚ) ≤ 1024 := by exact_mod_cast hb
    have hq := round32_quotient_bounds _ _ _ _ (o.domain.minRange : ℚ) (o.domain.maxRange : ℚ)
      hwb.2.2 habq hbq hwb.1 hwb.2.1 hsum.1 hsum.2.1 hsum.2.2 hs0
    have hr1 := le_rintf_of_lt _ _ hq.2.1
    have hr2 := rintf_le_of_lt _ _ hq.2.2
    refine ⟨_, ?_, Or.inr ⟨hr1, hr2⟩⟩
    rw [machine_getCrispValue_quotient o fuel _ _ hint hg (ne_of_gt hq.1)]
    exact toInt_of_mem _ (by omega) (by omega)

/-- C19 as stated fails in single precision: for the range `[16777217, 16777217]` (so
`a ≤ b`), membership `1` everywhere and every accumulated degree `1`, `getCrispValue`
returns `16777216`, which is neither `0` nor an integer of the range. -/
theorem machine_getCrispValue_in_range_counterexample :
    Machine.getCrispValue 2 ⟨⟨16777217, 16777217, fun _ _ => some 1⟩, fun _ => 1⟩ =
        Machine.Outcome.done 16777216 ∧
      (16777216 : ℤ) ≠ 0 ∧ ¬ ((16777217 : ℤ) ≤ 16777216 ∧ (16777216 : ℤ) ≤ 16777217) :=
  ⟨machine_getCrispValue_16777217, by decide, by decide⟩

/-- C19 (amended): for every domain with range bounds `-1024 ≤ a ≤ b ≤ 1024`, every
membership function whose values on the range are binary32 numbers of `[0,1]`, every
accumulated state of binary32 degrees of `[0,1]`, and enough fuel, `getCrispValue` returns
either `0` (the guard fallback) or an integer `r` with `a ≤ r ≤ b`. -/
theorem machine_getCrispValue_in_range (o : FuzzyOutput) (f : ℤ → ℤ → ℚ) (fuel : ℕ)
    (hf : ∀ i, o.domain.minRange ≤ i → i ≤ o.domain.maxRange →
      ∀ c, o.domain.membership i c = some (f i c))
    (_hf01 : ∀ i, o.domain.minRange ≤ i → i ≤ o.domain.maxRange →
      ∀ c, 0 ≤ f i c ∧ f i c ≤ 1)
    (hf32 : ∀ i, o.domain.minRange ≤ i → i ≤ o.domain.maxRange →
      ∀ c, Machine.isFloat (f i c))
    (_hm01 : ∀ c, 0 ≤ o.m c ∧ o.m c ≤ 1) (hm32 : ∀ c, Machine.isFloat (o.m c))
    (ha : -1024 ≤ o.domain.minRange) (hab : o.domain.minRange ≤ o.domain.maxRange)
    (hb : o.domain.maxRange ≤ 1024)
    (hfuel : Reference.sampleCount o.domain.minRange o.domain.maxRange
      (Reference.step o.domain.minRange o.domain.maxRange) < fuel) :
    ∃ r : ℤ, Machine.getCrispValue fuel o = Machine.Outcome.done r ∧
      (r = 0 ∨ (o.domain.minRange ≤ r ∧ r ≤ o.domain.maxRange)) :=
  machine_getCrispValue_range o f fuel hf hf32 hm32 ha hab hb hfuel

/-- C19 (amended) at the range `[-90, 90]` of the demo domain `Direction`, with membership
`1` everywhere and every accumulated degree `1`, on fuel `200`. -/
theorem machine_getCrispValue_in_range_witness :
    ∃ r : ℤ, Machine.getCrispValue 200 ⟨⟨-90, 90, fun _ _ => some 1⟩, fun _ => 1⟩ =
        Machine.Outcome.done r ∧ (r = 0 ∨ ((-90 : ℤ) ≤ r ∧ r ≤ 90)) :=
  machine_getCrispValue_in_range ⟨⟨-90, 90, fun _ _ => some 1⟩, fun _ => 1⟩
    (fun _ _ => 1) 200 (fun _ _ _ _ => rfl) (fun _ _ _ _ => ⟨zero_le_one, le_refl 1⟩)
    (fun _ _ _ _ => round32_one) (fun _ => ⟨zero_le_one, le_refl 1⟩) (fun _ => round32_one)
    (by decide) (by decide) (by decide) (by decide)

/-! ## Machine arithmetic: defuzzification of a single `centre` category -/

/-- The sum of a list built over a range of naturals. -/
theorem list_range_map_sum (n : ℕ) (G : ℕ → ℚ) :
    ((List.range n).map G).sum = ∑ k in Finset.range n, G k := by
  induction n with
  | zero => simp
  | succ n ih =>
    rw [List.range_succ, List.map_append, List.sum_append, ih, Finset.sum_range_succ]
    simp

/-- A sum over the sample list is the sum over the sample points. -/
theorem sum_sampleList (a b : ℤ) (g : ℤ → ℚ) :
    ((Reference.sampleList a b).map g).sum = ∑ i in Reference.samples a b, g i := by
  unfold Reference.sampleList
  rw [List.map_map, list_range_map_sum, sum_samples]
  rfl

/-- The machine `centre` is symmetric about the median where no difference overflows. -/
theorem machine_centre_reflect (M dev i : ℤ) (hno : |i - M| ≤ Machine.INT_MAX) :
    Machine.centre (2 * M - i) M dev = Machine.centre i M dev := by
  have e : |2 * M - i - M| = |i - M| := by
    rw [show 2 * M - i - M = -(i - M) by ring, abs_neg]
  rw [machine_centre_eq (2 * M - i) M dev (by rw [e]; exact hno),
    machine_centre_eq i M dev hno, e]
  by_cases h : i = M
  · rw [if_pos h, if_pos (by omega)]
  · rw [if_neg h, if_neg (by omega)]

/-- The value of the machine `centre` is a multiple of `2^(-149)`. -/
theorem machine_centre_grid (x median deviation : ℤ) (hdev : 0 < deviation)
    (hno : |x - median| ≤ Machine.INT_MAX) (v : ℚ)
    (hv : Machine.centre x median deviation = some v) :
    ∃ z : ℤ, v = (z : ℚ) * 2 ^ (-149 : ℤ) := by
  obtain ⟨v', hv', _, _, _, hmed, hzero, hramp⟩ := machine_centre_bounds x median deviation
    hdev hno
  have hvv : v = v' := Option.some.inj (hv.symm.trans hv')
  rw [hvv]
  by_cases h1 : x = median
  · rw [hmed h1]
    exact grid_of_isFloat 1 round32_one
  · by_cases h2 : deviation ≤ |x - median|
    · rw [hzero h2]
      exact grid_zero
    · rw [hramp (abs_pos.mpr (sub_ne_zero.mpr h1)) (not_le.mp h2)]
      exact round32_grid _

/-- Defuzzification in machine arithmetic of a single `centre` category accumulated with
degree one, on a range within `[-1024, 1024]` sampled with step one and for a median that is
not negative: the median. -/
theorem machine_getCrispValue_single_centre (o : FuzzyOutput) (K : Fin MAX_CATEGORIES)
    (M dev : ℤ) (fuel : ℕ)
    (hmem : ∀ i, o.domain.minRange ≤ i → i ≤ o.domain.maxRange →
      ∀ c, (o.domain.membership i c).isSome = true)
    (ha : -1024 ≤ o.domain.minRange) (hb : o.domain.maxRange ≤ 1024)
    (hrange : o.domain.maxRange - o.domain.minRange < 2048) (hdev : 1 ≤ dev)
    (hlo : o.domain.minRange ≤ M - dev) (hhi : M + dev ≤ o.domain.maxRange) (hM : 0 ≤ M)
    (hK : ∀ x, o.domain.minRange ≤ x → x ≤ o.domain.maxRange →
      o.domain.membership x ((K : ℕ) : ℤ) = Machine.centre x M dev)
    (hacc : o.m K = 1) (hother : ∀ c, c ≠ K → o.m c = 0)
    (hfuel : Reference.sampleCount o.domain.minRange o.domain.maxRange
      (Reference.step o.domain.minRange o.domain.maxRange) < fuel) :
    Machine.getCrispValue fuel o = Machine.Outcome.done M := by
  have hmin : Machine.INT_MIN = -2147483648 := rfl
  have hmax : Machine.INT_MAX = 2147483647 := rfl
  have hdev0 : 0 < dev := by omega
  have hno : ∀ i, o.domain.minRange ≤ i → i ≤ o.domain.maxRange →
      |i - M| ≤ Machine.INT_MAX := by
    intro i h1 h2
    rw [abs_le]
    constructor <;> omega
  have hf : ∀ i, o.domain.minRange ≤ i → i ≤ o.domain.maxRange →
      ∀ c, o.domain.membership i c = some ((o.domain.membership i c).getD 0) := by
    intro i h1 h2 c
    obtain ⟨v, hv⟩ := Option.isSome_iff_exists.mp (hmem i h1 h2 c)
    rw [hv]
    rfl
  have hfK : ∀ i, o.domain.minRange ≤ i → i ≤ o.domain.maxRange →
      Machine.centre i M dev = some ((o.domain.membership i ((K : ℕ) : ℤ)).getD 0) :=
    fun i h1 h2 => by rw [← hK i h1 h2]; exact hf i h1 h2 _
  have hh : ∀ i, o.domain.minRange ≤ i → i ≤ o.domain.maxRange →
      FuzzyOutput.heightOf o.m (fun i c => (o.domain.membership i c).getD 0) i =
        (o.domain.membership i ((K : ℕ) : ℤ)).getD 0 := by
    intro i h1 h2
    obtain ⟨v, hv, h0, h1', _⟩ := machine_centre_bounds i M dev hdev0 (hno i h1 h2)
    have e : (o.domain.membership i ((K : ℕ) : ℤ)).getD 0 = v :=
      Option.some.inj ((hfK i h1 h2).symm.trans hv)
    exact heightOf_single o.m K hacc hother _ i (by rw [e]; exact h0) (by rw [e]; exact h1')
  have hstep : Reference.step o.domain.minRange o.domain.maxRange = 1 := by
    unfold Reference.step
    omega
  have hint := machine_integrate_eq o (fun i c => (o.domain.membership i c).getD 0) fuel hf
    (by omega) (by omega) (by omega) (by omega) (by rw [hstep]; omega) hfuel
  have hlen : (Reference.sampleList o.domain.minRange o.domain.maxRange).length ≤ 2048 := by
    rw [sampleList_length]
    exact sampleCount_le _ _
  have hl : ∀ i ∈ Reference.sampleList o.domain.minRange o.domain.maxRange,
      -1024 ≤ i ∧ i ≤ 1024 ∧
        0 ≤ FuzzyOutput.heightOf o.m (fun i c => (o.domain.membership i c).getD 0) i ∧
        ∃ z : ℤ, FuzzyOutput.heightOf o.m (fun i c => (o.domain.membership i c).getD 0) i =
          (z : ℚ) * 2 ^ (-149 : ℤ) := by
    intro i hi
    have hbnd := mem_sampleList_bounds _ _ i hi
    refine ⟨by omega, by omega, heightOf_nonneg _ _ _, ?_⟩
    rw [hh i hbnd.1 hbnd.2]
    exact machine_centre_grid i M dev hdev0 (hno i hbnd.1 hbnd.2) _ (hfK i hbnd.1 hbnd.2)
  have hsum := machine_sums_bounds
    (FuzzyOutput.heightOf o.m (fun i c => (o.domain.membership i c).getD 0)) _ hlen hl
  have hIcc : Reference.samples o.domain.minRange o.domain.maxRange =
      Finset.Icc o.domain.minRange o.domain.maxRange := samples_eq_Icc _ _ (by omega)
  have hg0 : ∀ i, 0 ≤ (if |i - M| < dev then
      (o.domain.membership i ((K : ℕ) : ℤ)).getD 0 else 0) := by
    intro i
    by_cases hc : |i - M| < dev
    · rw [if_pos hc]
      have hb' := abs_lt.mp hc
      obtain ⟨v, hv, h0, _⟩ := machine_centre_bounds i M dev hdev0
        (hno i (by omega) (by omega))
      have e : (o.domain.membership i ((K : ℕ) : ℤ)).getD 0 = v :=
        Option.some.inj ((hfK i (by omega) (by omega)).symm.trans hv)
      rw [e]
      exact h0
    · rw [if_neg hc]
  have hgH : ∀ i ∈ Finset.Icc o.domain.minRange o.domain.maxRange,
      FuzzyOutput.heightOf o.m (fun i c => (o.domain.membership i c).getD 0) i =
        (if |i - M| < dev then (o.domain.membership i ((K : ℕ) : ℤ)).getD 0 else 0) := by
    intro i hi
    rw [Finset.mem_Icc] at hi
    rw [hh i hi.1 hi.2]
    by_cases hc : |i - M| < dev
    · rw [if_pos hc]
    · rw [if_neg hc]
      obtain ⟨v, hv, _, _, _, _, hzero, _⟩ := machine_centre_bounds i M dev hdev0
        (hno i hi.1 hi.2)
      have e : (o.domain.membership i ((K : ℕ) : ℤ)).getD 0 = v :=
        Option.some.inj ((hfK i hi.1 hi.2).symm.trans hv)
      rw [e]
      exact hzero (not_lt.mp hc)
  have hsym : ∀ i, (if |2 * M - i - M| < dev then
      (o.domain.membership (2 * M - i) ((K : ℕ) : ℤ)).getD 0 else 0) =
      (if |i - M| < dev then (o.domain.membership i ((K : ℕ) : ℤ)).getD 0 else 0) := by
    intro i
    have e : |2 * M - i - M| = |i - M| := by
      rw [show 2 * M - i - M = -(i - M) by ring, abs_neg]
    rw [e]
    by_cases hc : |i - M| < dev
    · rw [if_pos hc, if_pos hc]
      have hb' := abs_lt.mp hc
      apply Option.some.inj
      rw [← hfK (2 * M - i) (by omega) (by omega), ← hfK i (by omega) (by omega)]
      exact machine_centre_reflect M dev i (hno i (by omega) (by omega))
    · rw [if_neg hc, if_neg hc]
  have hmom := sum_symmetric_moment o.domain.minRange o.domain.maxRange M dev
    (fun i => if |i - M| < dev then (o.domain.membership i ((K : ℕ) : ℤ)).getD 0 else 0)
    hlo hhi hsym (fun i hi => if_neg (not_lt.mpr hi))
  have hMmem : M ∈ Finset.Icc o.domain.minRange o.domain.maxRange := by
    rw [Finset.mem_Icc]
    omega
  have hpeak : (if |M - M| < dev then (o.domain.membership M ((K : ℕ) : ℤ)).getD 0 else 0) =
      1 := by
    rw [if_pos (by simpa using hdev0)]
    obtain ⟨v, hv, _, _, _, hmed, _⟩ := machine_centre_bounds M M dev hdev0
      (hno M (by omega) (by omega))
    have e : (o.domain.membership M ((K : ℕ) : ℤ)).getD 0 = v :=
      Option.some.inj ((hfK M (by omega) (by omega)).symm.trans hv)
    rw [e]
    exact hmed rfl
  have hWsum : ((Reference.sampleList o.domain.minRange o.domain.maxRange).map
      (FuzzyOutput.heightOf o.m (fun i c => (o.domain.membership i c).getD 0))).sum =
      ∑ i in Finset.Icc o.domain.minRange o.domain.maxRange,
        (if |i - M| < dev then (o.domain.membership i ((K : ℕ) : ℤ)).getD 0 else 0) := by
    rw [sum_sampleList, hIcc]
    exact Finset.sum_congr rfl hgH
  have hSsum : ((Reference.sampleList o.domain.minRange o.domain.maxRange).map
      (fun i : ℤ => (i : ℚ) *
        FuzzyOutput.heightOf o.m (fun i c => (o.domain.membership i c).getD 0) i)).sum =
      (M : ℚ) * ∑ i in Finset.Icc o.domain.minRange o.domain.maxRange,
        (if |i - M| < dev then (o.domain.membership i ((K : ℕ) : ℤ)).getD 0 else 0) := by
    rw [sum_sampleList, hIcc]
    have hsplit : ∀ i ∈ Finset.Icc o.domain.minRange o.domain.maxRange,
        (i : ℚ) * FuzzyOutput.heightOf o.m (fun i c => (o.domain.membership i c).getD 0) i =
          ((i : ℚ) - (M : ℚ)) *
            (if |i - M| < dev then (o.domain.membership i ((K : ℕ) : ℤ)).getD 0 else 0) +
          (M : ℚ) *
            (if |i - M| < dev then (o.domain.membership i ((K : ℕ) : ℤ)).getD 0 else 0) := by
      intro i hi
      rw [hgH i hi]
      ring
    rw [Finset.sum_congr rfl hsplit, Finset.sum_add_distrib, hmom, zero_add, Finset.mul_sum]
  have htw : (1 : ℚ) ≤ ∑ i in Finset.Icc o.domain.minRange o.domain.maxRange,
      (if |i - M| < dev then (o.domain.membership i ((K : ℕ) : ℤ)).getD 0 else 0) := by
    have := Finset.single_le_sum
      (f := fun i => if |i - M| < dev then (o.domain.membership i ((K : ℕ) : ℤ)).getD 0 else 0)
      (fun i _ => hg0 i) hMmem
    simp only [hpeak] at this
    exact this
  rw [hWsum, hSsum] at hsum
  set tw := ∑ i in Finset.Icc o.domain.minRange o.domain.maxRange,
    (if |i - M| < dev then (o.domain.membership i ((K : ℕ) : ℤ)).getD 0 else 0) with htwdef
  have hM2 : (M : ℚ) ≤ 1024 := by exact_mod_cast (by omega : M ≤ 1024)
  have hsb := abs_le.mp hsum.2.2
  have hc := round32_guard_bounds
  have h6 : (2 : ℚ) ^ (-6 : ℤ) = 1 / 64 := by norm_num
  have h7 : (0 : ℚ) < 2 ^ (-7 : ℤ) := by positivity
  by_cases hg : Reference.sum32 (fun i => Machine.round32 (Machine.round32 (i : ℚ) *
      FuzzyOutput.heightOf o.m (fun i c => (o.domain.membership i c).getD 0) i))
      (Reference.sampleList o.domain.minRange o.domain.maxRange) <
        Machine.round32 (1 / 100)
  · have hMz : M = 0 := by
      by_contra hne
      have hM1 : (1 : ℚ) ≤ (M : ℚ) := by exact_mod_cast (by omega : 1 ≤ M)
      have h2 : (1 : ℚ) ≤ (M : ℚ) * tw := by nlinarith
      rw [h6] at hc
      nlinarith [hsb.1, hc.2]
    rw [machine_getCrispValue_guard o fuel _ _ hint hg, hMz]
  · have hs0 := lt_of_lt_of_le (lt_of_lt_of_le h7 hc.1) (not_lt.mp hg)
    have hq := round32_quotient_bounds _ _ tw ((M : ℚ) * tw) (M : ℚ) (M : ℚ)
      (by linarith) (le_refl _) hM2 (le_refl _) (le_refl _)
      hsum.1 hsum.2.1 hsum.2.2 hs0
    rw [machine_getCrispValue_quotient o fuel _ _ hint hg (ne_of_gt hq.1)]
    have hr : rintf (Machine.round32
        (Reference.sum32 (fun i => Machine.round32 (Machine.round32 (i : ℚ) *
          FuzzyOutput.heightOf o.m (fun i c => (o.domain.membership i c).getD 0) i))
          (Reference.sampleList o.domain.minRange o.domain.maxRange) /
        Reference.sum32
          (FuzzyOutput.heightOf o.m (fun i c => (o.domain.membership i c).getD 0))
          (Reference.sampleList o.domain.minRange o.domain.maxRange))) = M :=
      rintf_eq_of_abs_lt _ _ (by
        rw [abs_lt]
        constructor <;> linarith [hq.2.1, hq.2.2])
    rw [hr]
    exact toInt_of_mem _ (by omega) (by omega)

/-! ## Machine arithmetic: the demo domain `Speed` and single-category domains -/

/-- With deviation `0` and no overflow the machine `centre` is the step function. -/
theorem machine_centre_zero_dev (x median : ℤ) (hno : |x - median| ≤ Machine.INT_MAX) :
    Machine.centre x median 0 = some (if x = median then 1 else 0) := by
  rw [machine_centre_eq x median 0 hno]
  by_cases h : x = median
  · rw [if_pos h, if_pos h]
  · rw [if_neg h, if_neg h, if_pos (abs_nonneg _)]

/-- The shorthand `CENTRE_CURVE` yields a value when the machine `centre` does. -/
theorem machine_CENTRE_CURVE_isSome (m : ℚ) (x category c med d : ℤ)
    (h : (Machine.centre x med d).isSome = true) :
    (Machine.CENTRE_CURVE m x category c med d).isSome = true := by
  unfold Machine.CENTRE_CURVE
  split
  · rw [Option.isSome_map']
    exact h
  · rfl

/-- The shorthand `LEFT_CURVE` yields a value when the machine `centre` does. -/
theorem machine_LEFT_CURVE_isSome (m : ℚ) (x category c med d : ℤ)
    (h : (Machine.centre x med d).isSome = true) :
    (Machine.LEFT_CURVE m x category c med d).isSome = true := by
  unfold Machine.LEFT_CURVE Machine.left
  split
  · rw [Option.isSome_map']
    split
    · rfl
    · exact h
  · rfl

/-- The shorthand `RIGHT_CURVE` yields a value when the machine `centre` does. -/
theorem machine_RIGHT_CURVE_isSome (m : ℚ) (x category c med d : ℤ)
    (h : (Machine.centre x med d).isSome = true) :
    (Machine.RIGHT_CURVE m x category c med d).isSome = true := by
  unfold Machine.RIGHT_CURVE Machine.right
  split
  · rw [Option.isSome_map']
    split
    · rfl
    · exact h
  · rfl

/-- The membership function of the machine `Speed` returns a value on the range `[0, 255]`. -/
theorem machine_speed_isSome (x c : ℤ) (h0 : 0 ≤ x) (h1 : x ≤ 255) :
    (Machine.speedMembership x c).isSome = true := by
  have hmax : Machine.INT_MAX = 2147483647 := rfl
  have e1 := machine_centre_zero_dev x 0 (by rw [abs_le]; constructor <;> omega)
  obtain ⟨v2, hv2, _⟩ := machine_centre_bounds x 64 64 (by decide)
    (by rw [abs_le]; constructor <;> omega)
  obtain ⟨v3, hv3, _⟩ := machine_centre_bounds x 128 64 (by decide)
    (by rw [abs_le]; constructor <;> omega)
  obtain ⟨v4, hv4, _⟩ := machine_centre_bounds x 196 64 (by decide)
    (by rw [abs_le]; constructor <;> omega)
  obtain ⟨w1, hw1⟩ := Option.isSome_iff_exists.mp
    (machine_CENTRE_CURVE_isSome 0 x c Speed.STOPPED 0 0 (by rw [e1]; rfl))
  obtain ⟨w2, hw2⟩ := Option.isSome_iff_exists.mp
    (machine_LEFT_CURVE_isSome w1 x c Speed.SLOW 64 64 (by rw [hv2]; rfl))
  obtain ⟨w3, hw3⟩ := Option.isSome_iff_exists.mp
    (machine_CENTRE_CURVE_isSome w2 x c Speed.MEDIUM 128 64 (by rw [hv3]; rfl))
  obtain ⟨w4, hw4⟩ := Option.isSome_iff_exists.mp
    (machine_RIGHT_CURVE_isSome w3 x c Speed.FAST 196 64 (by rw [hv4]; rfl))
  unfold Machine.speedMembership
  simp [hw1, hw2, hw3, hw4]

/-- On the range `[0, 255]` the membership of `MEDIUM` in the machine `Speed` is the machine
`centre` curve of median `128`, deviation `64`. -/
theorem machine_speed_MEDIUM (x : ℤ) (h0 : 0 ≤ x) (h1 : x ≤ 255) :
    Machine.speedMembership x 2 = Machine.centre x 128 64 := by
  have hmax : Machine.INT_MAX = 2147483647 := rfl
  obtain ⟨v, hv, hv0, _⟩ := machine_centre_bounds x 128 64 (by decide)
    (by rw [abs_le]; constructor <;> omega)
  simp [Machine.speedMembership, Machine.CENTRE_CURVE, Machine.LEFT_CURVE,
    Machine.RIGHT_CURVE, Speed.STOPPED, Speed.SLOW, Speed.MEDIUM, Speed.FAST, hv, fmax, hv0]

/-- The membership function of a single-category domain returns a value where the difference
from the median does not overflow. -/
theorem machine_single_isSome (M dev x c : ℤ) (hdev : 0 < dev)
    (hno : |x - M| ≤ Machine.INT_MAX) :
    (Machine.singleMembership M dev x c).isSome = true := by
  obtain ⟨v, hv, _⟩ := machine_centre_bounds x M dev hdev hno
  unfold Machine.singleMembership Machine.CENTRE_CURVE
  rw [hv]
  by_cases c0 : c = 0 <;> simp [c0]

/-- The category `0` of a single-category domain is the machine `centre` curve. -/
theorem machine_single_zero (M dev x : ℤ) (hdev : 0 < dev)
    (hno : |x - M| ≤ Machine.INT_MAX) :
    Machine.singleMembership M dev x 0 = Machine.centre x M dev := by
  obtain ⟨v, hv, hv0, _⟩ := machine_centre_bounds x M dev hdev hno
  simp [Machine.singleMembership, Machine.CENTRE_CURVE, hv, fmax, hv0]

/-- The single-precision sum over three points. -/
theorem sum32_three (t : ℤ → ℚ) (x y z : ℤ) :
    Reference.sum32 t [x, y, z] =
      Machine.round32 (Machine.round32 (Machine.round32 (0 + t x) + t y) + t z) := rfl

/-- The integration over the three points `M - 1, M, M + 1` of the single category
`centre(x, M, 1)` accumulated with degree one: the weights are `0, 1, 0`, the total weight is
`1` and the weighted sum is `(float)M`, rounded at each step. -/
theorem machine_integrate_peak (a b M : ℤ) (fuel : ℕ) (ha : a = M - 1) (hb : b = M + 1)
    (hl : Reference.sampleList a b = [a, M, b]) (hM : |M| ≤ 2000000000)
    (hfuel : Reference.sampleCount a b (Reference.step a b) < fuel) :
    Machine.integrate fuel ⟨Machine.single a b M 1, fun c => if (c : ℕ) = 0 then 1 else 0⟩ =
      Machine.Outcome.done (1, Machine.round32 (Machine.round32
        (Machine.round32 (Machine.round32 (M : ℚ))))) := by
  have hmin : Machine.INT_MIN = -2147483648 := rfl
  have hmax : Machine.INT_MAX = 2147483647 := rfl
  have hMb := abs_le.mp hM
  have hstep : Reference.step a b = 1 := by
    unfold Reference.step
    omega
  have hno : ∀ i, a ≤ i → i ≤ b → |i - M| ≤ Machine.INT_MAX := by
    intro i h1 h2
    rw [abs_le]
    constructor <;> omega
  have hf : ∀ i, a ≤ i → i ≤ b → ∀ c, Machine.singleMembership M 1 i c =
      some ((Machine.singleMembership M 1 i c).getD 0) := by
    intro i h1 h2 c
    obtain ⟨v, hv⟩ := Option.isSome_iff_exists.mp
      (machine_single_isSome M 1 i c (by decide) (hno i h1 h2))
    rw [hv]
    rfl
  have hK : ∀ c : Fin MAX_CATEGORIES, c ≠ ⟨0, by decide⟩ →
      (fun c : Fin MAX_CATEGORIES => if (c : ℕ) = 0 then (1 : ℚ) else 0) c = 0 := by
    intro c hc
    have : (c : ℕ) ≠ 0 := fun h => hc (Fin.ext h)
    simp [this]
  have hh : ∀ i, a ≤ i → i ≤ b → ∀ v, Machine.centre i M 1 = some v → 0 ≤ v → v ≤ 1 →
      FuzzyOutput.heightOf (fun c : Fin MAX_CATEGORIES => if (c : ℕ) = 0 then (1 : ℚ) else 0)
        (fun i c => (Machine.singleMembership M 1 i c).getD 0) i = v := by
    intro i h1 h2 v hv hv0 hv1
    have e : (Machine.singleMembership M 1 i 0).getD 0 = v := by
      rw [machine_single_zero M 1 i (by decide) (hno i h1 h2), hv]
      rfl
    have := heightOf_single (fun c : Fin MAX_CATEGORIES => if (c : ℕ) = 0 then (1 : ℚ) else 0)
      ⟨0, by decide⟩ (by simp) hK (fun i c => (Machine.singleMembership M 1 i c).getD 0) i
      (by simp only [Nat.cast_zero]; rw [e]; exact hv0)
      (by simp only [Nat.cast_zero]; rw [e]; exact hv1)
    rw [this]
    simp only [Nat.cast_zero]
    exact e
  have hza : Machine.centre a M 1 = some 0 := by
    obtain ⟨v, hv, _, _, _, _, hzero, _⟩ := machine_centre_bounds a M 1 (by decide)
      (hno a (by omega) (by omega))
    rw [hv, hzero (by rw [ha]; simp)]
  have hzb : Machine.centre b M 1 = some 0 := by
    obtain ⟨v, hv, _, _, _, _, hzero, _⟩ := machine_centre_bounds b M 1 (by decide)
      (hno b (by omega) (by omega))
    rw [hv, hzero (by rw [hb]; simp)]
  have hzM : Machine.centre M M 1 = some 1 := by
    obtain ⟨v, hv, _, _, _, hmed, _⟩ := machine_centre_bounds M M 1 (by decide)
      (hno M (by omega) (by omega))
    rw [hv, hmed rfl]
  have hHa := hh a (by omega) (by omega) 0 hza (le_refl 0) zero_le_one
  have hHb := hh b (by omega) (by omega) 0 hzb (le_refl 0) zero_le_one
  have hHM := hh M (by omega) (by omega) 1 hzM zero_le_one (le_refl 1)
  rw [machine_integrate_eq ⟨Machine.single a b M 1, fun c => if (c : ℕ) = 0 then 1 else 0⟩
    (fun i c => (Machine.singleMembership M 1 i c).getD 0) fuel hf
    (show Machine.INT_MIN ≤ a by omega) (show a ≤ Machine.INT_MAX by omega)
    (show Machine.INT_MIN ≤ b - a by omega) (show b - a ≤ Machine.INT_MAX by omega)
    (show b + Reference.step a b ≤ Machine.INT_MAX by rw [hstep]; omega) hfuel]
  show Machine.Outcome.done
    (Reference.sum32 (FuzzyOutput.heightOf
        (fun c : Fin MAX_CATEGORIES => if (c : ℕ) = 0 then (1 : ℚ) else 0)
        (fun i c => (Machine.singleMembership M 1 i c).getD 0)) (Reference.sampleList a b),
      Reference.sum32 (fun i => Machine.round32 (Machine.round32 (i : ℚ) *
        FuzzyOutput.heightOf (fun c : Fin MAX_CATEGORIES => if (c : ℕ) = 0 then (1 : ℚ) else 0)
          (fun i c => (Machine.singleMembership M 1 i c).getD 0) i))
        (Reference.sampleList a b)) = _
  rw [hl, sum32_three, sum32_three, hHa, hHb, hHM]
  simp only [mul_zero, mul_one, add_zero, zero_add, round32_zero, round32_one]

/-- C2 as stated fails in two ways.  A negative median: for the range `[-2, 0]` (step one)
with the single category `centre(x, -1, 1)` accumulated with degree `1`, the weighted sum is
negative and `getCrispValue` returns the fallback `0`, not `-1`.  A median that is not a
binary32 number: for the range `[16777216, 16777218]` with the single category
`centre(x, 16777217, 1)`, `getCrispValue` returns `16777216`, not `16777217`. -/
theorem machine_getCrispValue_round_trip_counterexample :
    Machine.getCrispValue 4
        ⟨Machine.single (-2) 0 (-1) 1, fun c => if (c : ℕ) = 0 then 1 else 0⟩ =
        Machine.Outcome.done 0 ∧
      Machine.getCrispValue 4
        ⟨Machine.single 16777216 16777218 16777217 1, fun c => if (c : ℕ) = 0 then 1 else 0⟩ =
        Machine.Outcome.done 16777216 := by
  have hc := round32_guard_bounds
  have r1 : Machine.round32 ((16777216 : ℤ) : ℚ) = 16777216 := by
    rw [round32_int 16777216 (by decide)]
    norm_num
  have r1' : Machine.round32 (16777216 : ℚ) = 16777216 := by exact_mod_cast r1
  have r2 : Machine.round32 ((-1 : ℤ) : ℚ) = -1 := by
    rw [round32_int (-1) (by decide)]
    norm_num
  have r2' : Machine.round32 (-1 : ℚ) = -1 := by exact_mod_cast r2
  constructor
  · have hint := machine_integrate_peak (-2) 0 (-1) 4 (by decide) (by decide) (by decide)
      (by decide) (by decide)
    rw [r2, r2', r2', r2'] at hint
    have hpos : (0 : ℚ) < 2 ^ (-7 : ℤ) := by positivity
    exact machine_getCrispValue_guard _ 4 _ _ hint (by linarith [hc.1])
  · have hint := machine_integrate_peak 16777216 16777218 16777217 4 (by decide) (by decide)
      (by decide) (by decide) (by decide)
    rw [round32_16777217, r1', r1', r1'] at hint
    have h6 : (2 : ℚ) ^ (-6 : ℤ) ≤ 1 := by norm_num
    rw [machine_getCrispValue_quotient _ 4 _ _ hint (by linarith [hc.2]) one_ne_zero,
      div_one, r1']
    have : rintf (16777216 : ℚ) = 16777216 := by exact_mod_cast rintf_intCast 16777216
    rw [this]
    decide

/-- C2 (amended): round trip of defuzzification in single precision.  For every domain whose
range `[a, b]` lies within `[-1024, 1024]` and is sampled with step `1` (`b - a < 2048`),
every category `K` whose membership on the range is `centre(x, M, dev)` with `dev ≥ 1`,
`a ≤ M - dev` and `M + dev ≤ b`, every median `M ≥ 0`, and enough fuel: if `K` is the only
category with a nonzero accumulated degree, and its degree is `1`, then `getCrispValue`
returns `M`. -/
theorem machine_getCrispValue_round_trip (o : FuzzyOutput) (K : Fin MAX_CATEGORIES)
    (M dev : ℤ) (fuel : ℕ)
    (hmem : ∀ i, o.domain.minRange ≤ i → i ≤ o.domain.maxRange →
      ∀ c, (o.domain.membership i c).isSome = true)
    (ha : -1024 ≤ o.domain.minRange) (hb : o.domain.maxRange ≤ 1024)
    (hrange : o.domain.maxRange - o.domain.minRange < 2048) (hdev : 1 ≤ dev)
    (hlo : o.domain.minRange ≤ M - dev) (hhi : M + dev ≤ o.domain.maxRange) (hM : 0 ≤ M)
    (hK : ∀ x, o.domain.minRange ≤ x → x ≤ o.domain.maxRange →
      o.domain.membership x ((K : ℕ) : ℤ) = Machine.centre x M dev)
    (hacc : o.m K = 1) (hother : ∀ c, c ≠ K → o.m c = 0)
    (hfuel : Reference.sampleCount o.domain.minRange o.domain.maxRange
      (Reference.step o.domain.minRange o.domain.maxRange) < fuel) :
    Machine.getCrispValue fuel o = Machine.Outcome.done M :=
  machine_getCrispValue_single_centre o K M dev fuel hmem ha hb hrange hdev hlo hhi hM hK
    hacc hother hfuel

/-- C2 (amended) at the domain `Speed`, range `[0, 255]`, with only `MEDIUM` (centre `128`,
deviation `64`) accumulated: `getCrispValue` returns `128`. -/
theorem machine_getCrispValue_round_trip_witness :
    Machine.getCrispValue 300 ⟨Machine.speed, fun c => if (c : ℕ) = 2 then 1 else 0⟩ =
      Machine.Outcome.done 128 :=
  machine_getCrispValue_round_trip ⟨Machine.speed, fun c => if (c : ℕ) = 2 then 1 else 0⟩
    ⟨2, by decide⟩ 128 64 300 (fun i h0 h1 c => machine_speed_isSome i c h0 h1)
    (by decide) (by decide) (by decide) (by decide) (by decide) (by decide) (by decide)
    (fun x h0 h1 => machine_speed_MEDIUM x h0 h1) (by simp)
    (fun c hc => by
      have : (c : ℕ) ≠ 2 := fun h => hc (Fin.ext h)
      simp [this])
    (by decide)

end Fuzzy
